import Mathlib

/-!
PCjr 40th anniversary display: the two bitmap blitters.

A shallow embedding of `draw2ColorBitmap`, `draw16ColorBitmap` and
`waitClockTicks` from `misc/PCJR40/PCJR40.C` and of the checksum loop of
`utility/crc.cpp`, followed by theorems about them.

The program is written for the IBM PCjr (an 8088 machine) with a 16-bit DOS
compiler (`far` pointers, `int86`, `bioskey`, `outportb`), so

* `int`, `short`, `unsigned short` and `unsigned int` are 16 bits wide,
* `unsigned short` operands are promoted to `unsigned int`: sums and products
  of them wrap modulo `2 ^ 16`,
* `char` is signed and `>>` on a negative `int` is an arithmetic shift,
* arithmetic on a `far` pointer changes the 16-bit offset only.

Machine integers are natural numbers holding the bit pattern; every operation
that can leave the width is followed by an explicit `% 2 ^ w`.  Signed values
(`short`, `char`, `int`) are kept as two's complement patterns, and the signed
operations (comparison, promotion, shift) are spelled out on patterns.

Video memory is the segment at `VIDEO_MEMORY_SEGMENT`, a map from the 16-bit
offset to the byte stored there.  A source bitmap is a map from the index
relative to the `bitmap` pointer to the byte stored there; the index is an
integer because the code can step the pointer in front of the array.
-/

/-! ## Constants of `PCJR40.C` -/

namespace PCjr

/-- The constant `VIDEO_MEMORY_PAGE_SIZE`, defined as `0x2000` in the source. -/
def VIDEO_MEMORY_PAGE_SIZE : Nat := 0x2000

/-- The constant `VIDEO_WIDTH_PIXELS`, defined as `320` in the source. -/
def VIDEO_WIDTH_PIXELS : Nat := 320

/-- The constant `VIDEO_HEIGHT_PIXELS`, defined as `200` in the source. -/
def VIDEO_HEIGHT_PIXELS : Nat := 200

/-- The constant `NO_COLOR`, defined as `0xFF` in the source. -/
def NO_COLOR : Nat := 0xFF

/-! ## Machine arithmetic -/

/-- Value of a 16-bit pattern read as a signed `int`. -/
def toInt16 (p : Nat) : Int :=
  if p % 65536 < 32768 then ((p % 65536 : Nat) : Int) else ((p % 65536 : Nat) : Int) - 65536

/-- Pattern of an integer stored in 16 bits. -/
def ofInt16 (v : Int) : Nat := (v % 65536).toNat

/-- Source: `div(a, b).quot` on 16-bit `int` arguments (truncating division). -/
def div_quot (a b : Nat) : Nat := ofInt16 (Int.tdiv (toInt16 a) (toInt16 b))

/-- Source: `div(a, b).rem` on 16-bit `int` arguments. -/
def div_rem (a b : Nat) : Nat := ofInt16 (Int.tmod (toInt16 a) (toInt16 b))

/-- Signed comparison `a > b` of two 16-bit patterns. -/
def sgt16 (a b : Nat) : Bool := decide (toInt16 a > toInt16 b)

/-- Promotion of a signed `char` pattern to a 16-bit `int` pattern. -/
def charToInt (c : Nat) : Nat := if c % 256 < 128 then c % 256 else c % 256 + 0xFF00

/-- Arithmetic shift right by four of a 16-bit `int` pattern. -/
def sar4 (p : Nat) : Nat := if p % 65536 < 32768 then p % 65536 / 16 else p % 65536 / 16 + 0xF000

/-! ## Memory -/

/-- Video memory: offset in the video segment to byte. -/
abbrev Mem := Nat → Nat

/-- A source bitmap: index relative to the `bitmap` pointer to byte. -/
abbrev Bitmap := Int → Nat

/-- Read of an `unsigned char` from video memory. -/
def peek (m : Mem) (a : Nat) : Nat := m a % 256

/-- Store of an `unsigned char` into video memory. -/
def poke (m : Mem) (a v : Nat) : Mem := fun i => if i = a then v % 256 else m i

/-- Pattern of the `char` read through a bitmap pointer. -/
def bitmapAt (b : Bitmap) (i : Int) : Nat := b i % 256

/-! ## `draw2ColorBitmap` -/

/-- Arguments of `draw2ColorBitmap`. -/
structure Args2 where
  bitmap : Bitmap
  width_bytes : Nat
  height_bytes : Nat
  color : Nat
  blank_color : Nat
  x_pixel : Nat
  y_pixel : Nat
  x_scale : Nat
  y_scale : Nat

/-- Local variables of `draw2ColorBitmap`, video memory and the access traces.
`writes` lists the video offsets stored to and `reads` the bitmap indices read,
newest first. -/
structure Blit2 where
  video_memory : Mem
  writes : List Nat
  reads : List Int
  x_current_screen_byte : Nat
  x_pixels_remaining : Nat
  x_scale_counter : Nat
  y_scale_counter : Nat
  current_page : Nat
  page_start : Nat
  page_row_byte : Nat
  current_screen_byte : Nat
  bitmap_bit_counter : Nat
  bitmap_byte : Int
  bitmap_byte_start_of_row : Int
  bitmap_pixel : Nat

namespace Args2

/-- Source: `const unsigned char color_left = color << 4;` -/
def color_left (a : Args2) : Nat := (a.color <<< 4) % 256

/-- Source: `const unsigned char blank_color_left = blank_color << 4;` -/
def blank_color_left (a : Args2) : Nat := (a.blank_color <<< 4) % 256

/-- Source: `unsigned short width_pixels = width_bytes * 8 * x_scale;` followed by the
reduction `if ( x_pixel + width_pixels > VIDEO_WIDTH_PIXELS )`. -/
def width_pixels (a : Args2) : Nat :=
  let width_pixels := (a.width_bytes * 8 * a.x_scale) % 65536
  if (a.x_pixel + width_pixels) % 65536 > VIDEO_WIDTH_PIXELS then
    (VIDEO_WIDTH_PIXELS + 65536 - a.x_pixel % 65536) % 65536
  else width_pixels

/-- Source: `unsigned short height_pixels = height_bytes * y_scale;` followed by the
reduction `if ( y_pixel + height_pixels > VIDEO_HEIGHT_PIXELS )`. -/
def height_pixels (a : Args2) : Nat :=
  let height_pixels := (a.height_bytes * a.y_scale) % 65536
  if (a.y_pixel + height_pixels) % 65536 > VIDEO_HEIGHT_PIXELS then
    (VIDEO_HEIGHT_PIXELS + 65536 - a.y_pixel % 65536) % 65536
  else height_pixels

/-- Source: `column_start_left_byte = div(x_pixel,2).rem == 0` -/
def column_start_left_byte (a : Args2) : Bool := div_rem a.x_pixel 2 == 0

/-- Source: `x_byte = div(x_pixel,2).quot` -/
def x_byte (a : Args2) : Nat := div_quot a.x_pixel 2

end Args2

namespace Blit2

/-- Offset of `current_screen_byte + x_current_screen_byte` (far pointer). -/
def target (s : Blit2) : Nat := (s.current_screen_byte + s.x_current_screen_byte) % 65536

/-- The assignment `*(current_screen_byte + x_current_screen_byte) = v`. -/
def store (s : Blit2) (v : Nat) : Blit2 :=
  { s with video_memory := poke s.video_memory s.target v, writes := s.target :: s.writes }

/-- Macro `draw2ColorBitmap_COLOR_LEFT`. -/
def COLOR_LEFT (a : Args2) (s : Blit2) : Blit2 :=
  s.store ((peek s.video_memory s.target &&& 0x0F) ||| a.color_left)

/-- Macro `draw2ColorBitmap_COLOR_RIGHT`. -/
def COLOR_RIGHT (a : Args2) (s : Blit2) : Blit2 :=
  s.store ((peek s.video_memory s.target &&& 0xF0) ||| a.color)

/-- Macro `draw2ColorBitmap_BLANK_LEFT`. -/
def BLANK_LEFT (a : Args2) (s : Blit2) : Blit2 :=
  s.store ((peek s.video_memory s.target &&& 0x0F) ||| a.blank_color_left)

/-- Macro `draw2ColorBitmap_BLANK_RIGHT`. -/
def BLANK_RIGHT (a : Args2) (s : Blit2) : Blit2 :=
  s.store ((peek s.video_memory s.target &&& 0xF0) ||| a.blank_color)

/-- The assignment `bitmap_pixel = *bitmap_byte & bitmap_bit_counter`. -/
def loadPixel (a : Args2) (s : Blit2) : Blit2 :=
  { s with bitmap_pixel := (bitmapAt a.bitmap s.bitmap_byte &&& s.bitmap_bit_counter) % 256,
           reads := s.bitmap_byte :: s.reads }

/-- Macro `draw2ColorBitmap_ADVANCE_TO_NEXT_BIT`. -/
def ADVANCE_TO_NEXT_BIT (a : Args2) (s : Blit2) : Blit2 :=
  let s := { s with x_scale_counter := (s.x_scale_counter + 65535) % 65536 }
  if s.x_scale_counter = 0 then
    let s := { s with bitmap_bit_counter := s.bitmap_bit_counter / 2,
                      x_scale_counter := a.x_scale }
    let s := if s.bitmap_bit_counter = 0 then
        { s with bitmap_bit_counter := 128, bitmap_byte := s.bitmap_byte + 1 }
      else s
    loadPixel a s
  else s

/-- The left half of `draw2ColorBitmap_DRAW_NEXT_2_PIXELS`: colour or blank the
left pixel, which is also the code of the single trailing pixel. -/
def drawLeft (a : Args2) (s : Blit2) : Blit2 :=
  if s.bitmap_pixel ≠ 0 then COLOR_LEFT a s
  else if a.blank_color ≠ NO_COLOR then BLANK_LEFT a s
  else s

/-- The right half of `draw2ColorBitmap_DRAW_NEXT_2_PIXELS`: colour or blank the
right pixel, which is also the code of the single leading pixel. -/
def drawRight (a : Args2) (s : Blit2) : Blit2 :=
  if s.bitmap_pixel ≠ 0 then COLOR_RIGHT a s
  else if a.blank_color ≠ NO_COLOR then BLANK_RIGHT a s
  else s

/-- Macro `draw2ColorBitmap_DRAW_NEXT_2_PIXELS`. -/
def DRAW_NEXT_2_PIXELS (a : Args2) (s : Blit2) : Blit2 :=
  ADVANCE_TO_NEXT_BIT a (drawRight a (ADVANCE_TO_NEXT_BIT a (drawLeft a s)))

/-- The part of a row in front of the middle section. -/
def rowHead (a : Args2) (s : Blit2) : Blit2 :=
  let s := { s with x_pixels_remaining := a.width_pixels, x_current_screen_byte := 0 }
  if a.column_start_left_byte then
    if sgt16 s.x_pixels_remaining 1 then
      let s := DRAW_NEXT_2_PIXELS a s
      { s with x_pixels_remaining := (s.x_pixels_remaining + 65534) % 65536 }
    else s
  else
    let s := ADVANCE_TO_NEXT_BIT a (drawRight a s)
    { s with x_pixels_remaining := (s.x_pixels_remaining + 65535) % 65536 }

/-- The middle section `for ( ; x_pixels_remaining > 1 ; x_pixels_remaining -= 2 )`.
The first argument bounds the number of iterations; `rowBody` passes a bound the
loop cannot reach. -/
def rowMiddle (a : Args2) : Nat → Blit2 → Blit2
  | 0, s => s
  | fuel + 1, s =>
    if sgt16 s.x_pixels_remaining 1 then
      let s := { s with x_current_screen_byte := (s.x_current_screen_byte + 1) % 65536 }
      let s := DRAW_NEXT_2_PIXELS a s
      rowMiddle a fuel { s with x_pixels_remaining := (s.x_pixels_remaining + 65534) % 65536 }
    else s

/-- The single remaining pixel of a row. -/
def rowTail (a : Args2) (y_current_row : Nat) (s : Blit2) : Blit2 :=
  if s.x_pixels_remaining = 1 then
    let s := { s with x_current_screen_byte := (s.x_current_screen_byte + 1) % 65536 }
    let s := drawLeft a s
    if y_current_row < (a.height_pixels + 65535) % 65536 then ADVANCE_TO_NEXT_BIT a s else s
  else s

/-- The end of the row loop body: next page, next bitmap row, reset of the
counters and of `current_screen_byte`. -/
def rowEnd (a : Args2) (s : Blit2) : Blit2 :=
  let s := { s with current_page := (s.current_page + 1) % 65536 }
  let s := if s.current_page > 3 then
      { s with current_page := 0,
               page_row_byte := (s.page_row_byte + VIDEO_WIDTH_PIXELS / 2) % 65536 }
    else s
  let s := { s with page_start := (s.current_page * VIDEO_MEMORY_PAGE_SIZE) % 65536 }
  let s := { s with y_scale_counter := (s.y_scale_counter + 65535) % 65536 }
  let s := if s.y_scale_counter = 0 then
      { s with y_scale_counter := a.y_scale,
               bitmap_byte := s.bitmap_byte_start_of_row + a.width_bytes,
               bitmap_byte_start_of_row := s.bitmap_byte_start_of_row + a.width_bytes }
    else { s with bitmap_byte := s.bitmap_byte_start_of_row }
  let s := { s with x_scale_counter := a.x_scale, bitmap_bit_counter := 128 }
  let s := loadPixel a s
  { s with current_screen_byte := (s.page_start + s.page_row_byte + a.x_byte) % 65536 }

/-- One pass through the body of the row loop. -/
def rowBody (a : Args2) (y_current_row : Nat) (s : Blit2) : Blit2 :=
  rowEnd a (rowTail a y_current_row (rowMiddle a 32768 (rowHead a s)))

/-- The row loop
`for ( y_current_row = 0 ; y_current_row < height_pixels ; ++y_current_row )`,
entered with the given value of `y_current_row`.  The first argument bounds the
number of iterations; `draw2ColorBitmap` passes `height_pixels`, which the loop
cannot exceed. -/
def rows (a : Args2) : Nat → Nat → Blit2 → Blit2
  | 0, _, s => s
  | fuel + 1, y_current_row, s =>
    if y_current_row < a.height_pixels then
      rows a fuel ((y_current_row + 1) % 65536) (rowBody a y_current_row s)
    else s

/-- The state at the first test of the row loop. -/
def init (a : Args2) (video_memory : Mem) : Blit2 :=
  let current_page := div_rem a.y_pixel 4
  let page_start := (current_page * VIDEO_MEMORY_PAGE_SIZE) % 65536
  let page_row_byte :=
    ofInt16 (Int.tdiv (toInt16 (div_quot a.y_pixel 4 * VIDEO_WIDTH_PIXELS)) 2)
  loadPixel a
    { video_memory := video_memory
      writes := []
      reads := []
      x_current_screen_byte := 0
      x_pixels_remaining := 0
      x_scale_counter := a.x_scale
      y_scale_counter := a.y_scale
      current_page := current_page
      page_start := page_start
      page_row_byte := page_row_byte
      current_screen_byte := (page_start + page_row_byte + a.x_byte) % 65536
      bitmap_bit_counter := 128
      bitmap_byte := 0
      bitmap_byte_start_of_row := 0
      bitmap_pixel := 0 }

/-- The whole of `draw2ColorBitmap`: the final state. -/
def run (a : Args2) (video_memory : Mem) : Blit2 :=
  rows a a.height_pixels 0 (init a video_memory)

end Blit2

/-- Video memory after `draw2ColorBitmap(bitmap, width_bytes, height_bytes, color,
blank_color, x_pixel, y_pixel, x_scale, y_scale)`. -/
def draw2ColorBitmap (video_memory : Mem) (bitmap : Bitmap)
    (width_bytes height_bytes color blank_color x_pixel y_pixel x_scale y_scale : Nat) : Mem :=
  (Blit2.run ⟨bitmap, width_bytes, height_bytes, color, blank_color, x_pixel, y_pixel,
    x_scale, y_scale⟩ video_memory).video_memory

/-! ## `draw16ColorBitmap` -/

/-- Arguments of `draw16ColorBitmap`.  The local `unsigned char screen_byte` is
declared in the body of the row loop without an initialiser, and the write after
the pixel loop reads it; `screen_byte_indeterminate y_current_row` is the value
it holds when row `y_current_row` begins. -/
structure Args16 where
  bitmap : Bitmap
  width_bytes : Nat
  height_bytes : Nat
  blank_color : Nat
  x_pixel : Nat
  y_pixel : Nat
  x_scale : Nat
  y_scale : Nat
  invert_x : Nat
  screen_byte_indeterminate : Nat → Nat

/-- Local variables of `draw16ColorBitmap`, video memory and the access traces.
`writes` lists the video offsets stored to and `reads` the bitmap indices read,
newest first. -/
structure Blit16 where
  video_memory : Mem
  writes : List Nat
  reads : List Int
  x_current_screen_byte : Nat
  x_pixels_remaining : Nat
  x_scale_counter : Nat
  y_scale_counter : Nat
  current_page : Nat
  page_start : Nat
  page_row_byte : Nat
  current_screen_byte : Nat
  bitmap_byte : Int
  bitmap_byte_start_of_row : Int
  bitmap_nibble_mask : Nat
  screen_nibble_mask : Nat
  current_bitmap_nibble : Nat
  new_screen_byte : Nat
  screen_byte : Nat

namespace Args16

/-- Source: `unsigned short width_pixels = width_bytes * 2 * x_scale;` followed by the
reduction `if ( x_pixel + width_pixels > VIDEO_WIDTH_PIXELS )`. -/
def width_pixels (a : Args16) : Nat :=
  let width_pixels := (a.width_bytes * 2 * a.x_scale) % 65536
  if (a.x_pixel + width_pixels) % 65536 > VIDEO_WIDTH_PIXELS then
    (VIDEO_WIDTH_PIXELS + 65536 - a.x_pixel % 65536) % 65536
  else width_pixels

/-- Source: `unsigned short height_pixels = height_bytes * y_scale;` followed by the
reduction `if ( y_pixel + height_pixels > VIDEO_HEIGHT_PIXELS )`. -/
def height_pixels (a : Args16) : Nat :=
  let height_pixels := (a.height_bytes * a.y_scale) % 65536
  if (a.y_pixel + height_pixels) % 65536 > VIDEO_HEIGHT_PIXELS then
    (VIDEO_HEIGHT_PIXELS + 65536 - a.y_pixel % 65536) % 65536
  else height_pixels

/-- Source: `column_start_left_byte = div(x_pixel,2).rem == 0` -/
def column_start_left_byte (a : Args16) : Bool := div_rem a.x_pixel 2 == 0

/-- Source: `x_byte = div(x_pixel,2).quot` -/
def x_byte (a : Args16) : Nat := div_quot a.x_pixel 2

end Args16

namespace Blit16

/-- Offset of `current_screen_byte + x_current_screen_byte` (far pointer). -/
def target (s : Blit16) : Nat := (s.current_screen_byte + s.x_current_screen_byte) % 65536

/-- The assignment `*(current_screen_byte + x_current_screen_byte) = new_screen_byte`. -/
def store (s : Blit16) : Blit16 :=
  { s with video_memory := poke s.video_memory s.target s.new_screen_byte,
           writes := s.target :: s.writes }

/-- Source: `current_bitmap_nibble = (*bitmap_byte & 0xF0 ) >> 4;` -/
def loadHigh (a : Args16) (s : Blit16) : Blit16 :=
  { s with current_bitmap_nibble :=
             sar4 (charToInt (bitmapAt a.bitmap s.bitmap_byte) &&& 0xF0) % 256,
           reads := s.bitmap_byte :: s.reads }

/-- Source: `current_bitmap_nibble = (*bitmap_byte & 0x0F );` -/
def loadLow (a : Args16) (s : Blit16) : Blit16 :=
  { s with current_bitmap_nibble := (charToInt (bitmapAt a.bitmap s.bitmap_byte) &&& 0x0F) % 256,
           reads := s.bitmap_byte :: s.reads }

/-- The value of `new_screen_nibble` chosen in the body of the pixel loop, after
`screen_byte` has been read. -/
def new_screen_nibble (a : Args16) (s : Blit16) : Nat :=
  if s.current_bitmap_nibble = 0 then
    if a.blank_color ≠ NO_COLOR then a.blank_color % 256
    else
      let new_screen_nibble := (s.screen_byte &&& s.screen_nibble_mask) % 256
      if s.screen_nibble_mask = 0xF0 then sar4 (charToInt new_screen_nibble) % 256
      else new_screen_nibble
  else s.current_bitmap_nibble

/-- The step `if ( --x_scale_counter <= 0 )` at the end of the pixel loop body:
move to the next nibble of the bitmap. -/
def advanceNibble (a : Args16) (s : Blit16) : Blit16 :=
  let s := { s with x_scale_counter := (s.x_scale_counter + 65535) % 65536 }
  if s.x_scale_counter = 0 then
    let s := { s with x_scale_counter := a.x_scale,
                      bitmap_nibble_mask := (s.bitmap_nibble_mask ^^^ 0xFF) % 256 }
    if s.bitmap_nibble_mask = 0x0F then
      let s := if a.invert_x ≠ 0 then { s with bitmap_byte := s.bitmap_byte - 1 } else s
      loadLow a s
    else
      let s := if a.invert_x = 0 then { s with bitmap_byte := s.bitmap_byte + 1 } else s
      loadHigh a s
  else s

/-- The body of the pixel loop. -/
def pixelBody (a : Args16) (s : Blit16) : Blit16 :=
  let s := { s with screen_byte := peek s.video_memory s.target }
  let new_screen_nibble := new_screen_nibble a s
  let s := if s.screen_nibble_mask = 0x0F then
      let s := { s with new_screen_byte :=
                          (s.new_screen_byte ||| charToInt new_screen_nibble) % 256 }
      let s := s.store
      { s with x_current_screen_byte := (s.x_current_screen_byte + 1) % 65536,
               new_screen_byte := 0 }
    else
      { s with new_screen_byte := ((charToInt new_screen_nibble <<< 4) % 65536) % 256 }
  let s := { s with screen_nibble_mask := (s.screen_nibble_mask ^^^ 0xFF) % 256 }
  advanceNibble a s

/-- The pixel loop `for ( ; x_pixels_remaining > 0 ; --x_pixels_remaining )`.
The first argument bounds the number of iterations; `rowBody` passes a bound the
loop cannot reach. -/
def pixels (a : Args16) : Nat → Blit16 → Blit16
  | 0, s => s
  | fuel + 1, s =>
    if sgt16 s.x_pixels_remaining 0 then
      let s := pixelBody a s
      pixels a fuel { s with x_pixels_remaining := (s.x_pixels_remaining + 65535) % 65536 }
    else s

/-- The start of the row loop body, up to the pixel loop. -/
def rowStart (a : Args16) (y_current_row : Nat) (s : Blit16) : Blit16 :=
  let s := { s with new_screen_byte := 0,
                    screen_byte := a.screen_byte_indeterminate y_current_row % 256 }
  let s := if a.invert_x = 0 then loadHigh a { s with bitmap_nibble_mask := 0xF0 }
    else loadLow a { s with bitmap_nibble_mask := 0x0F }
  let s := if !a.column_start_left_byte then { s with screen_nibble_mask := 0x0F }
    else { s with screen_nibble_mask := 0xF0 }
  let s := if s.screen_nibble_mask = 0x0F then
      { s with new_screen_byte := peek s.video_memory s.current_screen_byte &&& 0xF0 }
    else s
  { s with x_pixels_remaining := a.width_pixels, x_current_screen_byte := 0 }

/-- The write of the single remaining pixel after the pixel loop. -/
def rowFlush (s : Blit16) : Blit16 :=
  if s.screen_nibble_mask = 0x0F then
    store { s with new_screen_byte := s.new_screen_byte ||| (s.screen_byte &&& 0x0F) }
  else s

/-- The end of the row loop body: next page, next bitmap row, reset of the x
scale counter and of `current_screen_byte`. -/
def rowEnd (a : Args16) (s : Blit16) : Blit16 :=
  let s := { s with current_page := (s.current_page + 1) % 65536 }
  let s := if s.current_page > 3 then
      { s with current_page := 0,
               page_row_byte := (s.page_row_byte + VIDEO_WIDTH_PIXELS / 2) % 65536 }
    else s
  let s := { s with page_start := (s.current_page * VIDEO_MEMORY_PAGE_SIZE) % 65536 }
  let s := { s with y_scale_counter := (s.y_scale_counter + 65535) % 65536 }
  let s := if s.y_scale_counter = 0 then
      { s with y_scale_counter := a.y_scale,
               bitmap_byte := s.bitmap_byte_start_of_row + a.width_bytes,
               bitmap_byte_start_of_row := s.bitmap_byte_start_of_row + a.width_bytes }
    else { s with bitmap_byte := s.bitmap_byte_start_of_row }
  let s := { s with x_scale_counter := a.x_scale }
  { s with current_screen_byte := (s.page_start + s.page_row_byte + a.x_byte) % 65536 }

/-- One pass through the body of the row loop. -/
def rowBody (a : Args16) (y_current_row : Nat) (s : Blit16) : Blit16 :=
  rowEnd a (rowFlush (pixels a 32768 (rowStart a y_current_row s)))

/-- The row loop
`for ( y_current_row = 0 ; y_current_row < height_pixels ; ++y_current_row )`,
entered with the given value of `y_current_row`.  The first argument bounds the
number of iterations; `draw16ColorBitmap` passes `height_pixels`, which the loop
cannot exceed. -/
def rows (a : Args16) : Nat → Nat → Blit16 → Blit16
  | 0, _, s => s
  | fuel + 1, y_current_row, s =>
    if y_current_row < a.height_pixels then
      rows a fuel ((y_current_row + 1) % 65536) (rowBody a y_current_row s)
    else s

/-- The state at the first test of the row loop.  The two masks are not
initialised there; every row sets them before it reads them. -/
def init (a : Args16) (video_memory : Mem) : Blit16 :=
  let current_page := div_rem a.y_pixel 4
  let page_start := (current_page * VIDEO_MEMORY_PAGE_SIZE) % 65536
  let page_row_byte :=
    ofInt16 (Int.tdiv (toInt16 (div_quot a.y_pixel 4 * VIDEO_WIDTH_PIXELS)) 2)
  let bitmap_byte : Int := if a.invert_x = 0 then 0 else (a.width_bytes : Int) - 1
  { video_memory := video_memory
    writes := []
    reads := []
    x_current_screen_byte := 0
    x_pixels_remaining := 0
    x_scale_counter := a.x_scale
    y_scale_counter := a.y_scale
    current_page := current_page
    page_start := page_start
    page_row_byte := page_row_byte
    current_screen_byte := (page_start + page_row_byte + a.x_byte) % 65536
    bitmap_byte := bitmap_byte
    bitmap_byte_start_of_row := bitmap_byte
    bitmap_nibble_mask := 0
    screen_nibble_mask := 0
    current_bitmap_nibble := 0
    new_screen_byte := 0
    screen_byte := 0 }

/-- The whole of `draw16ColorBitmap`: the final state. -/
def run (a : Args16) (video_memory : Mem) : Blit16 :=
  rows a a.height_pixels 0 (init a video_memory)

end Blit16

/-- Video memory after `draw16ColorBitmap(bitmap, width_bytes, height_bytes,
blank_color, x_pixel, y_pixel, x_scale, y_scale, invert_x)`; the first argument
is the indeterminate initial value of the local `screen_byte` in each row. -/
def draw16ColorBitmap (screen_byte_indeterminate : Nat → Nat) (video_memory : Mem)
    (bitmap : Bitmap)
    (width_bytes height_bytes blank_color x_pixel y_pixel x_scale y_scale invert_x : Nat) : Mem :=
  (Blit16.run ⟨bitmap, width_bytes, height_bytes, blank_color, x_pixel, y_pixel,
    x_scale, y_scale, invert_x, screen_byte_indeterminate⟩ video_memory).video_memory

/-! ## Pixels of the surface -/

/-- Offset of the byte that holds surface pixel `(px, py)`: bank `py mod 4`,
row `py div 4` of the bank, byte `px div 2` of the row. -/
def pixelByte (px py : Nat) : Nat :=
  (py % 4) * VIDEO_MEMORY_PAGE_SIZE + (py / 4) * (VIDEO_WIDTH_PIXELS / 2) + px / 2

/-- Surface pixel `(px, py)`: the high nibble of its byte when `px` is even, the
low nibble when `px` is odd. -/
def pixel (m : Mem) (px py : Nat) : Nat :=
  if px % 2 = 0 then peek m (pixelByte px py) / 16 else peek m (pixelByte px py) % 16

/-- Bit `i` (0 = leftmost, the most significant bit of byte 0) of row `j` of a
bi-level bitmap that is `width_bytes` bytes wide. -/
def sourceBit (bitmap : Bitmap) (width_bytes j i : Nat) : Nat :=
  bitmapAt bitmap ((j * width_bytes + i / 8 : Nat) : Int) / 2 ^ (7 - i % 8) % 2

/-- Nibble `i` (0 = leftmost, the high nibble of byte 0) of row `j` of a 16 colour
bitmap that is `width_bytes` bytes wide. -/
def sourceNibble (bitmap : Bitmap) (width_bytes j i : Nat) : Nat :=
  if i % 2 = 0 then bitmapAt bitmap ((j * width_bytes + i / 2 : Nat) : Int) / 16
  else bitmapAt bitmap ((j * width_bytes + i / 2 : Nat) : Int) % 16

/-! ## Nibbles of video memory -/

/-- Nibble `n` of video memory, counting two nibbles per byte from offset 0, the
high nibble of a byte first. -/
def nib (m : Mem) (n : Nat) : Nat :=
  if n % 2 = 0 then peek m (n / 2) / 16 else peek m (n / 2) % 16

namespace Args2

/-- The value a pixel gets from a source bit: the colour for a set bit, the blank
colour for a clear bit, the old value for a clear bit under `NO_COLOR`. -/
def paint (a : Args2) (bit old : Nat) : Nat :=
  if bit ≠ 0 then a.color else if a.blank_color ≠ NO_COLOR then a.blank_color else old

/-- The source bit shown by output pixel `n` of a row whose bitmap row starts at
index `rs`: bit `n / x_scale` of that row. -/
def rowBit (a : Args2) (rs : Int) (n : Nat) : Nat :=
  bitmapAt a.bitmap (rs + ((n / a.x_scale / 8 : Nat) : Int)) / 2 ^ (7 - n / a.x_scale % 8) % 2

end Args2

namespace Blit2

/-- The bitmap cursor stands at output pixel `n` of a row whose bitmap row starts
at index `rs`. -/
structure BitPos (a : Args2) (rs : Int) (n : Nat) (s : Blit2) : Prop where
  xsc : s.x_scale_counter = a.x_scale - n % a.x_scale
  bbc : s.bitmap_bit_counter = 2 ^ (7 - n / a.x_scale % 8)
  bb : s.bitmap_byte = rs + ((n / a.x_scale / 8 : Nat) : Int)
  bp : s.bitmap_pixel = (bitmapAt a.bitmap s.bitmap_byte &&& s.bitmap_bit_counter) % 256

/-- The variables a row leaves alone until its end. -/
def rowVars (s : Blit2) : Nat × Nat × Nat × Nat × Nat × Int :=
  (s.current_screen_byte, s.current_page, s.page_start, s.page_row_byte, s.y_scale_counter,
    s.bitmap_byte_start_of_row)

/-- The variables of the screen cursor. -/
def screenVars (s : Blit2) : Mem × Nat × Nat × Nat × Nat × Nat × Nat × Nat × Int :=
  (s.video_memory, s.x_current_screen_byte, s.x_pixels_remaining, s.current_screen_byte,
    s.current_page, s.page_start, s.page_row_byte, s.y_scale_counter,
    s.bitmap_byte_start_of_row)

/-- The first `n` pixels of a row that starts at nibble `N0` of video memory are
painted over the memory `m0`; every other nibble is as in `m0`. -/
def Painted (a : Args2) (m0 : Mem) (rs : Int) (N0 n : Nat) (m : Mem) : Prop :=
  ∀ k, nib m k =
    if N0 ≤ k ∧ k < N0 + n then a.paint (a.rowBit rs (k - N0)) (nib m0 k) else nib m0 k

/-- The variables of the bitmap cursor. -/
def bitVars (s : Blit2) : Nat × Nat × Int × Nat :=
  (s.x_scale_counter, s.bitmap_bit_counter, s.bitmap_byte, s.bitmap_pixel)

/-- The assignment to `x_pixels_remaining` alone. -/
def setRem (s : Blit2) (v : Nat) : Blit2 := { s with x_pixels_remaining := v }

/-- The assignment `x_current_screen_byte += 1`. -/
def nextByte (s : Blit2) : Blit2 :=
  { s with x_current_screen_byte := (s.x_current_screen_byte + 1) % 65536 }

/-- The state inside a row after `n` of its `width_pixels` pixels. -/
structure Mid (a : Args2) (m0 : Mem) (rs : Int) (N0 n : Nat) (s0 s : Blit2) : Prop where
  pos : BitPos a rs n s
  painted : Painted a m0 rs N0 n s.video_memory
  rem : s.x_pixels_remaining = a.width_pixels - n
  le : n ≤ a.width_pixels
  align : n < a.width_pixels →
    N0 + n = 2 * (s.current_screen_byte + s.x_current_screen_byte + 1)
  vars : s.rowVars = s0.rowVars

/-- The state with which a row begins: `x_pixels_remaining = width_pixels;
x_current_screen_byte = 0;`. -/
def headInit (a : Args2) (s : Blit2) : Blit2 :=
  { s with x_pixels_remaining := a.width_pixels, x_current_screen_byte := 0 }

end Blit2

/-- The offset in video memory at which output row `j` starts: the value of
`current_screen_byte` in that row. -/
def Args2.rowOffset (a : Args2) (j : Nat) : Nat :=
  ((a.y_pixel + j) % 4 * 8192 + (a.y_pixel + j) / 4 * 160 % 65536 + a.x_pixel / 2) % 65536

namespace Blit2

/-- The state at the start of output row `j` of the row loop: the page is
`(y_pixel + j) mod 4`, the row offset `(y_pixel + j) div 4 * 160` and the screen
pointer their sum with `x_byte`, both in 16 bits. -/
structure AtRow (a : Args2) (j : Nat) (s : Blit2) : Prop where
  page : s.current_page = (a.y_pixel + j) % 4
  prb : s.page_row_byte = (a.y_pixel + j) / 4 * 160 % 65536
  csb : s.current_screen_byte = a.rowOffset j
  ysc : s.y_scale_counter = a.y_scale - j % a.y_scale
  start : s.bitmap_byte_start_of_row = ((j / a.y_scale * a.width_bytes : Nat) : Int)
  pos : BitPos a s.bitmap_byte_start_of_row 0 s

end Blit2

namespace Args2

/-- The pixel value `draw2ColorBitmap` is to leave at surface pixel `(px, py)`:
inside the rectangle of `width_pixels` by `height_pixels` pixels at the origin the
value painted from the source bit `(px - x_pixel) / x_scale` of bitmap row
`(py - y_pixel) / y_scale`, elsewhere the old value. -/
def expected (a : Args2) (m0 : Mem) (px py : Nat) : Nat :=
  if a.x_pixel ≤ px ∧ px < a.x_pixel + a.width_pixels ∧
      a.y_pixel ≤ py ∧ py < a.y_pixel + a.height_pixels then
    a.paint (sourceBit a.bitmap a.width_bytes ((py - a.y_pixel) / a.y_scale)
      ((px - a.x_pixel) / a.x_scale)) (pixel m0 px py)
  else pixel m0 px py

end Args2

namespace Args16

/-- The value a pixel gets from a source nibble: the nibble when it is not zero,
else the blank colour, else (under `NO_COLOR`) the old value. -/
def paint (a : Args16) (nibble old : Nat) : Nat :=
  if nibble = 0 then (if a.blank_color ≠ NO_COLOR then a.blank_color else old) else nibble

/-- The bitmap byte of nibble `q` of a traversal that starts at bitmap index `rs`:
forward, or backward when mirrored. -/
def byteAt (a : Args16) (rs : Int) (q : Nat) : Int :=
  if a.invert_x = 0 then rs + ((q / 2 : Nat) : Int) else rs - ((q / 2 : Nat) : Int)

/-- The value of `bitmap_nibble_mask` at nibble `q` of a traversal: the high nibble
first, or the low nibble first when mirrored. -/
def maskAt (a : Args16) (q : Nat) : Nat :=
  if a.invert_x = 0 then (if q % 2 = 0 then 0xF0 else 0x0F)
  else (if q % 2 = 0 then 0x0F else 0xF0)

/-- Nibble `q` of a traversal that starts at bitmap index `rs`. -/
def nibAt (a : Args16) (rs : Int) (q : Nat) : Nat :=
  if a.maskAt q = 0xF0 then bitmapAt a.bitmap (a.byteAt rs q) / 16
  else bitmapAt a.bitmap (a.byteAt rs q) % 16

/-- The source nibble shown by output pixel `n` of a row whose traversal starts at
bitmap index `rs`: nibble `n / x_scale` of the traversal. -/
def rowNibble (a : Args16) (rs : Int) (n : Nat) : Nat := a.nibAt rs (n / a.x_scale)

end Args16

namespace Blit16

/-- The bitmap cursor stands at output pixel `n` of a row whose traversal starts at
bitmap index `rs`. -/
structure NibPos (a : Args16) (rs : Int) (n : Nat) (s : Blit16) : Prop where
  xsc : s.x_scale_counter = a.x_scale - n % a.x_scale
  mask : s.bitmap_nibble_mask = a.maskAt (n / a.x_scale)
  bb : s.bitmap_byte = a.byteAt rs (n / a.x_scale)
  cbn : s.current_bitmap_nibble = a.rowNibble rs n

/-- The variables of the bitmap cursor. -/
def nibVars (s : Blit16) : Nat × Nat × Int × Nat :=
  (s.x_scale_counter, s.bitmap_nibble_mask, s.bitmap_byte, s.current_bitmap_nibble)

/-- The variables of the screen cursor and of the row. -/
def screenVars (s : Blit16) :
    Mem × Nat × Nat × Nat × Nat × Nat × Nat × Nat × Nat × Nat × Nat × Int :=
  (s.video_memory, s.x_current_screen_byte, s.x_pixels_remaining, s.current_screen_byte,
    s.screen_nibble_mask, s.new_screen_byte, s.screen_byte,
    s.current_page, s.page_start, s.page_row_byte, s.y_scale_counter,
    s.bitmap_byte_start_of_row)

end Blit16

namespace Args16

/-- The nibble a row is to leave at nibble `k` of video memory once `n` pixels are
done, for a row that starts at nibble `N0`, over the memory `m0`. -/
def goal (a : Args16) (m0 : Mem) (rs : Int) (N0 n k : Nat) : Nat :=
  if N0 ≤ k ∧ k < N0 + n then a.paint (a.rowNibble rs (k - N0)) (nib m0 k) else nib m0 k

/-- The value of `new_screen_nibble` as a function of the bitmap nibble, the
screen nibble mask and the screen byte. -/
def nsnVal (a : Args16) (cbn mask sb : Nat) : Nat :=
  if cbn = 0 then
    if a.blank_color ≠ NO_COLOR then a.blank_color % 256
    else if mask = 0xF0 then sar4 (charToInt ((sb &&& mask) % 256)) % 256
    else (sb &&& mask) % 256
  else cbn

end Args16

namespace Blit16

/-- The body of the pixel loop in front of the step to the next nibble, on the
right nibble of a screen byte. -/
def pixelRight (a : Args16) (s : Blit16) : Blit16 :=
  { s with
    screen_byte := peek s.video_memory s.target
    video_memory := poke s.video_memory s.target
      ((s.new_screen_byte ||| charToInt (a.nsnVal s.current_bitmap_nibble s.screen_nibble_mask
        (peek s.video_memory s.target))) % 256)
    writes := s.target :: s.writes
    x_current_screen_byte := (s.x_current_screen_byte + 1) % 65536
    new_screen_byte := 0
    screen_nibble_mask := (s.screen_nibble_mask ^^^ 0xFF) % 256 }

/-- The body of the pixel loop in front of the step to the next nibble, on the
left nibble of a screen byte. -/
def pixelLeft (a : Args16) (s : Blit16) : Blit16 :=
  { s with
    screen_byte := peek s.video_memory s.target
    new_screen_byte := ((charToInt (a.nsnVal s.current_bitmap_nibble s.screen_nibble_mask
        (peek s.video_memory s.target)) <<< 4) % 65536) % 256
    screen_nibble_mask := (s.screen_nibble_mask ^^^ 0xFF) % 256 }

/-- The screen cursor stands at output pixel `n` of a row that starts at nibble
`N0` of video memory: the pixels in front are painted, except that a left pixel
waits in `new_screen_byte` until its right neighbour is done. -/
structure Scr (a : Args16) (m0 : Mem) (rs : Int) (N0 n : Nat) (s : Blit16) : Prop where
  tgt : s.current_screen_byte + s.x_current_screen_byte = (N0 + n) / 2
  even : (N0 + n) % 2 = 0 →
    s.screen_nibble_mask = 0xF0 ∧ ∀ k, nib s.video_memory k = a.goal m0 rs N0 n k
  odd : (N0 + n) % 2 = 1 →
    s.screen_nibble_mask = 0x0F ∧
    s.new_screen_byte = 16 * a.goal m0 rs N0 n (N0 + n - 1) ∧
    (∀ k, k ≠ N0 + n - 1 → nib s.video_memory k = a.goal m0 rs N0 n k) ∧
    nib s.video_memory (N0 + n - 1) = nib m0 (N0 + n - 1) ∧
    (0 < n → s.screen_byte = peek s.video_memory ((N0 + n) / 2))

/-- The variables a row leaves alone until its end. -/
def rowVars (s : Blit16) : Nat × Nat × Nat × Nat × Nat × Int :=
  (s.current_screen_byte, s.current_page, s.page_start, s.page_row_byte, s.y_scale_counter,
    s.bitmap_byte_start_of_row)

/-- The variables the screen cursor is made of. -/
def scrVars (s : Blit16) : Mem × Nat × Nat × Nat × Nat × Nat :=
  (s.video_memory, s.x_current_screen_byte, s.current_screen_byte, s.screen_nibble_mask,
    s.new_screen_byte, s.screen_byte)

/-- The assignment to `x_pixels_remaining` alone. -/
def setRem (s : Blit16) (v : Nat) : Blit16 := { s with x_pixels_remaining := v }

end Blit16

namespace Args16

/-- The bitmap index at which the traversal of output row `j` starts: the first
byte of bitmap row `j / y_scale`, or its last byte when mirrored. -/
def rowStartIndex (a : Args16) (j : Nat) : Int :=
  if a.invert_x = 0 then ((j / a.y_scale * a.width_bytes : Nat) : Int)
  else ((j / a.y_scale * a.width_bytes : Nat) : Int) + (a.width_bytes : Int) - 1

/-- The offset in video memory at which output row `j` starts: the value of
`current_screen_byte` in that row. -/
def rowOffset (a : Args16) (j : Nat) : Nat :=
  ((a.y_pixel + j) % 4 * 8192 + (a.y_pixel + j) / 4 * 160 % 65536 + a.x_pixel / 2) % 65536

end Args16

namespace Blit16

/-- The state at the start of output row `j` of the row loop: the page is
`(y_pixel + j) mod 4`, the row offset `(y_pixel + j) div 4 * 160` and the screen
pointer their sum with `x_byte`, both in 16 bits. -/
structure AtRow (a : Args16) (j : Nat) (s : Blit16) : Prop where
  page : s.current_page = (a.y_pixel + j) % 4
  prb : s.page_row_byte = (a.y_pixel + j) / 4 * 160 % 65536
  csb : s.current_screen_byte = a.rowOffset j
  ysc : s.y_scale_counter = a.y_scale - j % a.y_scale
  start : s.bitmap_byte_start_of_row = a.rowStartIndex j
  bb : s.bitmap_byte = a.rowStartIndex j
  xsc : s.x_scale_counter = a.x_scale

end Blit16

namespace Args16

/-- The nibble of a bitmap row shown by column `q` of the unscaled picture: nibble
`q`, or, mirrored, nibble `2 * width_bytes - 1 - q`. -/
def srcIndex (a : Args16) (q : Nat) : Nat :=
  if a.invert_x = 0 then q else 2 * a.width_bytes - 1 - q

/-- The pixel value `draw16ColorBitmap` is to leave at surface pixel `(px, py)`:
inside the rectangle of `width_pixels` by `height_pixels` pixels at the origin the
value painted from the source nibble of column `(px - x_pixel) / x_scale` of
bitmap row `(py - y_pixel) / y_scale`, elsewhere the old value. -/
def expected (a : Args16) (m0 : Mem) (px py : Nat) : Nat :=
  if a.x_pixel ≤ px ∧ px < a.x_pixel + a.width_pixels ∧
      a.y_pixel ≤ py ∧ py < a.y_pixel + a.height_pixels then
    a.paint (sourceNibble a.bitmap a.width_bytes ((py - a.y_pixel) / a.y_scale)
      (a.srcIndex ((px - a.x_pixel) / a.x_scale))) (pixel m0 px py)
  else pixel m0 px py

end Args16

/-! ## `utility/crc.cpp`

The checksum tool is built for a 32-bit compiler (`cl /EHsc crc.cpp`):
`unsigned int` is 32 bits wide, `uint16_t` operands are promoted to `int`, and an
assignment to a `uint16_t` or `uint8_t` member keeps the low 16 or 8 bits.  The
anonymous struct of `union Register` lays `l` over the low byte of `x` and `h` over
the high byte. -/

namespace Register

/-- Member `l` of `union Register`: the low byte of `x`. -/
def l (x : Nat) : Nat := x % 256

/-- Member `h` of `union Register`: the high byte of `x`. -/
def h (x : Nat) : Nat := x / 256 % 256

/-- The register `x` after an assignment of `v` to member `l`. -/
def set_l (x v : Nat) : Nat := h x * 256 + v % 256

/-- The register `x` after an assignment of `v` to member `h`. -/
def set_h (x v : Nat) : Nat := v % 256 * 256 + l x

end Register

/-- What `main` of `crc.cpp` works on once the file has been read: the two flags,
the size of the file, the memory at `cartridge_data` (index to byte; the array
holds `number_of_bytes` of them and an index past it reads whatever lies there)
and the value `AL` holds before the first `LODSB`, which the code does not set. -/
structure CrcArgs where
  ignore_last_2_characters : Bool
  jrc_file : Bool
  file_size : Nat
  cartridge_data : Nat → Nat
  al_indeterminate : Nat

/-- The registers `ax`, `bx`, `dx` (member `x`), the index `si` and the trace of
the indices of `cartridge_data` read, newest first. -/
structure CrcState where
  ax : Nat
  bx : Nat
  dx : Nat
  si : Nat
  reads : List Nat

/-- The constant `jrc_header_size` of the source. -/
def jrc_header_size : Nat := 512

namespace CrcArgs

/-- Source: `const unsigned int number_of_bytes = file_size;` -/
def number_of_bytes (a : CrcArgs) : Nat := a.file_size % 2 ^ 32

/-- The value of `cx.x` after `cx.x = number_of_bytes;` and the two reductions
`cx.x = cx.x - 2;` and `cx.x = cx.x - jrc_header_size;`. -/
def cx (a : CrcArgs) : Nat :=
  let cx := a.number_of_bytes % 65536
  let cx := if a.ignore_last_2_characters then (cx + 65536 - 2) % 65536 else cx
  if a.jrc_file then (cx + 65536 - jrc_header_size) % 65536 else cx

end CrcArgs

/-- The body of the checksum loop, the shifts as the C++ source has them. -/
def crcStep (cartridge_data : Nat → Nat) (s : CrcState) : CrcState :=
  let ax := Register.set_l s.ax (cartridge_data s.si)
  let reads := s.si :: s.reads
  let si := (s.si + 1) % 2 ^ 32
  let dx := Register.set_h s.dx (Register.h s.dx ^^^ Register.l ax)
  let ax := Register.set_l ax (Register.h dx)
  let ax := (ax <<< 4) % 65536
  let dx := dx ^^^ ax
  let ax := (ax <<< 1) % 65536
  let dx := Register.set_l (Register.set_h dx (Register.l dx)) (Register.h dx)
  let dx := dx ^^^ ax
  let ax := ax >>> 4
  let ax := Register.set_l ax (Register.l ax &&& 0xE0)
  let dx := dx ^^^ ax
  let ax := ax >>> 1
  let dx := Register.set_h dx (Register.h dx ^^^ Register.l ax)
  { ax := ax, bx := s.bx, dx := dx, si := si, reads := reads }

/-- The loop `for (; bx.x > 0 ; --bx.x )`.  The first argument bounds the number
of passes; `crcMain` passes `bx.x`, which the loop cannot exceed. -/
def crcLoop (cartridge_data : Nat → Nat) : Nat → CrcState → CrcState
  | 0, s => s
  | fuel + 1, s =>
    if s.bx > 0 then
      let s := crcStep cartridge_data s
      crcLoop cartridge_data fuel { s with bx := (s.bx + 65535) % 65536 }
    else s

/-- The state in front of the checksum loop: `bx.x = cx.x; dx.x = 0xFFFF;
ax.h = 0;` and `si`. -/
def crcInit (a : CrcArgs) : CrcState :=
  { ax := Register.set_h (a.al_indeterminate % 256) 0
    bx := a.cx
    dx := 0xFFFF
    si := if !a.jrc_file then 0 else jrc_header_size
    reads := [] }

/-- The checksum part of `main`: the state after the loop; `dx` is the CRC that is
printed. -/
def crcMain (a : CrcArgs) : CrcState := crcLoop a.cartridge_data a.cx (crcInit a)

/-- The 8086 instruction `ROL AX,k` on a 16-bit value. -/
def rol16 (x k : Nat) : Nat := ((x <<< k) ||| (x >>> (16 - k))) % 65536

/-- The 8086 instruction `ROR AX,k` on a 16-bit value. -/
def ror16 (x k : Nat) : Nat := ((x >>> k) ||| (x <<< (16 - k))) % 65536

/-- The body of the checksum loop as the line comments of the source give it, in
8086 instructions: `LODSB; XOR DH,AL; MOV AL,DH; ROL AX,CL (CL=4); XOR DX,AX;
ROL AX,1; XCHG DH,DL; XOR DX,AX; ROR AX,CL (CL=4); AND AL,11100000; XOR DX,AX;
ROR AX,1; XOR DH,AL`. -/
def crcStep8086 (cartridge_data : Nat → Nat) (s : CrcState) : CrcState :=
  let ax := Register.set_l s.ax (cartridge_data s.si)
  let reads := s.si :: s.reads
  let si := (s.si + 1) % 2 ^ 32
  let dx := Register.set_h s.dx (Register.h s.dx ^^^ Register.l ax)
  let ax := Register.set_l ax (Register.h dx)
  let ax := rol16 ax 4
  let dx := dx ^^^ ax
  let ax := rol16 ax 1
  let dx := Register.set_l (Register.set_h dx (Register.l dx)) (Register.h dx)
  let dx := dx ^^^ ax
  let ax := ror16 ax 4
  let ax := Register.set_l ax (Register.l ax &&& 0xE0)
  let dx := dx ^^^ ax
  let ax := ror16 ax 1
  let dx := Register.set_h dx (Register.h dx ^^^ Register.l ax)
  { ax := ax, bx := s.bx, dx := dx, si := si, reads := reads }

/-- The checksum loop with the body in 8086 instructions (`DEC BX; JNZ CRC_1`). -/
def crcLoop8086 (cartridge_data : Nat → Nat) : Nat → CrcState → CrcState
  | 0, s => s
  | fuel + 1, s =>
    if s.bx > 0 then
      let s := crcStep8086 cartridge_data s
      crcLoop8086 cartridge_data fuel { s with bx := (s.bx + 65535) % 65536 }
    else s

/-- The checksum part of `main` with the loop body in 8086 instructions. -/
def crcMain8086 (a : CrcArgs) : CrcState := crcLoop8086 a.cartridge_data a.cx (crcInit a)

/-! ## `waitClockTicks`

The BIOS clock is a sequence of readings: `clock k` is the low order count that
the call number `k` of `int86(TIME_OF_DAY_SERVICES_INTERRUPT, ...)` leaves in
`registers.x.dx` (its low 16 bits). -/

/-- Local variables of `waitClockTicks` and the number of clock polls (calls of
`int86`) made so far. -/
structure Wait where
  dx : Nat
  past_clock_tick : Nat
  number_of_ticks_remaining : Nat
  polls : Nat

namespace Wait

/-- One call of `int86(TIME_OF_DAY_SERVICES_INTERRUPT, &registers, &registers)`. -/
def int86 (clock : Nat → Nat) (s : Wait) : Wait :=
  { s with dx := clock s.polls % 65536, polls := s.polls + 1 }

/-- The body of the `do` loop: poll the clock and count a change of the reading
as one tick. -/
def pollBody (clock : Nat → Nat) (s : Wait) : Wait :=
  let s := int86 clock s
  if s.dx ≠ s.past_clock_tick then
    { s with past_clock_tick := s.dx,
             number_of_ticks_remaining := (s.number_of_ticks_remaining + 65535) % 65536 }
  else s

/-- The loop `do { ... } while ( number_of_ticks_remaining > 0 );`.  The first
argument bounds the number of passes; the result is `none` when the loop is
still running after that many. -/
def doWhile (clock : Nat → Nat) : Nat → Wait → Option Wait
  | 0, _ => none
  | fuel + 1, s =>
    let s := pollBody clock s
    if s.number_of_ticks_remaining > 0 then doWhile clock fuel s else some s

end Wait

/-- The function `waitClockTicks(number_of_clock_ticks, from_clock_tick)` on the
clock `clock`, with at most `fuel` passes of its loop: the state at the `return`,
whose `dx` is the value returned, or `none` when the loop is still running. -/
def waitClockTicks (clock : Nat → Nat) (fuel : Nat)
    (number_of_clock_ticks from_clock_tick : Nat) : Option Wait :=
  let s := Wait.int86 clock
    { dx := 0, past_clock_tick := 0, number_of_ticks_remaining := 0, polls := 0 }
  if s.dx ≥ from_clock_tick % 65536 then
    let s := { s with number_of_ticks_remaining :=
                        (s.dx + 65536 - from_clock_tick % 65536) % 65536 }
    if s.number_of_ticks_remaining < number_of_clock_ticks % 65536 then
      let s := { s with number_of_ticks_remaining :=
                          (number_of_clock_ticks % 65536 + 65536
                            - s.number_of_ticks_remaining) % 65536 }
      Wait.doWhile clock fuel { s with past_clock_tick := s.dx }
    else some s
  else
    let s := { s with number_of_ticks_remaining :=
                        (number_of_clock_ticks % 65536 + 65535) % 65536 }
    Wait.doWhile clock fuel { s with past_clock_tick := s.dx }

/-! ## The two blitters side by side -/

/-- Reference definition, from the specification and not from the source: the 16
colour bitmap that shows a bi-level bitmap in one colour.  It has `4 * width_bytes`
bytes per row; nibble `i` of row `j` is `color` when bit `i` of row `j`
of `bitmap` is 1 and 0 otherwise. -/
def expandBitmap (bitmap : Bitmap) (width_bytes color : Nat) : Bitmap := fun k =>
  16 * (if sourceBit bitmap width_bytes (k.toNat / (4 * width_bytes))
          (2 * (k.toNat % (4 * width_bytes))) = 1 then color else 0)
    + (if sourceBit bitmap width_bytes (k.toNat / (4 * width_bytes))
          (2 * (k.toNat % (4 * width_bytes)) + 1) = 1 then color else 0)

/-! ## CRC-16/CCITT

The definitions `crc16_ccitt_bit`, `crc16_ccitt_byte`, `crc16_ccitt` and
`crc16_ccitt_update` are the reference the specification names; they are not taken
from `crc.cpp`, whose loop is `crcStep`, `crcLoop` and `crcMain` above. -/

/-- One step of the bitwise CRC with polynomial `0x1021`, most significant bit
first: shift the 16-bit register left by one and, when the bit shifted out is
set, exclusive-or the polynomial in. -/
def crc16_ccitt_bit (crc : Nat) : Nat :=
  if crc / 32768 % 2 = 1 then ((crc <<< 1) ^^^ 0x1021) % 65536 else (crc <<< 1) % 65536

/-- One byte of the bitwise CRC: the byte is exclusive-ored into the high byte of
the register, then eight bit steps follow. -/
def crc16_ccitt_byte (crc d : Nat) : Nat :=
  crc16_ccitt_bit (crc16_ccitt_bit (crc16_ccitt_bit (crc16_ccitt_bit (crc16_ccitt_bit
    (crc16_ccitt_bit (crc16_ccitt_bit (crc16_ccitt_bit (crc ^^^ (d <<< 8)))))))))

/-- The bitwise reference CRC of a byte sequence: polynomial `0x1021`, initial
register `0xFFFF`, no reflection, no final exclusive-or. -/
def crc16_ccitt (bytes : List Nat) : Nat := bytes.foldl crc16_ccitt_byte 0xFFFF

/-- The update of the register by one byte `d` in closed form: `t = (crc >> 8) xor
d; t = t xor (t >> 4); crc = ((crc << 8) xor (t << 12) xor (t << 5) xor t) mod 2^16`. -/
def crc16_ccitt_update (crc d : Nat) : Nat :=
  let t := (crc >>> 8) ^^^ d
  let t := t ^^^ (t >>> 4)
  ((crc <<< 8) ^^^ (t <<< 12) ^^^ (t <<< 5) ^^^ t) % 65536

/-- The bytes the checksum loop of `main` processes, in order: `cx.x` of them, from
index 0 of `cartridge_data`, or from index 512 under `/jrc` (theorem
`crcMain_reads`). -/
def CrcArgs.processed (a : CrcArgs) : List Nat :=
  (List.range' (if a.jrc_file then 512 else 0) a.cx).map (fun i => a.cartridge_data i % 256)

/-! ## The checksum loop computes CRC-16/CCITT -/

/-- The update of `dx` in one pass of the checksum loop, from the statement
`ax.x = ax.x << 4` on: `ax` holds the byte `MOV AL,DH` left in it and `dx` the
register after `XOR DH,AL`. -/
def crcDx (ax dx : Nat) : Nat :=
  let ax := (ax <<< 4) % 65536
  let dx := dx ^^^ ax
  let ax := (ax <<< 1) % 65536
  let dx := Register.set_l (Register.set_h dx (Register.l dx)) (Register.h dx)
  let dx := dx ^^^ ax
  let ax := ax >>> 4
  let ax := Register.set_l ax (Register.l ax &&& 0xE0)
  let dx := dx ^^^ ax
  let ax := ax >>> 1
  Register.set_h dx (Register.h dx ^^^ Register.l ax)

/-- The part of the closed form that depends on the byte `v = (crc >> 8) xor d`. -/
def crcTerm (v : Nat) : Nat :=
  (((v ^^^ (v >>> 4)) <<< 12) ^^^ (((v ^^^ (v >>> 4)) <<< 5) ^^^ (v ^^^ (v >>> 4)))) % 65536

/-- A file of 65536 bytes for the residue check: the bytes of `m` at the indices
below 65534, then the high byte and the low byte of `c`. -/
def fileWithChecksum (m : Nat → Nat) (c : Nat) : Nat → Nat := fun i =>
  if i = 65534 then Register.h c else if i = 65535 then Register.l c else m i

end PCjr

/-! ## Facts about the machine arithmetic -/

namespace PCjr

theorem toInt16_of_lt {p : Nat} (h : p < 32768) : toInt16 p = (p : Int) := by
  have h1 : p % 65536 = p := Nat.mod_eq_of_lt (by omega)
  simp [toInt16, h1, h]

theorem toInt16_of_ge {p : Nat} (h : 32768 ≤ p) (h2 : p < 65536) :
    toInt16 p = (p : Int) - 65536 := by
  have h1 : p % 65536 = p := Nat.mod_eq_of_lt h2
  have h3 : ¬ p < 32768 := by omega
  simp [toInt16, h1, h3]

theorem sgt16_of_lt {a b : Nat} (ha : a < 32768) (hb : b < 32768) :
    sgt16 a b = decide (b < a) := by
  simp [sgt16, toInt16_of_lt ha, toInt16_of_lt hb]

theorem sgt16_of_ge {a b : Nat} (ha : 32768 ≤ a) (ha2 : a < 65536) (hb : b < 32768) :
    sgt16 a b = false := by
  simp only [sgt16, toInt16_of_ge ha ha2, toInt16_of_lt hb, decide_eq_false_iff_not]
  omega

theorem ofInt16_natCast {n : Nat} (h : n < 65536) : ofInt16 (n : Int) = n := by
  unfold ofInt16
  omega

theorem div_quot_of_lt {a b : Nat} (ha : a < 32768) (hb : b < 32768) :
    div_quot a b = a / b := by
  have h : a / b < 65536 := lt_of_le_of_lt (Nat.div_le_self a b) (by omega)
  rw [div_quot, toInt16_of_lt ha, toInt16_of_lt hb, ← Int.ofNat_tdiv, ofInt16_natCast h]

theorem div_rem_of_lt {a b : Nat} (ha : a < 32768) (hb : b < 32768) (hb0 : 0 < b) :
    div_rem a b = a % b := by
  have h : a % b < 65536 := lt_trans (Nat.mod_lt a hb0) (by omega)
  rw [div_rem, toInt16_of_lt ha, toInt16_of_lt hb, ← Int.ofNat_tmod, ofInt16_natCast h]

/-- The start value of `page_row_byte` for a row on the screen. -/
theorem page_row_byte_init {y : Nat} (hy : y < 32768) (hq : y / 4 < 102) :
    ofInt16 (Int.tdiv (toInt16 (div_quot y 4 * VIDEO_WIDTH_PIXELS)) 2) = y / 4 * 160 := by
  rw [div_quot_of_lt hy (by omega)]
  have h1 : y / 4 * VIDEO_WIDTH_PIXELS < 32768 := by
    simp only [VIDEO_WIDTH_PIXELS]; omega
  rw [toInt16_of_lt h1]
  have h2 : ((2 : Nat) : Int) = 2 := rfl
  rw [← h2, ← Int.ofNat_tdiv, ofInt16_natCast]
  · simp only [VIDEO_WIDTH_PIXELS]; omega
  · simp only [VIDEO_WIDTH_PIXELS]; omega

theorem peek_lt (m : Mem) (a : Nat) : peek m a < 256 := Nat.mod_lt _ (by decide)

theorem nib_lt (m : Mem) (n : Nat) : nib m n < 16 := by
  have := peek_lt m (n / 2)
  unfold nib
  split <;> omega

theorem peek_poke (m : Mem) (a v i : Nat) :
    peek (poke m a v) i = if i = a then v % 256 else peek m i := by
  unfold peek poke
  split <;> simp

/-- A surface pixel is a nibble of video memory. -/
theorem pixel_eq_nib (m : Mem) (px py : Nat) :
    pixel m px py =
      nib m (2 * ((py % 4) * 8192 + (py / 4) * 160) + px) := by
  unfold pixel nib pixelByte VIDEO_MEMORY_PAGE_SIZE VIDEO_WIDTH_PIXELS
  have h1 : (2 * ((py % 4) * 8192 + (py / 4) * 160) + px) % 2 = px % 2 := by omega
  have h2 : (2 * ((py % 4) * 8192 + (py / 4) * 160) + px) / 2
      = py % 4 * 8192 + py / 4 * (320 / 2) + px / 2 := by omega
  rw [h1, h2]

set_option maxRecDepth 1000000 in
theorem byte_setHigh : ∀ b < 256, ∀ c < 16,
    ((b &&& 0x0F) ||| ((c <<< 4) % 256)) % 256 = 16 * c + b % 16 := by decide

set_option maxRecDepth 1000000 in
theorem byte_setLow : ∀ b < 256, ∀ c < 16,
    ((b &&& 0xF0) ||| c) % 256 = 16 * (b / 16) + c := by decide

/-- Storing `16 * hi + lo` sets the two nibbles of the byte. -/
theorem nib_poke (m : Mem) (a hi lo k : Nat) (hhi : hi < 16) (hlo : lo < 16) :
    nib (poke m a (16 * hi + lo)) k =
      if k = 2 * a then hi else if k = 2 * a + 1 then lo else nib m k := by
  unfold nib
  rw [peek_poke]
  have h256 : (16 * hi + lo) % 256 = 16 * hi + lo := Nat.mod_eq_of_lt (by omega)
  by_cases h0 : k = 2 * a
  · subst h0
    have : 2 * a / 2 = a := by omega
    simp [this, h256]
    omega
  · by_cases h1 : k = 2 * a + 1
    · subst h1
      have e1 : (2 * a + 1) / 2 = a := by omega
      have e2 : ¬ (2 * a + 1) % 2 = 0 := by omega
      simp [e1, e2, h256]
      omega
    · have : ¬ k / 2 = a := by omega
      simp [this, h0, h1]

/-- Replacing the high nibble of a byte. -/
theorem nib_poke_high (m : Mem) (a c k : Nat) (hc : c < 16) :
    nib (poke m a ((peek m a &&& 0x0F) ||| ((c <<< 4) % 256))) k =
      if k = 2 * a then c else nib m k := by
  have hb := peek_lt m a
  have e : poke m a ((peek m a &&& 0x0F) ||| ((c <<< 4) % 256))
      = poke m a (16 * c + peek m a % 16) := by
    funext i
    unfold poke
    rw [byte_setHigh _ hb _ hc, Nat.mod_eq_of_lt (show 16 * c + peek m a % 16 < 256 by omega)]
  rw [e, nib_poke m a c (peek m a % 16) k hc (Nat.mod_lt _ (by decide))]
  by_cases h0 : k = 2 * a
  · simp [h0]
  · by_cases h1 : k = 2 * a + 1
    · subst h1
      have e1 : (2 * a + 1) / 2 = a := by omega
      have e2 : ¬ (2 * a + 1) % 2 = 0 := by omega
      simp [nib, e1, e2]
    · simp [h0, h1]

/-- Replacing the low nibble of a byte. -/
theorem nib_poke_low (m : Mem) (a c k : Nat) (hc : c < 16) :
    nib (poke m a ((peek m a &&& 0xF0) ||| c)) k =
      if k = 2 * a + 1 then c else nib m k := by
  have hb := peek_lt m a
  have e : poke m a ((peek m a &&& 0xF0) ||| c)
      = poke m a (16 * (peek m a / 16) + c) := by
    funext i
    unfold poke
    rw [byte_setLow _ hb _ hc, Nat.mod_eq_of_lt (show 16 * (peek m a / 16) + c < 256 by omega)]
  rw [e, nib_poke m a (peek m a / 16) c k (by omega) hc]
  by_cases h0 : k = 2 * a
  · subst h0
    have e1 : (2 * a) / 2 = a := by omega
    simp [nib, e1]
  · simp [h0]

/-! ## One row of `draw2ColorBitmap` -/

theorem div_mod_succ (n d : Nat) (hd : 0 < d) :
    (n % d + 1 = d → (n + 1) / d = n / d + 1 ∧ (n + 1) % d = 0) ∧
    (n % d + 1 ≠ d → (n + 1) / d = n / d ∧ (n + 1) % d = n % d + 1) := by
  have h1 := Nat.div_add_mod n d
  have h2 := Nat.mod_lt n hd
  constructor
  · intro h
    have e : n + 1 = d * (n / d + 1) := by
      rw [Nat.mul_add, Nat.mul_one]; omega
    rw [e]
    exact ⟨Nat.mul_div_cancel_left _ hd, Nat.mul_mod_right _ _⟩
  · intro h
    have e : n + 1 = (n % d + 1) + d * (n / d) := by omega
    have h3 : n % d + 1 < d := by omega
    constructor
    · rw [e, Nat.add_mul_div_left _ _ hd, Nat.div_eq_of_lt h3]; omega
    · rw [e, Nat.add_mul_mod_self_left, Nat.mod_eq_of_lt h3]

set_option maxRecDepth 1000000 in
theorem bit_test : ∀ b < 256, ∀ k < 8,
    ((b &&& 2 ^ (7 - k)) % 256 ≠ 0 ↔ b / 2 ^ (7 - k) % 2 ≠ 0) := by decide

theorem bit_halve : ∀ k < 8, 2 ^ (7 - k) / 2 = if k = 7 then 0 else 2 ^ (7 - (k + 1)) := by
  decide

namespace Blit2

theorem BitPos.pixel_ne_zero {a : Args2} {rs : Int} {n : Nat} {s : Blit2}
    (h : BitPos a rs n s) : s.bitmap_pixel ≠ 0 ↔ a.rowBit rs n ≠ 0 := by
  rw [h.bp, h.bbc, h.bb]
  exact bit_test _ (Nat.mod_lt _ (by decide)) _ (Nat.mod_lt _ (by decide))

theorem ADVANCE_screenVars (a : Args2) (s : Blit2) :
    (ADVANCE_TO_NEXT_BIT a s).screenVars = s.screenVars := by
  unfold ADVANCE_TO_NEXT_BIT screenVars loadPixel
  simp only
  split
  · split <;> rfl
  · rfl

theorem ADVANCE_bitPos {a : Args2} {rs : Int} {n : Nat} {s : Blit2}
    (hx1 : 1 ≤ a.x_scale) (hx2 : a.x_scale < 65536) (h : BitPos a rs n s) :
    BitPos a rs (n + 1) (ADVANCE_TO_NEXT_BIT a s) := by
  obtain ⟨hxsc, hbbc, hbb, hbp⟩ := h
  have hr := Nat.mod_lt n (show 0 < a.x_scale by omega)
  obtain ⟨hA, hB⟩ := div_mod_succ n a.x_scale (by omega)
  have hk := Nat.mod_lt (n / a.x_scale) (show 0 < 8 by decide)
  have hhalf := bit_halve _ hk
  unfold ADVANCE_TO_NEXT_BIT loadPixel
  simp only
  by_cases hc : n % a.x_scale + 1 = a.x_scale
  · obtain ⟨hq, hm⟩ := hA hc
    have h0 : (s.x_scale_counter + 65535) % 65536 = 0 := by rw [hxsc]; omega
    rw [if_pos h0]
    by_cases h7 : n / a.x_scale % 8 = 7
    · have hz : s.bitmap_bit_counter / 2 = 0 := by rw [hbbc, hhalf, if_pos h7]
      rw [if_pos hz]
      refine ⟨?_, ?_, ?_, rfl⟩
      · simp only [hm]; omega
      · simp only [hq]
        have : (n / a.x_scale + 1) % 8 = 0 := by omega
        rw [this]; rfl
      · simp only [hq, hbb]
        have : (n / a.x_scale + 1) / 8 = n / a.x_scale / 8 + 1 := by omega
        rw [this]; push_cast; ring
    · have hz : ¬ s.bitmap_bit_counter / 2 = 0 := by
        rw [hbbc, hhalf, if_neg h7]; positivity
      rw [if_neg hz]
      refine ⟨?_, ?_, ?_, rfl⟩
      · simp only [hm]; omega
      · simp only [hq, hbbc, hhalf, if_neg h7]
        have : (n / a.x_scale + 1) % 8 = n / a.x_scale % 8 + 1 := by omega
        rw [this]
      · simp only [hq, hbb]
        have : (n / a.x_scale + 1) / 8 = n / a.x_scale / 8 := by omega
        rw [this]
  · obtain ⟨hq, hm⟩ := hB hc
    have h0 : ¬ (s.x_scale_counter + 65535) % 65536 = 0 := by rw [hxsc]; omega
    rw [if_neg h0]
    refine ⟨?_, ?_, ?_, ?_⟩
    · simp only [hm, hxsc]; omega
    · simp only [hq, hbbc]
    · simp only [hq, hbb]
    · simp only [hbp]

theorem BitPos.of_bitVars {a : Args2} {rs : Int} {n : Nat} {s t : Blit2}
    (h : BitPos a rs n s) (e : t.bitVars = s.bitVars) : BitPos a rs n t := by
  simp only [bitVars, Prod.mk.injEq] at e
  obtain ⟨e1, e2, e3, e4⟩ := e
  exact ⟨by rw [e1, h.xsc], by rw [e2, h.bbc], by rw [e3, h.bb], by rw [e4, e3, e2, h.bp]⟩

theorem store_bitVars (s : Blit2) (v : Nat) : (s.store v).bitVars = s.bitVars := rfl

theorem store_screenVars (s : Blit2) (v : Nat) :
    (s.store v).screenVars = ((poke s.video_memory s.target v), s.screenVars.2) := rfl

theorem drawLeft_bitVars (a : Args2) (s : Blit2) : (drawLeft a s).bitVars = s.bitVars := by
  unfold drawLeft COLOR_LEFT BLANK_LEFT
  split
  · rfl
  · split <;> rfl

theorem drawRight_bitVars (a : Args2) (s : Blit2) : (drawRight a s).bitVars = s.bitVars := by
  unfold drawRight COLOR_RIGHT BLANK_RIGHT
  split
  · rfl
  · split <;> rfl

theorem drawLeft_cursor (a : Args2) (s : Blit2) :
    (drawLeft a s).screenVars.2 = s.screenVars.2 := by
  unfold drawLeft COLOR_LEFT BLANK_LEFT
  split
  · rfl
  · split <;> rfl

theorem drawRight_cursor (a : Args2) (s : Blit2) :
    (drawRight a s).screenVars.2 = s.screenVars.2 := by
  unfold drawRight COLOR_RIGHT BLANK_RIGHT
  split
  · rfl
  · split <;> rfl

theorem color_left_eq (a : Args2) : a.color_left = (a.color <<< 4) % 256 := rfl

theorem blank_color_left_eq (a : Args2) : a.blank_color_left = (a.blank_color <<< 4) % 256 := rfl

/-- The left pixel of a byte is painted. -/
theorem drawLeft_painted {a : Args2} {m0 : Mem} {rs : Int} {N0 n : Nat} {s : Blit2}
    (hc : a.color < 16) (hb : a.blank_color < 16 ∨ a.blank_color = NO_COLOR)
    (hpos : BitPos a rs n s) (hp : Painted a m0 rs N0 n s.video_memory)
    (ht : N0 + n = 2 * s.target) :
    Painted a m0 rs N0 (n + 1) (drawLeft a s).video_memory := by
  intro k
  have hk := hp k
  have hbit := hpos.pixel_ne_zero
  have hsub : N0 + n - N0 = n := by omega
  unfold drawLeft
  by_cases h1 : s.bitmap_pixel ≠ 0
  · rw [if_pos h1]
    show nib (poke _ _ _) k = _
    rw [color_left_eq, nib_poke_high _ _ _ _ hc]
    by_cases e : k = 2 * s.target
    · have e' : k = N0 + n := by omega
      subst e'
      rw [if_pos e, if_pos (by omega), hsub]
      simp [Args2.paint, hbit.mp h1]
    · rw [if_neg e, hk]
      by_cases hin : N0 ≤ k ∧ k < N0 + n
      · rw [if_pos hin, if_pos (by omega)]
      · rw [if_neg hin, if_neg (by omega)]
  · rw [if_neg h1]
    have hz : a.rowBit rs n = 0 := by
      by_contra hne
      exact h1 (hbit.mpr hne)
    by_cases h2 : a.blank_color ≠ NO_COLOR
    · rw [if_pos h2]
      have hb' : a.blank_color < 16 := by
        rcases hb with hb | hb
        · exact hb
        · exact absurd hb h2
      show nib (poke _ _ _) k = _
      rw [blank_color_left_eq, nib_poke_high _ _ _ _ hb']
      by_cases e : k = 2 * s.target
      · have e' : k = N0 + n := by omega
        subst e'
        rw [if_pos e, if_pos (by omega), hsub]
        simp [Args2.paint, hz, h2]
      · rw [if_neg e, hk]
        by_cases hin : N0 ≤ k ∧ k < N0 + n
        · rw [if_pos hin, if_pos (by omega)]
        · rw [if_neg hin, if_neg (by omega)]
    · rw [if_neg h2, hk]
      by_cases e : k = N0 + n
      · subst e
        rw [if_neg (by omega), if_pos (by omega), hsub]
        simp [Args2.paint, hz, h2]
      · by_cases hin : N0 ≤ k ∧ k < N0 + n
        · rw [if_pos hin, if_pos (by omega)]
        · rw [if_neg hin, if_neg (by omega)]

/-- The right pixel of a byte is painted. -/
theorem drawRight_painted {a : Args2} {m0 : Mem} {rs : Int} {N0 n : Nat} {s : Blit2}
    (hc : a.color < 16) (hb : a.blank_color < 16 ∨ a.blank_color = NO_COLOR)
    (hpos : BitPos a rs n s) (hp : Painted a m0 rs N0 n s.video_memory)
    (ht : N0 + n = 2 * s.target + 1) :
    Painted a m0 rs N0 (n + 1) (drawRight a s).video_memory := by
  intro k
  have hk := hp k
  have hbit := hpos.pixel_ne_zero
  have hsub : N0 + n - N0 = n := by omega
  unfold drawRight
  by_cases h1 : s.bitmap_pixel ≠ 0
  · rw [if_pos h1]
    show nib (poke _ _ _) k = _
    rw [nib_poke_low _ _ _ _ hc]
    by_cases e : k = 2 * s.target + 1
    · have e' : k = N0 + n := by omega
      subst e'
      rw [if_pos e, if_pos (by omega), hsub]
      simp [Args2.paint, hbit.mp h1]
    · rw [if_neg e, hk]
      by_cases hin : N0 ≤ k ∧ k < N0 + n
      · rw [if_pos hin, if_pos (by omega)]
      · rw [if_neg hin, if_neg (by omega)]
  · rw [if_neg h1]
    have hz : a.rowBit rs n = 0 := by
      by_contra hne
      exact h1 (hbit.mpr hne)
    by_cases h2 : a.blank_color ≠ NO_COLOR
    · rw [if_pos h2]
      have hb' : a.blank_color < 16 := by
        rcases hb with hb | hb
        · exact hb
        · exact absurd hb h2
      show nib (poke _ _ _) k = _
      rw [nib_poke_low _ _ _ _ hb']
      by_cases e : k = 2 * s.target + 1
      · have e' : k = N0 + n := by omega
        subst e'
        rw [if_pos e, if_pos (by omega), hsub]
        simp [Args2.paint, hz, h2]
      · rw [if_neg e, hk]
        by_cases hin : N0 ≤ k ∧ k < N0 + n
        · rw [if_pos hin, if_pos (by omega)]
        · rw [if_neg hin, if_neg (by omega)]
    · rw [if_neg h2, hk]
      by_cases e : k = N0 + n
      · subst e
        rw [if_neg (by omega), if_pos (by omega), hsub]
        simp [Args2.paint, hz, h2]
      · by_cases hin : N0 ≤ k ∧ k < N0 + n
        · rw [if_pos hin, if_pos (by omega)]
        · rw [if_neg hin, if_neg (by omega)]

theorem target_congr {s t : Blit2} (e : t.screenVars.2 = s.screenVars.2) : t.target = s.target := by
  simp only [screenVars, Prod.mk.injEq] at e
  obtain ⟨e1, -, e3, -⟩ := e
  unfold target
  rw [e1, e3]

theorem rowVars_congr {s t : Blit2} (e : t.screenVars.2 = s.screenVars.2) :
    t.rowVars = s.rowVars := by
  simp only [screenVars, Prod.mk.injEq] at e
  obtain ⟨-, -, e3, e4, e5, e6, e7, e8⟩ := e
  simp only [rowVars, e3, e4, e5, e6, e7, e8]

theorem ADVANCE_cursor (a : Args2) (s : Blit2) :
    (ADVANCE_TO_NEXT_BIT a s).screenVars.2 = s.screenVars.2 := by
  unfold ADVANCE_TO_NEXT_BIT screenVars loadPixel
  simp only
  split
  · split <;> rfl
  · rfl

theorem ADVANCE_video_memory (a : Args2) (s : Blit2) :
    (ADVANCE_TO_NEXT_BIT a s).video_memory = s.video_memory := by
  unfold ADVANCE_TO_NEXT_BIT loadPixel
  simp only
  split
  · split <;> rfl
  · rfl

theorem setRem_bitVars (s : Blit2) (v : Nat) : (s.setRem v).bitVars = s.bitVars := rfl

theorem setRem_rowVars (s : Blit2) (v : Nat) : (s.setRem v).rowVars = s.rowVars := rfl

theorem setRem_video_memory (s : Blit2) (v : Nat) :
    (s.setRem v).video_memory = s.video_memory := rfl

theorem setRem_rem (s : Blit2) (v : Nat) : (s.setRem v).x_pixels_remaining = v := rfl

theorem setRem_csb (s : Blit2) (v : Nat) :
    (s.setRem v).current_screen_byte = s.current_screen_byte := rfl

theorem setRem_xcsb (s : Blit2) (v : Nat) :
    (s.setRem v).x_current_screen_byte = s.x_current_screen_byte := rfl

theorem nextByte_bitVars (s : Blit2) : s.nextByte.bitVars = s.bitVars := rfl

theorem nextByte_rowVars (s : Blit2) : s.nextByte.rowVars = s.rowVars := rfl

theorem nextByte_video_memory (s : Blit2) : s.nextByte.video_memory = s.video_memory := rfl

theorem nextByte_rem (s : Blit2) : s.nextByte.x_pixels_remaining = s.x_pixels_remaining := rfl

theorem nextByte_csb (s : Blit2) : s.nextByte.current_screen_byte = s.current_screen_byte := rfl

theorem nextByte_xcsb (s : Blit2) :
    s.nextByte.x_current_screen_byte = (s.x_current_screen_byte + 1) % 65536 := rfl

/-- Two pixels of a byte are painted and the bitmap cursor moves on by two. -/
theorem DRAW_NEXT_2_PIXELS_spec {a : Args2} {m0 : Mem} {rs : Int} {N0 n : Nat} {s : Blit2}
    (hc : a.color < 16) (hb : a.blank_color < 16 ∨ a.blank_color = NO_COLOR)
    (hx1 : 1 ≤ a.x_scale) (hx2 : a.x_scale < 65536)
    (hpos : BitPos a rs n s) (hp : Painted a m0 rs N0 n s.video_memory)
    (ht : N0 + n = 2 * s.target) :
    BitPos a rs (n + 2) (DRAW_NEXT_2_PIXELS a s) ∧
    Painted a m0 rs N0 (n + 2) (DRAW_NEXT_2_PIXELS a s).video_memory ∧
    (DRAW_NEXT_2_PIXELS a s).screenVars.2 = s.screenVars.2 := by
  have p1 : BitPos a rs n (drawLeft a s) := hpos.of_bitVars (drawLeft_bitVars a s)
  have m1 := drawLeft_painted hc hb hpos hp ht
  have c1 := drawLeft_cursor a s
  have p2 := ADVANCE_bitPos hx1 hx2 p1
  have m2 : Painted a m0 rs N0 (n + 1) (ADVANCE_TO_NEXT_BIT a (drawLeft a s)).video_memory := by
    rw [ADVANCE_video_memory]; exact m1
  have c2 : (ADVANCE_TO_NEXT_BIT a (drawLeft a s)).screenVars.2 = s.screenVars.2 :=
    (ADVANCE_cursor a _).trans c1
  have t2 : N0 + (n + 1) = 2 * (ADVANCE_TO_NEXT_BIT a (drawLeft a s)).target + 1 := by
    rw [target_congr c2]; omega
  have p3 : BitPos a rs (n + 1) (drawRight a (ADVANCE_TO_NEXT_BIT a (drawLeft a s))) :=
    p2.of_bitVars (drawRight_bitVars a _)
  have m3 := drawRight_painted hc hb p2 m2 t2
  have c3 := (drawRight_cursor a (ADVANCE_TO_NEXT_BIT a (drawLeft a s))).trans c2
  refine ⟨ADVANCE_bitPos hx1 hx2 p3, ?_, ?_⟩
  · unfold DRAW_NEXT_2_PIXELS
    rw [ADVANCE_video_memory]; exact m3
  · unfold DRAW_NEXT_2_PIXELS
    exact (ADVANCE_cursor a _).trans c3

theorem headInit_rowVars (a : Args2) (s : Blit2) : (headInit a s).rowVars = s.rowVars := rfl

theorem rowHead_eq (a : Args2) (s : Blit2) :
    rowHead a s =
      if a.column_start_left_byte then
        if sgt16 a.width_pixels 1 then
          (DRAW_NEXT_2_PIXELS a (headInit a s)).setRem
            (((DRAW_NEXT_2_PIXELS a (headInit a s)).x_pixels_remaining + 65534) % 65536)
        else headInit a s
      else
        (ADVANCE_TO_NEXT_BIT a (drawRight a (headInit a s))).setRem
          (((ADVANCE_TO_NEXT_BIT a (drawRight a (headInit a s))).x_pixels_remaining + 65535)
            % 65536) := rfl

/-- The code in front of the middle section paints no pixel, one pixel or two. -/
theorem rowHead_spec {a : Args2} {rs : Int} {N0 : Nat} {s : Blit2}
    (hc : a.color < 16) (hb : a.blank_color < 16 ∨ a.blank_color = NO_COLOR)
    (hx1 : 1 ≤ a.x_scale) (hx2 : a.x_scale < 65536)
    (hw : a.width_pixels < 32768)
    (hpar : a.column_start_left_byte = true → a.width_pixels % 2 = 0)
    (hodd : a.column_start_left_byte = false → 1 ≤ a.width_pixels)
    (hN0 : N0 = 2 * s.current_screen_byte + (if a.column_start_left_byte then 0 else 1))
    (hcsb : s.current_screen_byte < 65536)
    (hpos : BitPos a rs 0 s) :
    ∃ n, Mid a s.video_memory rs N0 n s (rowHead a s) := by
  have hp0 : Painted a s.video_memory rs N0 0 (headInit a s).video_memory := fun k => by
    rw [if_neg (by omega)]; rfl
  have p0 : BitPos a rs 0 (headInit a s) := hpos.of_bitVars rfl
  have htg : (headInit a s).target = s.current_screen_byte := by
    show (s.current_screen_byte + 0) % 65536 = _
    rw [Nat.add_zero, Nat.mod_eq_of_lt hcsb]
  rw [rowHead_eq]
  by_cases hcol : a.column_start_left_byte = true
  · rw [if_pos hcol]
    rw [if_pos hcol] at hN0
    have hpar' := hpar hcol
    rw [sgt16_of_lt hw (by decide)]
    by_cases h1 : 1 < a.width_pixels
    · rw [if_pos (by simpa using h1)]
      have ht : N0 + 0 = 2 * (headInit a s).target := by rw [htg]; omega
      obtain ⟨q1, q2, q3⟩ := DRAW_NEXT_2_PIXELS_spec hc hb hx1 hx2 p0 hp0 ht
      have q3' := q3
      simp only [screenVars, Prod.mk.injEq] at q3'
      obtain ⟨e1, e2, e3, -⟩ := q3'
      refine ⟨2, q1.of_bitVars (setRem_bitVars _ _), ?_, ?_, by omega, ?_, ?_⟩
      · rw [setRem_video_memory]; exact q2
      · rw [setRem_rem, e2]
        show (a.width_pixels + 65534) % 65536 = _
        omega
      · intro _
        rw [setRem_csb, setRem_xcsb, e1, e3]
        show _ = 2 * (s.current_screen_byte + 0 + 1)
        omega
      · rw [setRem_rowVars]; exact (rowVars_congr q3).trans (headInit_rowVars a s)
    · rw [if_neg (by simpa using h1)]
      exact ⟨0, p0, hp0, rfl, by omega, fun h => by omega, rfl⟩
  · have hcol' : a.column_start_left_byte = false := by simpa using hcol
    rw [if_neg hcol]
    rw [if_neg hcol] at hN0
    have hw1 := hodd hcol'
    have ht : N0 + 0 = 2 * (headInit a s).target + 1 := by rw [htg]; omega
    have m1 := drawRight_painted hc hb p0 hp0 ht
    have p1 := ADVANCE_bitPos hx1 hx2 (p0.of_bitVars (drawRight_bitVars a _))
    have c1 := (ADVANCE_cursor a _).trans (drawRight_cursor a (headInit a s))
    have c1' := c1
    simp only [screenVars, Prod.mk.injEq] at c1'
    obtain ⟨e1, e2, e3, -⟩ := c1'
    refine ⟨1, p1.of_bitVars (setRem_bitVars _ _), ?_, ?_, hw1, ?_, ?_⟩
    · rw [setRem_video_memory, ADVANCE_video_memory]; exact m1
    · rw [setRem_rem, e2]
      show (a.width_pixels + 65535) % 65536 = _
      omega
    · intro _
      rw [setRem_csb, setRem_xcsb, e1, e3]
      show _ = 2 * (s.current_screen_byte + 0 + 1)
      omega
    · rw [setRem_rowVars]; exact (rowVars_congr c1).trans (headInit_rowVars a s)

theorem rowMiddle_succ (a : Args2) (fuel : Nat) (s : Blit2) :
    rowMiddle a (fuel + 1) s =
      if sgt16 s.x_pixels_remaining 1 then
        rowMiddle a fuel ((DRAW_NEXT_2_PIXELS a s.nextByte).setRem
          (((DRAW_NEXT_2_PIXELS a s.nextByte).x_pixels_remaining + 65534) % 65536))
      else s := rfl

/-- The middle section paints the pairs of pixels that are left. -/
theorem rowMiddle_spec {a : Args2} {m0 : Mem} {rs : Int} {N0 : Nat} {s0 : Blit2}
    (hc : a.color < 16) (hb : a.blank_color < 16 ∨ a.blank_color = NO_COLOR)
    (hx1 : 1 ≤ a.x_scale) (hx2 : a.x_scale < 65536)
    (hw : a.width_pixels < 32768) (hfit : N0 + a.width_pixels ≤ 131072) :
    ∀ (fuel n : Nat) (s : Blit2), Mid a m0 rs N0 n s0 s → (a.width_pixels - n) / 2 ≤ fuel →
      ∃ n', Mid a m0 rs N0 n' s0 (rowMiddle a fuel s) ∧ a.width_pixels - n' ≤ 1 := by
  intro fuel
  induction fuel with
  | zero =>
    intro n s h hf
    exact ⟨n, h, by omega⟩
  | succ fuel ih =>
    intro n s h hf
    rw [rowMiddle_succ, h.rem, sgt16_of_lt (by omega) (by decide)]
    by_cases h1 : 1 < a.width_pixels - n
    · rw [if_pos (by simpa using h1)]
      have hal := h.align (by omega)
      have hle := h.le
      have hx : (s.x_current_screen_byte + 1) % 65536 = s.x_current_screen_byte + 1 :=
        Nat.mod_eq_of_lt (by omega)
      have htg : s.nextByte.target = s.current_screen_byte + s.x_current_screen_byte + 1 := by
        show (s.current_screen_byte + (s.x_current_screen_byte + 1) % 65536) % 65536 = _
        rw [hx, Nat.mod_eq_of_lt (by omega)]; omega
      have p1 : BitPos a rs n s.nextByte := h.pos.of_bitVars (nextByte_bitVars s)
      have m1 : Painted a m0 rs N0 n s.nextByte.video_memory := h.painted
      obtain ⟨q1, q2, q3⟩ := DRAW_NEXT_2_PIXELS_spec hc hb hx1 hx2 p1 m1 (by rw [htg]; omega)
      have q3' := q3
      simp only [screenVars, Prod.mk.injEq] at q3'
      obtain ⟨e1, e2, e3, -⟩ := q3'
      refine ih (n + 2) _ ⟨q1.of_bitVars (setRem_bitVars _ _), ?_, ?_, by omega, ?_, ?_⟩ (by omega)
      · rw [setRem_video_memory]; exact q2
      · rw [setRem_rem, e2, nextByte_rem, h.rem]; omega
      · intro _
        rw [setRem_csb, setRem_xcsb, e1, e3, nextByte_csb, nextByte_xcsb, hx]; omega
      · rw [setRem_rowVars]
        exact ((rowVars_congr q3).trans (nextByte_rowVars s)).trans h.vars
    · rw [if_neg (by simpa using h1)]
      exact ⟨n, h, by omega⟩

theorem rowTail_eq (a : Args2) (y : Nat) (s : Blit2) :
    rowTail a y s =
      if s.x_pixels_remaining = 1 then
        if y < (a.height_pixels + 65535) % 65536 then
          ADVANCE_TO_NEXT_BIT a (drawLeft a s.nextByte)
        else drawLeft a s.nextByte
      else s := rfl

/-- After the single remaining pixel the whole row is painted. -/
theorem rowTail_spec {a : Args2} {m0 : Mem} {rs : Int} {N0 n : Nat} {s0 s : Blit2}
    (hc : a.color < 16) (hb : a.blank_color < 16 ∨ a.blank_color = NO_COLOR)
    (hfit : N0 + a.width_pixels ≤ 131072)
    (h : Mid a m0 rs N0 n s0 s) (hn : a.width_pixels - n ≤ 1) (y : Nat) :
    Painted a m0 rs N0 a.width_pixels (rowTail a y s).video_memory ∧
      (rowTail a y s).rowVars = s0.rowVars := by
  rw [rowTail_eq, h.rem]
  have hle := h.le
  by_cases h1 : a.width_pixels - n = 1
  · rw [if_pos h1]
    have hal := h.align (by omega)
    have hx : (s.x_current_screen_byte + 1) % 65536 = s.x_current_screen_byte + 1 :=
      Nat.mod_eq_of_lt (by omega)
    have htg : s.nextByte.target = s.current_screen_byte + s.x_current_screen_byte + 1 := by
      show (s.current_screen_byte + (s.x_current_screen_byte + 1) % 65536) % 65536 = _
      rw [hx, Nat.mod_eq_of_lt (by omega)]; omega
    have p1 : BitPos a rs n s.nextByte := h.pos.of_bitVars (nextByte_bitVars s)
    have m1 : Painted a m0 rs N0 n s.nextByte.video_memory := h.painted
    have m2 := drawLeft_painted hc hb p1 m1 (by rw [htg]; omega)
    have hw : n + 1 = a.width_pixels := by omega
    rw [hw] at m2
    have v2 : (drawLeft a s.nextByte).rowVars = s0.rowVars :=
      ((rowVars_congr (drawLeft_cursor a _)).trans (nextByte_rowVars s)).trans h.vars
    split
    · refine ⟨?_, (rowVars_congr (ADVANCE_cursor a _)).trans v2⟩
      rw [ADVANCE_video_memory]; exact m2
    · exact ⟨m2, v2⟩
  · rw [if_neg h1]
    have hw : n = a.width_pixels := by omega
    have hp := h.painted
    rw [hw] at hp
    exact ⟨hp, h.vars⟩

end Blit2

/-- The step of `page_row_byte` from row `r` to row `r + 1`, in 16 bits. -/
theorem next_row_offset (r : Nat) :
    (if (r % 4 + 1) % 65536 > 3 then (r / 4 * 160 % 65536 + 160) % 65536
      else r / 4 * 160 % 65536) = (r + 1) / 4 * 160 % 65536 := by
  by_cases h3 : r % 4 = 3
  · have e : (r + 1) / 4 = r / 4 + 1 := by omega
    rw [if_pos (by omega), e, Nat.mod_add_mod, Nat.add_mul, Nat.one_mul]
  · have e : (r + 1) / 4 = r / 4 := by omega
    rw [if_neg (by omega), e]

namespace Blit2

/-- The end of the row loop body in closed form. -/
theorem rowEnd_eq (a : Args2) (s : Blit2) :
    rowEnd a s =
      { video_memory := s.video_memory
        writes := s.writes
        reads := (if (s.y_scale_counter + 65535) % 65536 = 0 then
            s.bitmap_byte_start_of_row + (a.width_bytes : Int)
          else s.bitmap_byte_start_of_row) :: s.reads
        x_current_screen_byte := s.x_current_screen_byte
        x_pixels_remaining := s.x_pixels_remaining
        x_scale_counter := a.x_scale
        y_scale_counter := if (s.y_scale_counter + 65535) % 65536 = 0 then a.y_scale
          else (s.y_scale_counter + 65535) % 65536
        current_page := if (s.current_page + 1) % 65536 > 3 then 0
          else (s.current_page + 1) % 65536
        page_start := (if (s.current_page + 1) % 65536 > 3 then 0
          else (s.current_page + 1) % 65536) * VIDEO_MEMORY_PAGE_SIZE % 65536
        page_row_byte := if (s.current_page + 1) % 65536 > 3 then
            (s.page_row_byte + VIDEO_WIDTH_PIXELS / 2) % 65536
          else s.page_row_byte
        current_screen_byte :=
          ((if (s.current_page + 1) % 65536 > 3 then 0
              else (s.current_page + 1) % 65536) * VIDEO_MEMORY_PAGE_SIZE % 65536
            + (if (s.current_page + 1) % 65536 > 3 then
                (s.page_row_byte + VIDEO_WIDTH_PIXELS / 2) % 65536
              else s.page_row_byte)
            + a.x_byte) % 65536
        bitmap_bit_counter := 128
        bitmap_byte := if (s.y_scale_counter + 65535) % 65536 = 0 then
            s.bitmap_byte_start_of_row + (a.width_bytes : Int)
          else s.bitmap_byte_start_of_row
        bitmap_byte_start_of_row := if (s.y_scale_counter + 65535) % 65536 = 0 then
            s.bitmap_byte_start_of_row + (a.width_bytes : Int)
          else s.bitmap_byte_start_of_row
        bitmap_pixel := (bitmapAt a.bitmap (if (s.y_scale_counter + 65535) % 65536 = 0 then
            s.bitmap_byte_start_of_row + (a.width_bytes : Int)
          else s.bitmap_byte_start_of_row) &&& 128) % 256 } := by
  unfold rowEnd loadPixel
  simp only
  split <;> split <;> rfl

theorem rowEnd_video_memory (a : Args2) (s : Blit2) :
    (rowEnd a s).video_memory = s.video_memory := by
  rw [rowEnd_eq]

theorem rowEnd_page (a : Args2) (s : Blit2) :
    (rowEnd a s).current_page =
      if (s.current_page + 1) % 65536 > 3 then 0 else (s.current_page + 1) % 65536 := by
  rw [rowEnd_eq]

theorem rowEnd_prb (a : Args2) (s : Blit2) :
    (rowEnd a s).page_row_byte =
      if (s.current_page + 1) % 65536 > 3 then (s.page_row_byte + 160) % 65536
      else s.page_row_byte := by
  rw [rowEnd_eq]; simp only [VIDEO_WIDTH_PIXELS]

theorem rowEnd_csb (a : Args2) (s : Blit2) :
    (rowEnd a s).current_screen_byte =
      ((rowEnd a s).current_page * 8192 % 65536 + (rowEnd a s).page_row_byte + a.x_byte)
        % 65536 := by
  rw [rowEnd_eq]; simp only [VIDEO_MEMORY_PAGE_SIZE]

theorem rowEnd_ysc (a : Args2) (s : Blit2) :
    (rowEnd a s).y_scale_counter =
      if (s.y_scale_counter + 65535) % 65536 = 0 then a.y_scale
      else (s.y_scale_counter + 65535) % 65536 := by
  rw [rowEnd_eq]

theorem rowEnd_start (a : Args2) (s : Blit2) :
    (rowEnd a s).bitmap_byte_start_of_row =
      if (s.y_scale_counter + 65535) % 65536 = 0 then
        s.bitmap_byte_start_of_row + (a.width_bytes : Int)
      else s.bitmap_byte_start_of_row := by
  rw [rowEnd_eq]

theorem rowEnd_bitVars (a : Args2) (s : Blit2) :
    (rowEnd a s).bitVars =
      (a.x_scale, 128, (rowEnd a s).bitmap_byte_start_of_row,
        (bitmapAt a.bitmap (rowEnd a s).bitmap_byte_start_of_row &&& 128) % 256) := by
  rw [rowEnd_eq]; simp only [bitVars]

/-- The bitmap cursor at the start of a row. -/
theorem bitPos_zero {a : Args2} {s : Blit2}
    (e : s.bitVars = (a.x_scale, 128, s.bitmap_byte_start_of_row,
      (bitmapAt a.bitmap s.bitmap_byte_start_of_row &&& 128) % 256)) :
    BitPos a s.bitmap_byte_start_of_row 0 s := by
  simp only [bitVars, Prod.mk.injEq] at e
  obtain ⟨e1, e2, e3, e4⟩ := e
  refine ⟨?_, ?_, ?_, ?_⟩
  · rw [e1, Nat.zero_mod]; rfl
  · rw [e2, Nat.zero_div]; rfl
  · rw [e3, Nat.zero_div]; simp
  · rw [e4, e3, e2]

theorem x_byte_eq {a : Args2} (hx : a.x_pixel < 32768) : a.x_byte = a.x_pixel / 2 :=
  div_quot_of_lt hx (by decide)

theorem column_start_left_byte_eq {a : Args2} (hx : a.x_pixel < 32768) :
    a.column_start_left_byte = decide (a.x_pixel % 2 = 0) := by
  unfold Args2.column_start_left_byte
  rw [div_rem_of_lt hx (by decide) (by decide)]
  by_cases h : a.x_pixel % 2 = 0 <;> simp [h]

/-- The end of the row loop body moves every row variable to the next row. -/
theorem rowEnd_atRow {a : Args2} {j : Nat} {s0 s : Blit2}
    (hy1 : 1 ≤ a.y_scale) (hy2 : a.y_scale < 65536) (hx : a.x_pixel < 320)
    (h : AtRow a j s0) (hv : s.rowVars = s0.rowVars) :
    AtRow a (j + 1) (rowEnd a s) := by
  simp only [rowVars, Prod.mk.injEq] at hv
  obtain ⟨-, v2, -, v4, v5, v6⟩ := hv
  have hpage : (rowEnd a s).current_page = (a.y_pixel + (j + 1)) % 4 := by
    rw [rowEnd_page, v2, h.page]
    split <;> omega
  have hprb : (rowEnd a s).page_row_byte = (a.y_pixel + (j + 1)) / 4 * 160 % 65536 := by
    rw [rowEnd_prb, v2, v4, h.page, h.prb]
    exact next_row_offset (a.y_pixel + j)
  obtain ⟨hA, hB⟩ := div_mod_succ j a.y_scale (by omega)
  have hr := Nat.mod_lt j (show 0 < a.y_scale by omega)
  refine ⟨hpage, hprb, ?_, ?_, ?_, bitPos_zero (rowEnd_bitVars a s)⟩
  · rw [rowEnd_csb, hpage, hprb, x_byte_eq (by omega), Args2.rowOffset]
    omega
  · rw [rowEnd_ysc, v5, h.ysc]
    by_cases hc : j % a.y_scale + 1 = a.y_scale
    · rw [if_pos (by omega), (hA hc).2]; omega
    · rw [if_neg (by omega), (hB hc).2]; omega
  · rw [rowEnd_start, v5, v6, h.ysc, h.start]
    by_cases hc : j % a.y_scale + 1 = a.y_scale
    · rw [if_pos (by omega), (hA hc).1]; push_cast; ring
    · rw [if_neg (by omega), (hB hc).1]

end Blit2

/-- The rows of the surface do not overlap in video memory: a pixel of row `r2`
is not among the nibbles of a run of pixels in another row `r1`. -/
theorem row_disjoint {r1 r2 x w px : Nat} (h1 : r1 < 200) (h2 : r2 < 200) (hne : r2 ≠ r1)
    (hxw : x + w ≤ 320) (hpx : px < 320) :
    ¬ (2 * (r1 % 4 * 8192 + r1 / 4 * 160) + x ≤ 2 * (r2 % 4 * 8192 + r2 / 4 * 160) + px ∧
      2 * (r2 % 4 * 8192 + r2 / 4 * 160) + px
        < 2 * (r1 % 4 * 8192 + r1 / 4 * 160) + x + w) := by
  have e1 := Nat.div_add_mod r1 4
  have e2 := Nat.div_add_mod r2 4
  have b1 := Nat.mod_lt r1 (show 0 < 4 by decide)
  have b2 := Nat.mod_lt r2 (show 0 < 4 by decide)
  generalize r1 / 4 = q1 at *
  generalize r1 % 4 = m1 at *
  generalize r2 / 4 = q2 at *
  generalize r2 % 4 = m2 at *
  interval_cases m1 <;> interval_cases m2 <;> omega

namespace Args2

theorem rowBit_eq (a : Args2) (r n : Nat) :
    a.rowBit ((r * a.width_bytes : Nat) : Int) n =
      sourceBit a.bitmap a.width_bytes r (n / a.x_scale) := by
  unfold rowBit sourceBit
  push_cast
  rfl

theorem width_pixels_even (a : Args2) (he : a.x_pixel % 2 = 0) :
    a.width_pixels % 2 = 0 := by
  unfold width_pixels VIDEO_WIDTH_PIXELS
  simp only
  have e : a.width_bytes * 8 * a.x_scale = 8 * (a.width_bytes * a.x_scale) := by ring
  rw [e]
  generalize a.width_bytes * a.x_scale = t
  split <;> omega

end Args2

namespace Blit2

theorem rowBody_eq (a : Args2) (y : Nat) (s : Blit2) :
    rowBody a y s = rowEnd a (rowTail a y (rowMiddle a 32768 (rowHead a s))) := rfl

theorem DRAW_NEXT_2_PIXELS_cursor (a : Args2) (s : Blit2) :
    (DRAW_NEXT_2_PIXELS a s).screenVars.2 = s.screenVars.2 := by
  unfold DRAW_NEXT_2_PIXELS
  exact (ADVANCE_cursor a _).trans ((drawRight_cursor a _).trans
    ((ADVANCE_cursor a _).trans (drawLeft_cursor a s)))

theorem rowHead_rowVars (a : Args2) (s : Blit2) : (rowHead a s).rowVars = s.rowVars := by
  rw [rowHead_eq]
  split
  · split
    · rw [setRem_rowVars]
      exact (rowVars_congr (DRAW_NEXT_2_PIXELS_cursor a _)).trans (headInit_rowVars a s)
    · exact headInit_rowVars a s
  · rw [setRem_rowVars]
    exact (rowVars_congr ((ADVANCE_cursor a _).trans (drawRight_cursor a _))).trans
      (headInit_rowVars a s)

theorem rowMiddle_rowVars (a : Args2) :
    ∀ (fuel : Nat) (s : Blit2), (rowMiddle a fuel s).rowVars = s.rowVars := by
  intro fuel
  induction fuel with
  | zero => intro s; rfl
  | succ fuel ih =>
    intro s
    rw [rowMiddle_succ]
    split
    · rw [ih, setRem_rowVars]
      exact (rowVars_congr (DRAW_NEXT_2_PIXELS_cursor a _)).trans (nextByte_rowVars s)
    · rfl

theorem rowTail_rowVars (a : Args2) (y : Nat) (s : Blit2) :
    (rowTail a y s).rowVars = s.rowVars := by
  rw [rowTail_eq]
  split
  · split
    · exact (rowVars_congr ((ADVANCE_cursor a _).trans (drawLeft_cursor a _))).trans
        (nextByte_rowVars s)
    · exact (rowVars_congr (drawLeft_cursor a _)).trans (nextByte_rowVars s)
  · rfl

/-- One pass through the row loop moves the row variables to the next row,
whatever the row draws. -/
theorem rowBody_atRow {a : Args2} {j : Nat} {s : Blit2}
    (hy1 : 1 ≤ a.y_scale) (hy2 : a.y_scale < 65536) (hx : a.x_pixel < 320)
    (h : AtRow a j s) (y : Nat) : AtRow a (j + 1) (rowBody a y s) := by
  rw [rowBody_eq]
  exact rowEnd_atRow hy1 hy2 hx h
    ((rowTail_rowVars a y _).trans ((rowMiddle_rowVars a _ _).trans (rowHead_rowVars a s)))

/-- One pass through the row loop paints the `width_pixels` pixels that start at
the row's offset, provided the row does not run over the end of the video
segment. -/
theorem rowBody_spec {a : Args2} {j : Nat} {s : Blit2}
    (hc : a.color < 16) (hb : a.blank_color < 16 ∨ a.blank_color = NO_COLOR)
    (hx1 : 1 ≤ a.x_scale) (hx2 : a.x_scale < 65536)
    (hx : a.x_pixel < 320)
    (hw : a.x_pixel + a.width_pixels ≤ 320)
    (hodd : a.x_pixel % 2 = 1 → 1 ≤ a.width_pixels)
    (hfit : 2 * a.rowOffset j + a.x_pixel % 2 + a.width_pixels ≤ 131072)
    (h : AtRow a j s) (y : Nat) :
    Painted a s.video_memory ((j / a.y_scale * a.width_bytes : Nat) : Int)
      (2 * a.rowOffset j + a.x_pixel % 2) a.width_pixels (rowBody a y s).video_memory := by
  have hcol := column_start_left_byte_eq (a := a) (by omega)
  have hpar : a.column_start_left_byte = true → a.width_pixels % 2 = 0 := by
    intro hh
    rw [hcol] at hh
    exact a.width_pixels_even (by simpa using hh)
  have hodd' : a.column_start_left_byte = false → 1 ≤ a.width_pixels := by
    intro hh
    rw [hcol] at hh
    exact hodd (by have := of_decide_eq_false hh; omega)
  have hN0 : 2 * a.rowOffset j + a.x_pixel % 2
      = 2 * s.current_screen_byte + (if a.column_start_left_byte then 0 else 1) := by
    rw [h.csb, hcol]
    by_cases he : a.x_pixel % 2 = 0
    · simp only [he, decide_True, if_true]
    · simp only [he, decide_False]; simp; omega
  have hcsb : s.current_screen_byte < 65536 := by
    rw [h.csb, Args2.rowOffset]; omega
  have hpos := h.pos
  rw [h.start] at hpos
  obtain ⟨n, hmid⟩ := rowHead_spec hc hb hx1 hx2 (by omega) hpar hodd' hN0 hcsb hpos
  obtain ⟨n', hmid', hn'⟩ := rowMiddle_spec hc hb hx1 hx2 (by omega) (by omega)
    32768 n _ hmid (by omega)
  obtain ⟨hp, -⟩ := rowTail_spec hc hb (by omega) hmid' hn' y
  rw [rowBody_eq, rowEnd_video_memory]
  exact hp

/-- The offset of a row on the screen. -/
theorem rowOffset_on_screen {a : Args2} {j : Nat} (hx : a.x_pixel < 320)
    (hy : a.y_pixel + j < 200) :
    2 * a.rowOffset j + a.x_pixel % 2
      = 2 * ((a.y_pixel + j) % 4 * 8192 + (a.y_pixel + j) / 4 * 160) + a.x_pixel := by
  unfold Args2.rowOffset
  omega

theorem rows_succ (a : Args2) (fuel y : Nat) (s : Blit2) :
    rows a (fuel + 1) y s =
      if y < a.height_pixels then rows a fuel ((y + 1) % 65536) (rowBody a y s) else s := rfl

/-- The row loop, entered at output row `j`, paints the rows from `j` on. -/
theorem rows_spec {a : Args2}
    (hc : a.color < 16) (hb : a.blank_color < 16 ∨ a.blank_color = NO_COLOR)
    (hx1 : 1 ≤ a.x_scale) (hx2 : a.x_scale < 65536)
    (hy1 : 1 ≤ a.y_scale) (hy2 : a.y_scale < 65536)
    (hx : a.x_pixel < 320)
    (hw : a.x_pixel + a.width_pixels ≤ 320) (hh : a.y_pixel + a.height_pixels ≤ 200)
    (hodd : a.x_pixel % 2 = 1 → 1 ≤ a.width_pixels) :
    ∀ (fuel j : Nat) (s : Blit2), AtRow a j s → j + fuel = a.height_pixels →
      ∀ px py, px < 320 → py < 200 →
        pixel (rows a fuel j s).video_memory px py =
          if a.x_pixel ≤ px ∧ px < a.x_pixel + a.width_pixels ∧
              a.y_pixel + j ≤ py ∧ py < a.y_pixel + a.height_pixels then
            a.paint (sourceBit a.bitmap a.width_bytes ((py - a.y_pixel) / a.y_scale)
              ((px - a.x_pixel) / a.x_scale)) (pixel s.video_memory px py)
          else pixel s.video_memory px py := by
  intro fuel
  induction fuel with
  | zero =>
    intro j s _ hj px py _ _
    rw [if_neg (by omega)]
    rfl
  | succ fuel ih =>
    intro j s h hj px py hpx hpy
    rw [rows_succ, if_pos (by omega), Nat.mod_eq_of_lt (show j + 1 < 65536 by omega)]
    have h1 := rowBody_atRow hy1 hy2 hx h j
    have hoff := rowOffset_on_screen (a := a) (j := j) hx (by omega)
    have hp := rowBody_spec hc hb hx1 hx2 hx hw hodd (by omega) h j
    rw [hoff] at hp
    rw [ih (j + 1) _ h1 (by omega) px py hpx hpy]
    have hk := hp (2 * ((py % 4) * 8192 + (py / 4) * 160) + px)
    rw [← pixel_eq_nib, ← pixel_eq_nib] at hk
    rw [hk]
    by_cases hrow : py = a.y_pixel + j
    · subst hrow
      by_cases hcolumn : a.x_pixel ≤ px ∧ px < a.x_pixel + a.width_pixels
      · rw [if_neg (by omega), if_pos (by omega), if_pos (by omega), Args2.rowBit_eq]
        have e1 : 2 * ((a.y_pixel + j) % 4 * 8192 + (a.y_pixel + j) / 4 * 160) + px
            - (2 * ((a.y_pixel + j) % 4 * 8192 + (a.y_pixel + j) / 4 * 160) + a.x_pixel)
            = px - a.x_pixel := by omega
        have e2 : a.y_pixel + j - a.y_pixel = j := by omega
        rw [e1, e2]
      · rw [if_neg (by omega), if_neg (by omega), if_neg (by omega)]
    · rw [if_neg (row_disjoint (by omega) hpy hrow hw hpx)]
      by_cases hin : a.x_pixel ≤ px ∧ px < a.x_pixel + a.width_pixels ∧
          a.y_pixel + j ≤ py ∧ py < a.y_pixel + a.height_pixels
      · rw [if_pos (by omega), if_pos hin]
      · rw [if_neg (by omega), if_neg hin]

theorem init_video_memory (a : Args2) (m : Mem) : (init a m).video_memory = m := rfl

theorem init_atRow {a : Args2} (m : Mem) (hx : a.x_pixel < 320) (hy : a.y_pixel < 200) :
    AtRow a 0 (init a m) := by
  have hrem := div_rem_of_lt (a := a.y_pixel) (b := 4) (by omega) (by decide) (by decide)
  have hprb := page_row_byte_init (y := a.y_pixel) (by omega) (by omega)
  refine ⟨?_, ?_, ?_, ?_, ?_, bitPos_zero rfl⟩
  · show div_rem a.y_pixel 4 = _
    rw [hrem]; rfl
  · show ofInt16 (Int.tdiv (toInt16 (div_quot a.y_pixel 4 * VIDEO_WIDTH_PIXELS)) 2) = _
    rw [hprb, Nat.add_zero]; omega
  · show (div_rem a.y_pixel 4 * VIDEO_MEMORY_PAGE_SIZE % 65536
      + ofInt16 (Int.tdiv (toInt16 (div_quot a.y_pixel 4 * VIDEO_WIDTH_PIXELS)) 2)
      + a.x_byte) % 65536 = _
    rw [hrem, hprb, x_byte_eq (by omega), Args2.rowOffset]
    simp only [VIDEO_MEMORY_PAGE_SIZE, Nat.add_zero]
    omega
  · show a.y_scale = _
    rw [Nat.zero_mod]; rfl
  · show (0 : Int) = _
    simp

/-- What `draw2ColorBitmap` leaves on the surface, pixel by pixel, when the size
computation does not wrap. -/
theorem run_pixel (a : Args2) (m : Mem)
    (hc : a.color < 16) (hb : a.blank_color < 16 ∨ a.blank_color = NO_COLOR)
    (hx1 : 1 ≤ a.x_scale) (hx2 : a.x_scale < 65536)
    (hy1 : 1 ≤ a.y_scale) (hy2 : a.y_scale < 65536)
    (hx : a.x_pixel < 320) (hy : a.y_pixel < 200)
    (hw : a.x_pixel + a.width_pixels ≤ 320) (hh : a.y_pixel + a.height_pixels ≤ 200)
    (hodd : a.x_pixel % 2 = 1 → 1 ≤ a.width_pixels)
    (px py : Nat) (hpx : px < 320) (hpy : py < 200) :
    pixel (run a m).video_memory px py = a.expected m px py := by
  unfold run
  rw [rows_spec hc hb hx1 hx2 hy1 hy2 hx hw hh hodd a.height_pixels 0 _ (init_atRow m hx hy)
    (by omega) px py hpx hpy, init_video_memory]
  rfl

end Blit2

/-! ## One row of `draw16ColorBitmap` -/

set_option maxRecDepth 1000000 in
theorem byte_loadHigh : ∀ b < 256, sar4 (charToInt b &&& 0xF0) % 256 = b / 16 := by decide

set_option maxRecDepth 1000000 in
theorem byte_loadLow : ∀ b < 256, (charToInt b &&& 0x0F) % 256 = b % 16 := by decide

set_option maxRecDepth 1000000 in
theorem byte_keepHigh : ∀ b < 256,
    ((charToInt (sar4 (charToInt ((b &&& 0xF0) % 256)) % 256) <<< 4) % 65536) % 256
      = 16 * (b / 16) := by decide

set_option maxRecDepth 1000000 in
theorem byte_keepLow : ∀ b < 256, (b &&& 0x0F) % 256 = b % 16 := by decide

set_option maxRecDepth 1000000 in
theorem byte_shiftNibble : ∀ c < 16, ((charToInt c <<< 4) % 65536) % 256 = 16 * c := by decide

set_option maxRecDepth 1000000 in
theorem byte_merge : ∀ t < 16, ∀ v < 16, ((16 * t) ||| charToInt v) % 256 = 16 * t + v := by
  decide

set_option maxRecDepth 1000000 in
theorem byte_flush : ∀ t < 16, ∀ b < 256, (16 * t) ||| (b &&& 0x0F) = 16 * t + b % 16 := by
  decide

set_option maxRecDepth 1000000 in
theorem byte_preload : ∀ b < 256, b &&& 0xF0 = 16 * (b / 16) := by decide

theorem bitmapAt_lt (b : Bitmap) (i : Int) : bitmapAt b i < 256 := Nat.mod_lt _ (by decide)

namespace Args16

theorem nibAt_lt (a : Args16) (rs : Int) (q : Nat) : a.nibAt rs q < 16 := by
  have h := bitmapAt_lt a.bitmap (a.byteAt rs q)
  unfold nibAt
  split
  · omega
  · exact Nat.mod_lt _ (by decide)

theorem rowNibble_lt (a : Args16) (rs : Int) (n : Nat) : a.rowNibble rs n < 16 :=
  a.nibAt_lt rs _

theorem maskAt_cases (a : Args16) (q : Nat) : a.maskAt q = 0xF0 ∨ a.maskAt q = 0x0F := by
  unfold maskAt
  split <;> split <;> simp

/-- From a high nibble the traversal goes to the low nibble: of the same byte, or
of the byte in front when mirrored. -/
theorem step_from_high (a : Args16) (rs : Int) (q : Nat) (h : a.maskAt q = 0xF0) :
    a.maskAt (q + 1) = 0x0F ∧
    a.byteAt rs (q + 1) = (if a.invert_x ≠ 0 then a.byteAt rs q - 1 else a.byteAt rs q) := by
  unfold maskAt at h
  unfold maskAt byteAt
  by_cases hinv : a.invert_x = 0
  · rw [if_pos hinv] at h
    have hq : q % 2 = 0 := by
      by_contra hq
      rw [if_neg hq] at h
      exact absurd h (by decide)
    have e1 : ¬ (q + 1) % 2 = 0 := by omega
    have e2 : (q + 1) / 2 = q / 2 := by omega
    rw [if_pos hinv, if_pos hinv, if_pos hinv, if_neg e1, e2, if_neg (not_not.mpr hinv)]
    exact ⟨rfl, rfl⟩
  · rw [if_neg hinv] at h
    have hq : ¬ q % 2 = 0 := by
      intro hq
      rw [if_pos hq] at h
      exact absurd h (by decide)
    have e1 : (q + 1) % 2 = 0 := by omega
    have e2 : (q + 1) / 2 = q / 2 + 1 := by omega
    rw [if_neg hinv, if_neg hinv, if_neg hinv, if_pos e1, e2, if_pos hinv]
    refine ⟨rfl, ?_⟩
    push_cast
    ring

/-- From a low nibble the traversal goes to the high nibble: of the next byte, or
of the same byte when mirrored. -/
theorem step_from_low (a : Args16) (rs : Int) (q : Nat) (h : a.maskAt q = 0x0F) :
    a.maskAt (q + 1) = 0xF0 ∧
    a.byteAt rs (q + 1) = (if a.invert_x = 0 then a.byteAt rs q + 1 else a.byteAt rs q) := by
  unfold maskAt at h
  unfold maskAt byteAt
  by_cases hinv : a.invert_x = 0
  · rw [if_pos hinv] at h
    have hq : ¬ q % 2 = 0 := by
      intro hq
      rw [if_pos hq] at h
      exact absurd h (by decide)
    have e1 : (q + 1) % 2 = 0 := by omega
    have e2 : (q + 1) / 2 = q / 2 + 1 := by omega
    rw [if_pos hinv, if_pos hinv, if_pos hinv, if_pos e1, e2, if_pos hinv]
    refine ⟨rfl, ?_⟩
    push_cast
    ring
  · rw [if_neg hinv] at h
    have hq : q % 2 = 0 := by
      by_contra hq
      rw [if_neg hq] at h
      exact absurd h (by decide)
    have e1 : ¬ (q + 1) % 2 = 0 := by omega
    have e2 : (q + 1) / 2 = q / 2 := by omega
    rw [if_neg hinv, if_neg hinv, if_neg hinv, if_neg e1, e2, if_neg hinv]
    exact ⟨rfl, rfl⟩

end Args16

namespace Blit16

theorem NibPos.of_nibVars {a : Args16} {rs : Int} {n : Nat} {s t : Blit16}
    (h : NibPos a rs n s) (e : t.nibVars = s.nibVars) : NibPos a rs n t := by
  simp only [nibVars, Prod.mk.injEq] at e
  obtain ⟨e1, e2, e3, e4⟩ := e
  exact ⟨by rw [e1, h.xsc], by rw [e2, h.mask], by rw [e3, h.bb], by rw [e4, h.cbn]⟩

/-- The step to the next nibble in closed form. -/
theorem advanceNibble_eq (a : Args16) (s : Blit16) :
    advanceNibble a s =
      if (s.x_scale_counter + 65535) % 65536 = 0 then
        if (s.bitmap_nibble_mask ^^^ 0xFF) % 256 = 0x0F then
          { s with
            x_scale_counter := a.x_scale
            bitmap_nibble_mask := (s.bitmap_nibble_mask ^^^ 0xFF) % 256
            bitmap_byte := if a.invert_x ≠ 0 then s.bitmap_byte - 1 else s.bitmap_byte
            current_bitmap_nibble :=
              (charToInt (bitmapAt a.bitmap
                (if a.invert_x ≠ 0 then s.bitmap_byte - 1 else s.bitmap_byte)) &&& 0x0F) % 256
            reads := (if a.invert_x ≠ 0 then s.bitmap_byte - 1 else s.bitmap_byte) :: s.reads }
        else
          { s with
            x_scale_counter := a.x_scale
            bitmap_nibble_mask := (s.bitmap_nibble_mask ^^^ 0xFF) % 256
            bitmap_byte := if a.invert_x = 0 then s.bitmap_byte + 1 else s.bitmap_byte
            current_bitmap_nibble :=
              sar4 (charToInt (bitmapAt a.bitmap
                (if a.invert_x = 0 then s.bitmap_byte + 1 else s.bitmap_byte)) &&& 0xF0) % 256
            reads := (if a.invert_x = 0 then s.bitmap_byte + 1 else s.bitmap_byte) :: s.reads }
      else { s with x_scale_counter := (s.x_scale_counter + 65535) % 65536 } := by
  unfold advanceNibble loadLow loadHigh
  simp only
  split
  · split <;> split <;> rfl
  · rfl

theorem advanceNibble_screenVars (a : Args16) (s : Blit16) :
    (advanceNibble a s).screenVars = s.screenVars := by
  rw [advanceNibble_eq]
  split
  · split <;> simp only [screenVars]
  · simp only [screenVars]

theorem advanceNibble_nibPos {a : Args16} {rs : Int} {n : Nat} {s : Blit16}
    (hx1 : 1 ≤ a.x_scale) (hx2 : a.x_scale < 65536) (h : NibPos a rs n s) :
    NibPos a rs (n + 1) (advanceNibble a s) := by
  obtain ⟨hxsc, hmask, hbb, hcbn⟩ := h
  have hr := Nat.mod_lt n (show 0 < a.x_scale by omega)
  obtain ⟨hA, hB⟩ := div_mod_succ n a.x_scale (by omega)
  rw [advanceNibble_eq]
  by_cases hc : n % a.x_scale + 1 = a.x_scale
  · obtain ⟨hq, hm⟩ := hA hc
    have h0 : (s.x_scale_counter + 65535) % 65536 = 0 := by rw [hxsc]; omega
    rw [if_pos h0]
    rcases a.maskAt_cases (n / a.x_scale) with hhi | hlo
    · obtain ⟨k1, k2⟩ := a.step_from_high rs _ hhi
      rw [hmask, hhi, if_pos (by decide)]
      refine ⟨?_, ?_, ?_, ?_⟩
      · show a.x_scale = _
        rw [hm]; omega
      · show (0xF0 ^^^ 0xFF) % 256 = _
        rw [hq, k1]; decide
      · show (if a.invert_x ≠ 0 then s.bitmap_byte - 1 else s.bitmap_byte) = _
        rw [hq, k2, hbb]
      · show (charToInt (bitmapAt a.bitmap
          (if a.invert_x ≠ 0 then s.bitmap_byte - 1 else s.bitmap_byte)) &&& 0x0F) % 256 = _
        rw [byte_loadLow _ (bitmapAt_lt _ _), Args16.rowNibble, hq, Args16.nibAt, k1,
          if_neg (show ¬ (15 : Nat) = 240 by decide), k2, hbb]
    · obtain ⟨k1, k2⟩ := a.step_from_low rs _ hlo
      rw [hmask, hlo, if_neg (by decide)]
      refine ⟨?_, ?_, ?_, ?_⟩
      · show a.x_scale = _
        rw [hm]; omega
      · show (0x0F ^^^ 0xFF) % 256 = _
        rw [hq, k1]; decide
      · show (if a.invert_x = 0 then s.bitmap_byte + 1 else s.bitmap_byte) = _
        rw [hq, k2, hbb]
      · show sar4 (charToInt (bitmapAt a.bitmap
          (if a.invert_x = 0 then s.bitmap_byte + 1 else s.bitmap_byte)) &&& 0xF0) % 256 = _
        rw [byte_loadHigh _ (bitmapAt_lt _ _), Args16.rowNibble, hq, Args16.nibAt, k1,
          if_pos (show (240 : Nat) = 240 from rfl), k2, hbb]
  · obtain ⟨hq, hm⟩ := hB hc
    have h0 : ¬ (s.x_scale_counter + 65535) % 65536 = 0 := by rw [hxsc]; omega
    rw [if_neg h0]
    refine ⟨?_, ?_, ?_, ?_⟩
    · show (s.x_scale_counter + 65535) % 65536 = _
      rw [hm, hxsc]; omega
    · show s.bitmap_nibble_mask = _
      rw [hq, hmask]
    · show s.bitmap_byte = _
      rw [hq, hbb]
    · show s.current_bitmap_nibble = _
      rw [hcbn, Args16.rowNibble, Args16.rowNibble, hq]

end Blit16

namespace Args16

theorem paint_lt (a : Args16) (hb : a.blank_color < 16 ∨ a.blank_color = NO_COLOR)
    {v old : Nat} (hv : v < 16) (ho : old < 16) : a.paint v old < 16 := by
  unfold paint
  split
  · split
    · rcases hb with hb | hb
      · exact hb
      · contradiction
    · exact ho
  · exact hv

theorem goal_lt (a : Args16) (hb : a.blank_color < 16 ∨ a.blank_color = NO_COLOR)
    (m0 : Mem) (rs : Int) (N0 n k : Nat) : a.goal m0 rs N0 n k < 16 := by
  unfold goal
  split
  · exact a.paint_lt hb (a.rowNibble_lt _ _) (nib_lt _ _)
  · exact nib_lt _ _

theorem goal_succ_ne (a : Args16) (m0 : Mem) (rs : Int) (N0 n k : Nat) (h : k ≠ N0 + n) :
    a.goal m0 rs N0 (n + 1) k = a.goal m0 rs N0 n k := by
  unfold goal
  by_cases hin : N0 ≤ k ∧ k < N0 + n
  · rw [if_pos hin, if_pos (by omega)]
  · rw [if_neg hin, if_neg (by omega)]

theorem goal_succ_eq (a : Args16) (m0 : Mem) (rs : Int) (N0 n : Nat) :
    a.goal m0 rs N0 (n + 1) (N0 + n) = a.paint (a.rowNibble rs n) (nib m0 (N0 + n)) := by
  unfold goal
  rw [if_pos (by omega)]
  have : N0 + n - N0 = n := by omega
  rw [this]

theorem goal_self (a : Args16) (m0 : Mem) (rs : Int) (N0 n k : Nat) (h : N0 + n ≤ k) :
    a.goal m0 rs N0 n k = nib m0 k := by
  unfold goal
  rw [if_neg (by omega)]

/-- On the left nibble the new screen byte holds the painted value in its high
nibble, also when the old value is kept through the signed `char`. -/
theorem nsnVal_left (a : Args16) (hb : a.blank_color < 16 ∨ a.blank_color = NO_COLOR)
    {cbn sb : Nat} (hc : cbn < 16) (hs : sb < 256) :
    ((charToInt (a.nsnVal cbn 0xF0 sb) <<< 4) % 65536) % 256 = 16 * a.paint cbn (sb / 16) := by
  unfold nsnVal paint
  by_cases h0 : cbn = 0
  · rw [if_pos h0, if_pos h0]
    by_cases h1 : a.blank_color ≠ NO_COLOR
    · have hb' : a.blank_color < 16 := by
        rcases hb with hb | hb
        · exact hb
        · contradiction
      rw [if_pos h1, if_pos h1, Nat.mod_eq_of_lt (show a.blank_color < 256 by omega),
        byte_shiftNibble _ hb']
    · rw [if_neg h1, if_neg h1, if_pos rfl, byte_keepHigh _ hs]
  · rw [if_neg h0, if_neg h0, byte_shiftNibble _ hc]

/-- On the right nibble the new screen nibble is the painted value. -/
theorem nsnVal_right (a : Args16) (hb : a.blank_color < 16 ∨ a.blank_color = NO_COLOR)
    {cbn sb : Nat} (hs : sb < 256) :
    a.nsnVal cbn 0x0F sb = a.paint cbn (sb % 16) := by
  unfold nsnVal paint
  by_cases h0 : cbn = 0
  · rw [if_pos h0, if_pos h0]
    by_cases h1 : a.blank_color ≠ NO_COLOR
    · have hb' : a.blank_color < 16 := by
        rcases hb with hb | hb
        · exact hb
        · contradiction
      rw [if_pos h1, if_pos h1, Nat.mod_eq_of_lt (show a.blank_color < 256 by omega)]
    · rw [if_neg h1, if_neg h1, if_neg (by decide), byte_keepLow _ hs]
  · rw [if_neg h0, if_neg h0]

end Args16

namespace Blit16

theorem pixelBody_eq (a : Args16) (s : Blit16) :
    pixelBody a s =
      advanceNibble a (if s.screen_nibble_mask = 0x0F then pixelRight a s else pixelLeft a s) := by
  unfold pixelBody
  simp only
  congr 1
  split <;> rfl

end Blit16

theorem poke_mod (m : Mem) (a v : Nat) : poke m a (v % 256) = poke m a v := by
  funext i
  unfold poke
  rw [Nat.mod_mod]

namespace Blit16

theorem pixelLeft_nibVars (a : Args16) (s : Blit16) : (pixelLeft a s).nibVars = s.nibVars := rfl

theorem pixelRight_nibVars (a : Args16) (s : Blit16) : (pixelRight a s).nibVars = s.nibVars :=
  rfl

theorem advanceNibble_fields (a : Args16) (s : Blit16) :
    (advanceNibble a s).video_memory = s.video_memory ∧
    (advanceNibble a s).x_current_screen_byte = s.x_current_screen_byte ∧
    (advanceNibble a s).x_pixels_remaining = s.x_pixels_remaining ∧
    (advanceNibble a s).current_screen_byte = s.current_screen_byte ∧
    (advanceNibble a s).screen_nibble_mask = s.screen_nibble_mask ∧
    (advanceNibble a s).new_screen_byte = s.new_screen_byte ∧
    (advanceNibble a s).screen_byte = s.screen_byte ∧
    (advanceNibble a s).rowVars = s.rowVars := by
  have h := advanceNibble_screenVars a s
  simp only [screenVars, Prod.mk.injEq] at h
  obtain ⟨h1, h2, h3, h4, h5, h6, h7, h8, h9, h10, h11, h12⟩ := h
  refine ⟨h1, h2, h3, h4, h5, h6, h7, ?_⟩
  simp only [rowVars, h4, h8, h9, h10, h11, h12]

/-- One pass through the pixel loop body paints one pixel. -/
theorem pixelBody_spec {a : Args16} {m0 : Mem} {rs : Int} {N0 n : Nat} {s : Blit16}
    (hb : a.blank_color < 16 ∨ a.blank_color = NO_COLOR)
    (hx1 : 1 ≤ a.x_scale) (hx2 : a.x_scale < 65536)
    (hfit : (N0 + n) / 2 + 1 < 65536)
    (hpos : NibPos a rs n s) (hscr : Scr a m0 rs N0 n s) :
    NibPos a rs (n + 1) (pixelBody a s) ∧ Scr a m0 rs N0 (n + 1) (pixelBody a s) ∧
      (pixelBody a s).rowVars = s.rowVars ∧
      (pixelBody a s).x_pixels_remaining = s.x_pixels_remaining := by
  obtain ⟨f1, f2, f3, f4, f5, f6, f7, f8⟩ := advanceNibble_fields a
    (if s.screen_nibble_mask = 0x0F then pixelRight a s else pixelLeft a s)
  have htg : s.target = (N0 + n) / 2 := by
    unfold target
    rw [hscr.tgt, Nat.mod_eq_of_lt (by omega)]
  have hsb := peek_lt s.video_memory ((N0 + n) / 2)
  rw [pixelBody_eq]
  rcases Nat.mod_two_eq_zero_or_one (N0 + n) with he | ho
  · -- the left nibble of a screen byte
    obtain ⟨hm, hall⟩ := hscr.even he
    have hne : ¬ s.screen_nibble_mask = 0x0F := by rw [hm]; decide
    rw [if_neg hne] at f1 f2 f3 f4 f5 f6 f7 f8 ⊢
    have hold : peek s.video_memory ((N0 + n) / 2) / 16 = nib m0 (N0 + n) := by
      have := hall (N0 + n)
      rw [a.goal_self _ _ _ _ _ (le_refl _)] at this
      rw [← this, nib, if_pos he]
    refine ⟨advanceNibble_nibPos hx1 hx2 (hpos.of_nibVars (pixelLeft_nibVars a s)), ?_, f8, f3⟩
    refine ⟨?_, fun h => by omega, fun _ => ⟨?_, ?_, ?_, ?_, fun _ => ?_⟩⟩
    · rw [f4, f2]
      show s.current_screen_byte + s.x_current_screen_byte = _
      rw [hscr.tgt]; omega
    · rw [f5]
      show (s.screen_nibble_mask ^^^ 0xFF) % 256 = 0x0F
      rw [hm]; decide
    · rw [f6]
      show ((charToInt (a.nsnVal s.current_bitmap_nibble s.screen_nibble_mask
        (peek s.video_memory s.target)) <<< 4) % 65536) % 256 = _
      rw [hm, htg, hpos.cbn, a.nsnVal_left hb (a.rowNibble_lt _ _) hsb, hold]
      have e : N0 + (n + 1) - 1 = N0 + n := by omega
      rw [e, a.goal_succ_eq]
    · intro k hk
      rw [f1]
      show nib s.video_memory k = _
      rw [hall k, a.goal_succ_ne _ _ _ _ _ (by omega)]
    · rw [f1]
      show nib s.video_memory _ = _
      have e : N0 + (n + 1) - 1 = N0 + n := by omega
      rw [e, hall, a.goal_self _ _ _ _ _ (le_refl _)]
    · rw [f7, f1]
      show peek s.video_memory s.target = peek s.video_memory _
      rw [htg]
      have e : (N0 + (n + 1)) / 2 = (N0 + n) / 2 := by omega
      rw [e]
  · -- the right nibble of a screen byte
    obtain ⟨hm, hnsb, hall, hpend, -⟩ := hscr.odd ho
    rw [if_pos hm] at f1 f2 f3 f4 f5 f6 f7 f8 ⊢
    have hold : peek s.video_memory ((N0 + n) / 2) % 16 = nib m0 (N0 + n) := by
      have := hall (N0 + n) (by omega)
      rw [a.goal_self _ _ _ _ _ (le_refl _)] at this
      rw [← this, nib, if_neg (by omega)]
    have ht := a.goal_lt hb m0 rs N0 n (N0 + n - 1)
    have hv := a.paint_lt hb (a.rowNibble_lt rs n) (nib_lt m0 (N0 + n))
    have hmem : (pixelRight a s).video_memory =
        poke s.video_memory ((N0 + n) / 2)
          (16 * a.goal m0 rs N0 n (N0 + n - 1)
            + a.paint (a.rowNibble rs n) (nib m0 (N0 + n))) := by
      show poke s.video_memory s.target
        ((s.new_screen_byte ||| charToInt (a.nsnVal s.current_bitmap_nibble
          s.screen_nibble_mask (peek s.video_memory s.target))) % 256) = _
      rw [hm, htg, hpos.cbn, a.nsnVal_right hb hsb, hold, hnsb, byte_merge _ ht _ hv]
    refine ⟨advanceNibble_nibPos hx1 hx2 (hpos.of_nibVars (pixelRight_nibVars a s)), ?_, f8, f3⟩
    refine ⟨?_, fun _ => ⟨?_, fun k => ?_⟩, fun h => by omega⟩
    · rw [f4, f2]
      show s.current_screen_byte + (s.x_current_screen_byte + 1) % 65536 = _
      have := hscr.tgt
      rw [Nat.mod_eq_of_lt (by omega)]
      omega
    · rw [f5]
      show (s.screen_nibble_mask ^^^ 0xFF) % 256 = 0xF0
      rw [hm]; decide
    · rw [f1, hmem, nib_poke _ _ _ _ _ ht hv]
      by_cases h1 : k = 2 * ((N0 + n) / 2)
      · rw [if_pos h1, a.goal_succ_ne _ _ _ _ _ (by omega)]
        have : k = N0 + n - 1 := by omega
        rw [this]
      · rw [if_neg h1]
        by_cases h2 : k = 2 * ((N0 + n) / 2) + 1
        · have : k = N0 + n := by omega
          rw [if_pos h2, this, a.goal_succ_eq]
        · rw [if_neg h2, hall k (by omega), a.goal_succ_ne _ _ _ _ _ (by omega)]

theorem Scr.of_scrVars {a : Args16} {m0 : Mem} {rs : Int} {N0 n : Nat} {s t : Blit16}
    (h : Scr a m0 rs N0 n s) (e : t.scrVars = s.scrVars) : Scr a m0 rs N0 n t := by
  simp only [scrVars, Prod.mk.injEq] at e
  obtain ⟨e1, e2, e3, e4, e5, e6⟩ := e
  refine ⟨by rw [e2, e3]; exact h.tgt, ?_, ?_⟩
  · rw [e1, e4]; exact h.even
  · rw [e1, e4, e5, e6]; exact h.odd

theorem setRem_nibVars (s : Blit16) (v : Nat) : (s.setRem v).nibVars = s.nibVars := rfl

theorem setRem_scrVars (s : Blit16) (v : Nat) : (s.setRem v).scrVars = s.scrVars := rfl

theorem setRem_rowVars16 (s : Blit16) (v : Nat) : (s.setRem v).rowVars = s.rowVars := rfl

theorem setRem_rem16 (s : Blit16) (v : Nat) : (s.setRem v).x_pixels_remaining = v := rfl

theorem pixels_succ (a : Args16) (fuel : Nat) (s : Blit16) :
    pixels a (fuel + 1) s =
      if sgt16 s.x_pixels_remaining 0 then
        pixels a fuel ((pixelBody a s).setRem
          (((pixelBody a s).x_pixels_remaining + 65535) % 65536))
      else s := rfl

/-- The pixel loop paints the pixels that are left. -/
theorem pixels_spec {a : Args16} {m0 : Mem} {rs : Int} {N0 : Nat} {s0 : Blit16}
    (hb : a.blank_color < 16 ∨ a.blank_color = NO_COLOR)
    (hx1 : 1 ≤ a.x_scale) (hx2 : a.x_scale < 65536)
    (hw : a.width_pixels < 32768) (hfit : (N0 + a.width_pixels) / 2 + 1 < 65536) :
    ∀ (fuel n : Nat) (s : Blit16), NibPos a rs n s → Scr a m0 rs N0 n s →
      s.x_pixels_remaining = a.width_pixels - n → n ≤ a.width_pixels →
      a.width_pixels - n ≤ fuel → s.rowVars = s0.rowVars →
      Scr a m0 rs N0 a.width_pixels (pixels a fuel s) ∧
        (pixels a fuel s).rowVars = s0.rowVars := by
  intro fuel
  induction fuel with
  | zero =>
    intro n s _ hscr _ hle hf hv
    have e : n = a.width_pixels := by omega
    subst e
    exact ⟨hscr, hv⟩
  | succ fuel ih =>
    intro n s hpos hscr hrem hle hf hv
    rw [pixels_succ, hrem, sgt16_of_lt (by omega) (by decide)]
    by_cases h1 : 0 < a.width_pixels - n
    · rw [if_pos (by simpa using h1)]
      obtain ⟨q1, q2, q3, q4⟩ := pixelBody_spec hb hx1 hx2 (by omega) hpos hscr
      refine ih (n + 1) _ (q1.of_nibVars (setRem_nibVars _ _)) (q2.of_scrVars (setRem_scrVars _ _))
        ?_ (by omega) (by omega) ?_
      · rw [setRem_rem16, q4, hrem]; omega
      · rw [setRem_rowVars16, q3, hv]
    · rw [if_neg (by simpa using h1)]
      have e : n = a.width_pixels := by omega
      subst e
      exact ⟨hscr, hv⟩

theorem rowFlush_eq (s : Blit16) :
    rowFlush s =
      if s.screen_nibble_mask = 0x0F then
        { s with
          new_screen_byte := s.new_screen_byte ||| (s.screen_byte &&& 0x0F)
          video_memory := poke s.video_memory s.target
            (s.new_screen_byte ||| (s.screen_byte &&& 0x0F))
          writes := s.target :: s.writes }
      else s := rfl

/-- The write after the pixel loop completes the row. -/
theorem rowFlush_spec {a : Args16} {m0 : Mem} {rs : Int} {N0 n : Nat} {s : Blit16}
    (hb : a.blank_color < 16 ∨ a.blank_color = NO_COLOR)
    (hfit : (N0 + n) / 2 < 65536)
    (hscr : Scr a m0 rs N0 n s) (hn : (N0 + n) % 2 = 1 → 0 < n) :
    (∀ k, nib (rowFlush s).video_memory k = a.goal m0 rs N0 n k) ∧
      (rowFlush s).rowVars = s.rowVars := by
  rw [rowFlush_eq]
  rcases Nat.mod_two_eq_zero_or_one (N0 + n) with he | ho
  · obtain ⟨hm, hall⟩ := hscr.even he
    rw [if_neg (by rw [hm]; decide)]
    exact ⟨hall, rfl⟩
  · obtain ⟨hm, hnsb, hall, hpend, hsb⟩ := hscr.odd ho
    rw [if_pos hm]
    refine ⟨fun k => ?_, rfl⟩
    have htg : s.target = (N0 + n) / 2 := by
      unfold target
      rw [hscr.tgt, Nat.mod_eq_of_lt hfit]
    have ht := a.goal_lt hb m0 rs N0 n (N0 + n - 1)
    show nib (poke s.video_memory s.target
      (s.new_screen_byte ||| (s.screen_byte &&& 0x0F))) k = _
    rw [htg, hnsb, hsb (hn ho), byte_flush _ ht _ (peek_lt _ _),
      nib_poke _ _ _ _ _ ht (Nat.mod_lt _ (by decide))]
    by_cases h1 : k = 2 * ((N0 + n) / 2)
    · rw [if_pos h1]
      have : k = N0 + n - 1 := by omega
      rw [this]
    · rw [if_neg h1]
      by_cases h2 : k = 2 * ((N0 + n) / 2) + 1
      · rw [if_pos h2, ← hall k (by omega), h2, nib, if_neg (by omega)]
        have : (2 * ((N0 + n) / 2) + 1) / 2 = (N0 + n) / 2 := by omega
        rw [this]
      · rw [if_neg h2, hall k (by omega)]

/-- The start of the row loop body in closed form. -/
theorem rowStart_eq (a : Args16) (y : Nat) (s : Blit16) :
    rowStart a y s =
      { s with
        new_screen_byte := if (if !a.column_start_left_byte then 0x0F else 0xF0) = 0x0F then
            peek s.video_memory s.current_screen_byte &&& 0xF0
          else 0
        screen_byte := a.screen_byte_indeterminate y % 256
        bitmap_nibble_mask := if a.invert_x = 0 then 0xF0 else 0x0F
        current_bitmap_nibble := if a.invert_x = 0 then
            sar4 (charToInt (bitmapAt a.bitmap s.bitmap_byte) &&& 0xF0) % 256
          else (charToInt (bitmapAt a.bitmap s.bitmap_byte) &&& 0x0F) % 256
        reads := s.bitmap_byte :: s.reads
        screen_nibble_mask := if !a.column_start_left_byte then 0x0F else 0xF0
        x_pixels_remaining := a.width_pixels
        x_current_screen_byte := 0 } := by
  unfold rowStart loadHigh loadLow
  simp only
  split <;> split <;> simp

end Blit16

namespace Args16

theorem x_byte_eq16 {a : Args16} (hx : a.x_pixel < 32768) : a.x_byte = a.x_pixel / 2 :=
  div_quot_of_lt hx (by decide)

theorem column_start_left_byte_eq16 {a : Args16} (hx : a.x_pixel < 32768) :
    a.column_start_left_byte = decide (a.x_pixel % 2 = 0) := by
  unfold Args16.column_start_left_byte
  rw [div_rem_of_lt hx (by decide) (by decide)]
  by_cases h : a.x_pixel % 2 = 0 <;> simp [h]

end Args16

namespace Blit16

/-- The start of the row loop body sets both cursors to the first pixel. -/
theorem rowStart_spec {a : Args16} {j : Nat} {s : Blit16}
    (hx : a.x_pixel < 320) (h : AtRow a j s) (y : Nat) :
    NibPos a (a.rowStartIndex j) 0 (rowStart a y s) ∧
    Scr a s.video_memory (a.rowStartIndex j) (2 * a.rowOffset j + a.x_pixel % 2) 0
      (rowStart a y s) ∧
    (rowStart a y s).x_pixels_remaining = a.width_pixels ∧
    (rowStart a y s).rowVars = s.rowVars := by
  have hcol := a.column_start_left_byte_eq16 (by omega)
  rw [rowStart_eq]
  refine ⟨⟨?_, ?_, ?_, ?_⟩, ⟨?_, ?_, ?_⟩, rfl, rfl⟩
  · show s.x_scale_counter = _
    rw [h.xsc, Nat.zero_mod]; rfl
  · show (if a.invert_x = 0 then 0xF0 else 0x0F) = _
    rw [Nat.zero_div]; rfl
  · show s.bitmap_byte = _
    rw [h.bb, Nat.zero_div]
    unfold Args16.byteAt
    split <;> simp
  · show (if a.invert_x = 0 then
        sar4 (charToInt (bitmapAt a.bitmap s.bitmap_byte) &&& 0xF0) % 256
      else (charToInt (bitmapAt a.bitmap s.bitmap_byte) &&& 0x0F) % 256) = _
    rw [byte_loadHigh _ (bitmapAt_lt _ _), byte_loadLow _ (bitmapAt_lt _ _), h.bb]
    unfold Args16.rowNibble Args16.nibAt Args16.maskAt Args16.byteAt
    rw [Nat.zero_div]
    by_cases hinv : a.invert_x = 0
    · simp [hinv]
    · simp [hinv]
  · show s.current_screen_byte + 0 = _
    rw [h.csb]; omega
  · intro he
    have hc : a.column_start_left_byte = true := by rw [hcol]; simp; omega
    refine ⟨?_, fun k => ?_⟩
    · show (if !a.column_start_left_byte then 0x0F else 0xF0) = 0xF0
      rw [hc]; rfl
    · show nib s.video_memory k = _
      rw [Args16.goal, if_neg (by omega)]
  · intro ho
    have hc : a.column_start_left_byte = false := by rw [hcol]; simp; omega
    refine ⟨?_, ?_, fun k _ => ?_, rfl, fun h0 => absurd h0 (by decide)⟩
    · show (if !a.column_start_left_byte then 0x0F else 0xF0) = 0x0F
      rw [hc]; rfl
    · show (if (if !a.column_start_left_byte then 0x0F else 0xF0) = 0x0F then
          peek s.video_memory s.current_screen_byte &&& 0xF0 else 0) = _
      rw [hc]
      simp only [Bool.not_false, if_true]
      rw [byte_preload _ (peek_lt _ _), Args16.goal, if_neg (by omega), nib,
        if_pos (by omega), h.csb]
      congr 3
      omega
    · show nib s.video_memory k = _
      rw [Args16.goal, if_neg (by omega)]

/-- The end of the row loop body in closed form. -/
theorem rowEnd_eq16 (a : Args16) (s : Blit16) :
    rowEnd a s =
      { s with
        x_scale_counter := a.x_scale
        y_scale_counter := if (s.y_scale_counter + 65535) % 65536 = 0 then a.y_scale
          else (s.y_scale_counter + 65535) % 65536
        current_page := if (s.current_page + 1) % 65536 > 3 then 0
          else (s.current_page + 1) % 65536
        page_start := (if (s.current_page + 1) % 65536 > 3 then 0
          else (s.current_page + 1) % 65536) * VIDEO_MEMORY_PAGE_SIZE % 65536
        page_row_byte := if (s.current_page + 1) % 65536 > 3 then
            (s.page_row_byte + VIDEO_WIDTH_PIXELS / 2) % 65536
          else s.page_row_byte
        current_screen_byte :=
          ((if (s.current_page + 1) % 65536 > 3 then 0
              else (s.current_page + 1) % 65536) * VIDEO_MEMORY_PAGE_SIZE % 65536
            + (if (s.current_page + 1) % 65536 > 3 then
                (s.page_row_byte + VIDEO_WIDTH_PIXELS / 2) % 65536
              else s.page_row_byte)
            + a.x_byte) % 65536
        bitmap_byte := if (s.y_scale_counter + 65535) % 65536 = 0 then
            s.bitmap_byte_start_of_row + (a.width_bytes : Int)
          else s.bitmap_byte_start_of_row
        bitmap_byte_start_of_row := if (s.y_scale_counter + 65535) % 65536 = 0 then
            s.bitmap_byte_start_of_row + (a.width_bytes : Int)
          else s.bitmap_byte_start_of_row } := by
  unfold rowEnd
  simp only
  split <;> split <;> rfl

theorem rowEnd_video_memory16 (a : Args16) (s : Blit16) :
    (rowEnd a s).video_memory = s.video_memory := by
  rw [rowEnd_eq16]

/-- The end of the row loop body moves every row variable to the next row. -/
theorem rowEnd_atRow16 {a : Args16} {j : Nat} {s0 s : Blit16}
    (hy1 : 1 ≤ a.y_scale) (hy2 : a.y_scale < 65536) (hx : a.x_pixel < 320)
    (h : AtRow a j s0) (hv : s.rowVars = s0.rowVars) :
    AtRow a (j + 1) (rowEnd a s) := by
  simp only [rowVars, Prod.mk.injEq] at hv
  obtain ⟨-, v2, -, v4, v5, v6⟩ := hv
  obtain ⟨hA, hB⟩ := div_mod_succ j a.y_scale (by omega)
  have hr := Nat.mod_lt j (show 0 < a.y_scale by omega)
  have hpage : (if (s.current_page + 1) % 65536 > 3 then 0 else (s.current_page + 1) % 65536)
      = (a.y_pixel + (j + 1)) % 4 := by
    rw [v2, h.page]
    split <;> omega
  have hprb : (if (s.current_page + 1) % 65536 > 3 then
        (s.page_row_byte + VIDEO_WIDTH_PIXELS / 2) % 65536 else s.page_row_byte)
      = (a.y_pixel + (j + 1)) / 4 * 160 % 65536 := by
    rw [v2, v4, h.page, h.prb]
    exact next_row_offset (a.y_pixel + j)
  have hstart : (if (s.y_scale_counter + 65535) % 65536 = 0 then
        s.bitmap_byte_start_of_row + (a.width_bytes : Int) else s.bitmap_byte_start_of_row)
      = a.rowStartIndex (j + 1) := by
    rw [v5, v6, h.ysc, h.start]
    unfold Args16.rowStartIndex
    by_cases hc : j % a.y_scale + 1 = a.y_scale
    · rw [if_pos (by omega), (hA hc).1]
      split
      · push_cast; ring
      · push_cast; ring
    · rw [if_neg (by omega), (hB hc).1]
  rw [rowEnd_eq16]
  refine ⟨?_, ?_, ?_, ?_, ?_, ?_, ?_⟩
  · show (if (s.current_page + 1) % 65536 > 3 then 0 else (s.current_page + 1) % 65536) = _
    exact hpage
  · show (if (s.current_page + 1) % 65536 > 3 then
        (s.page_row_byte + VIDEO_WIDTH_PIXELS / 2) % 65536 else s.page_row_byte) = _
    exact hprb
  · show ((if (s.current_page + 1) % 65536 > 3 then 0
              else (s.current_page + 1) % 65536) * VIDEO_MEMORY_PAGE_SIZE % 65536
            + (if (s.current_page + 1) % 65536 > 3 then
                (s.page_row_byte + VIDEO_WIDTH_PIXELS / 2) % 65536
              else s.page_row_byte)
            + a.x_byte) % 65536 = _
    rw [hpage, hprb, a.x_byte_eq16 (by omega), Args16.rowOffset]
    simp only [VIDEO_MEMORY_PAGE_SIZE]
    omega
  · dsimp only
    rw [v5, h.ysc]
    by_cases hc : j % a.y_scale + 1 = a.y_scale
    · rw [if_pos (by omega), (hA hc).2]; omega
    · rw [if_neg (by omega), (hB hc).2]; omega
  · dsimp only
    exact hstart
  · dsimp only
    exact hstart
  · dsimp only

theorem rowBody_eq16 (a : Args16) (y : Nat) (s : Blit16) :
    rowBody a y s = rowEnd a (rowFlush (pixels a 32768 (rowStart a y s))) := rfl

theorem pixelBody_rowVars (a : Args16) (s : Blit16) : (pixelBody a s).rowVars = s.rowVars := by
  rw [pixelBody_eq, (advanceNibble_fields a _).2.2.2.2.2.2.2]
  split <;> rfl

theorem pixels_rowVars (a : Args16) :
    ∀ (fuel : Nat) (s : Blit16), (pixels a fuel s).rowVars = s.rowVars := by
  intro fuel
  induction fuel with
  | zero => intro s; rfl
  | succ fuel ih =>
    intro s
    rw [pixels_succ]
    split
    · rw [ih, setRem_rowVars16, pixelBody_rowVars]
    · rfl

theorem rowFlush_rowVars (s : Blit16) : (rowFlush s).rowVars = s.rowVars := by
  rw [rowFlush_eq]
  split <;> rfl

theorem rowStart_rowVars (a : Args16) (y : Nat) (s : Blit16) :
    (rowStart a y s).rowVars = s.rowVars := by
  rw [rowStart_eq]
  rfl

/-- One pass through the row loop moves the row variables to the next row,
whatever the row draws. -/
theorem rowBody_atRow16 {a : Args16} {j : Nat} {s : Blit16}
    (hy1 : 1 ≤ a.y_scale) (hy2 : a.y_scale < 65536) (hx : a.x_pixel < 320)
    (h : AtRow a j s) (y : Nat) : AtRow a (j + 1) (rowBody a y s) := by
  rw [rowBody_eq16]
  exact rowEnd_atRow16 hy1 hy2 hx h
    ((rowFlush_rowVars _).trans ((pixels_rowVars a _ _).trans (rowStart_rowVars a y s)))

/-- One pass through the row loop paints the `width_pixels` pixels that start at
the row's offset, provided the row does not run over the end of the video
segment. -/
theorem rowBody_spec16 {a : Args16} {j : Nat} {s : Blit16}
    (hb : a.blank_color < 16 ∨ a.blank_color = NO_COLOR)
    (hx1 : 1 ≤ a.x_scale) (hx2 : a.x_scale < 65536)
    (hx : a.x_pixel < 320)
    (hw : a.x_pixel + a.width_pixels ≤ 320)
    (hodd : a.x_pixel % 2 = 1 → 1 ≤ a.width_pixels)
    (hfit : 2 * a.rowOffset j + a.x_pixel % 2 + a.width_pixels < 131070)
    (h : AtRow a j s) (y : Nat) :
    ∀ k, nib (rowBody a y s).video_memory k =
      a.goal s.video_memory (a.rowStartIndex j) (2 * a.rowOffset j + a.x_pixel % 2)
        a.width_pixels k := by
  obtain ⟨p0, s0, r0, v0⟩ := rowStart_spec hx h y
  obtain ⟨s1, -⟩ := pixels_spec hb hx1 hx2 (by omega) (by omega) 32768 0 _ p0 s0
    (by rw [r0]; rfl) (by omega) (by omega) v0
  have hoff : a.rowOffset j < 65536 := by unfold Args16.rowOffset; omega
  obtain ⟨hall, -⟩ := rowFlush_spec hb (by omega) s1 (by omega)
  rw [rowBody_eq16, rowEnd_video_memory16]
  exact hall

/-- The offset of a row on the screen. -/
theorem rowOffset_on_screen16 {a : Args16} {j : Nat} (hx : a.x_pixel < 320)
    (hy : a.y_pixel + j < 200) :
    2 * a.rowOffset j + a.x_pixel % 2
      = 2 * ((a.y_pixel + j) % 4 * 8192 + (a.y_pixel + j) / 4 * 160) + a.x_pixel := by
  unfold Args16.rowOffset
  omega

end Blit16

namespace Args16

theorem rowNibble_eq (a : Args16) (j n : Nat) (hq : n / a.x_scale < 2 * a.width_bytes) :
    a.rowNibble (a.rowStartIndex j) n =
      sourceNibble a.bitmap a.width_bytes (j / a.y_scale) (a.srcIndex (n / a.x_scale)) := by
  unfold rowNibble nibAt maskAt byteAt rowStartIndex srcIndex sourceNibble
  generalize n / a.x_scale = q at hq
  generalize j / a.y_scale * a.width_bytes = r
  by_cases hinv : a.invert_x = 0
  · simp only [if_pos hinv]
    by_cases hp : q % 2 = 0
    · simp only [if_pos hp, if_true]
      push_cast
      rfl
    · simp only [if_neg hp]
      rw [if_neg (by decide)]
      push_cast
      rfl
  · simp only [if_neg hinv]
    by_cases hp : q % 2 = 0
    · have e1 : ¬ (2 * a.width_bytes - 1 - q) % 2 = 0 := by omega
      have e2 : ((r : Int) + (a.width_bytes : Int) - 1 - ((q / 2 : Nat) : Int))
          = ((r + (2 * a.width_bytes - 1 - q) / 2 : Nat) : Int) := by omega
      simp only [if_pos hp, if_neg e1]
      rw [if_neg (by decide), e2]
    · have e1 : (2 * a.width_bytes - 1 - q) % 2 = 0 := by omega
      have e2 : ((r : Int) + (a.width_bytes : Int) - 1 - ((q / 2 : Nat) : Int))
          = ((r + (2 * a.width_bytes - 1 - q) / 2 : Nat) : Int) := by omega
      simp only [if_neg hp, if_pos e1, if_true]
      rw [e2]

theorem width_pixels_le (a : Args16) (hx : a.x_pixel ≤ 320) :
    a.width_pixels ≤ a.width_bytes * 2 * a.x_scale := by
  have h := Nat.mod_le (a.width_bytes * 2 * a.x_scale) 65536
  unfold width_pixels VIDEO_WIDTH_PIXELS
  simp only
  split <;> omega

end Args16

namespace Blit16

theorem rows_succ16 (a : Args16) (fuel y : Nat) (s : Blit16) :
    rows a (fuel + 1) y s =
      if y < a.height_pixels then rows a fuel ((y + 1) % 65536) (rowBody a y s) else s := rfl

/-- The row loop, entered at output row `j`, paints the rows from `j` on. -/
theorem rows_spec16 {a : Args16}
    (hb : a.blank_color < 16 ∨ a.blank_color = NO_COLOR)
    (hx1 : 1 ≤ a.x_scale) (hx2 : a.x_scale < 65536)
    (hy1 : 1 ≤ a.y_scale) (hy2 : a.y_scale < 65536)
    (hx : a.x_pixel < 320)
    (hw : a.x_pixel + a.width_pixels ≤ 320) (hh : a.y_pixel + a.height_pixels ≤ 200)
    (hodd : a.x_pixel % 2 = 1 → 1 ≤ a.width_pixels) :
    ∀ (fuel j : Nat) (s : Blit16), AtRow a j s → j + fuel = a.height_pixels →
      ∀ px py, px < 320 → py < 200 →
        pixel (rows a fuel j s).video_memory px py =
          if a.x_pixel ≤ px ∧ px < a.x_pixel + a.width_pixels ∧
              a.y_pixel + j ≤ py ∧ py < a.y_pixel + a.height_pixels then
            a.paint (sourceNibble a.bitmap a.width_bytes ((py - a.y_pixel) / a.y_scale)
              (a.srcIndex ((px - a.x_pixel) / a.x_scale))) (pixel s.video_memory px py)
          else pixel s.video_memory px py := by
  intro fuel
  induction fuel with
  | zero =>
    intro j s _ hj px py _ _
    rw [if_neg (by omega)]
    rfl
  | succ fuel ih =>
    intro j s h hj px py hpx hpy
    rw [rows_succ16, if_pos (by omega), Nat.mod_eq_of_lt (show j + 1 < 65536 by omega)]
    have h1 := rowBody_atRow16 hy1 hy2 hx h j
    have hoff := rowOffset_on_screen16 (a := a) (j := j) hx (by omega)
    have hp := rowBody_spec16 hb hx1 hx2 hx hw hodd (by omega) h j
    rw [hoff] at hp
    rw [ih (j + 1) _ h1 (by omega) px py hpx hpy]
    have hk := hp (2 * ((py % 4) * 8192 + (py / 4) * 160) + px)
    rw [← pixel_eq_nib] at hk
    rw [hk, Args16.goal, ← pixel_eq_nib]
    by_cases hrow : py = a.y_pixel + j
    · subst hrow
      by_cases hcolumn : a.x_pixel ≤ px ∧ px < a.x_pixel + a.width_pixels
      · have e1 : 2 * ((a.y_pixel + j) % 4 * 8192 + (a.y_pixel + j) / 4 * 160) + px
            - (2 * ((a.y_pixel + j) % 4 * 8192 + (a.y_pixel + j) / 4 * 160) + a.x_pixel)
            = px - a.x_pixel := by omega
        have e2 : a.y_pixel + j - a.y_pixel = j := by omega
        have hq : (px - a.x_pixel) / a.x_scale < 2 * a.width_bytes := by
          rw [Nat.div_lt_iff_lt_mul (by omega)]
          have := a.width_pixels_le (by omega)
          have e : 2 * a.width_bytes * a.x_scale = a.width_bytes * 2 * a.x_scale := by ring
          omega
        rw [if_neg (by omega), if_pos (by omega), if_pos (by omega), e1,
          a.rowNibble_eq j _ hq, e2]
      · rw [if_neg (by omega), if_neg (by omega), if_neg (by omega)]
    · rw [if_neg (row_disjoint (by omega) hpy hrow hw hpx)]
      by_cases hin : a.x_pixel ≤ px ∧ px < a.x_pixel + a.width_pixels ∧
          a.y_pixel + j ≤ py ∧ py < a.y_pixel + a.height_pixels
      · rw [if_pos (by omega), if_pos hin]
      · rw [if_neg (by omega), if_neg hin]

theorem init_video_memory16 (a : Args16) (m : Mem) : (init a m).video_memory = m := rfl

theorem init_atRow16 {a : Args16} (m : Mem) (hx : a.x_pixel < 320) (hy : a.y_pixel < 200) :
    AtRow a 0 (init a m) := by
  have hrem := div_rem_of_lt (a := a.y_pixel) (b := 4) (by omega) (by decide) (by decide)
  have hprb := page_row_byte_init (y := a.y_pixel) (by omega) (by omega)
  have hstart : (if a.invert_x = 0 then (0 : Int) else (a.width_bytes : Int) - 1)
      = a.rowStartIndex 0 := by
    unfold Args16.rowStartIndex
    split <;> simp
  refine ⟨?_, ?_, ?_, ?_, hstart, hstart, rfl⟩
  · show div_rem a.y_pixel 4 = _
    rw [hrem]; rfl
  · show ofInt16 (Int.tdiv (toInt16 (div_quot a.y_pixel 4 * VIDEO_WIDTH_PIXELS)) 2) = _
    rw [hprb, Nat.add_zero]; omega
  · show (div_rem a.y_pixel 4 * VIDEO_MEMORY_PAGE_SIZE % 65536
      + ofInt16 (Int.tdiv (toInt16 (div_quot a.y_pixel 4 * VIDEO_WIDTH_PIXELS)) 2)
      + a.x_byte) % 65536 = _
    rw [hrem, hprb, a.x_byte_eq16 (by omega), Args16.rowOffset]
    simp only [VIDEO_MEMORY_PAGE_SIZE, Nat.add_zero]
    omega
  · show a.y_scale = _
    rw [Nat.zero_mod]; rfl

/-- What `draw16ColorBitmap` leaves on the surface, pixel by pixel, when the size
computation does not wrap. -/
theorem run_pixel16 (a : Args16) (m : Mem)
    (hb : a.blank_color < 16 ∨ a.blank_color = NO_COLOR)
    (hx1 : 1 ≤ a.x_scale) (hx2 : a.x_scale < 65536)
    (hy1 : 1 ≤ a.y_scale) (hy2 : a.y_scale < 65536)
    (hx : a.x_pixel < 320) (hy : a.y_pixel < 200)
    (hw : a.x_pixel + a.width_pixels ≤ 320) (hh : a.y_pixel + a.height_pixels ≤ 200)
    (hodd : a.x_pixel % 2 = 1 → 1 ≤ a.width_pixels)
    (px py : Nat) (hpx : px < 320) (hpy : py < 200) :
    pixel (run a m).video_memory px py = a.expected m px py := by
  unfold run
  rw [rows_spec16 hb hx1 hx2 hy1 hy2 hx hw hh hodd a.height_pixels 0 _ (init_atRow16 m hx hy)
    (by omega) px py hpx hpy, init_video_memory16]
  rfl

end Blit16

/-! ## Size of the rectangle when nothing is clipped -/

theorem Args2.width_pixels_of_fit (a : Args2)
    (h : a.x_pixel + a.width_bytes * 8 * a.x_scale ≤ 320) :
    a.width_pixels = a.width_bytes * 8 * a.x_scale := by
  unfold Args2.width_pixels VIDEO_WIDTH_PIXELS
  simp only
  rw [Nat.mod_eq_of_lt (show a.width_bytes * 8 * a.x_scale < 65536 by omega),
    Nat.mod_eq_of_lt (show a.x_pixel + a.width_bytes * 8 * a.x_scale < 65536 by omega),
    if_neg (by omega)]

theorem Args2.height_pixels_of_fit (a : Args2)
    (h : a.y_pixel + a.height_bytes * a.y_scale ≤ 200) :
    a.height_pixels = a.height_bytes * a.y_scale := by
  unfold Args2.height_pixels VIDEO_HEIGHT_PIXELS
  simp only
  rw [Nat.mod_eq_of_lt (show a.height_bytes * a.y_scale < 65536 by omega),
    Nat.mod_eq_of_lt (show a.y_pixel + a.height_bytes * a.y_scale < 65536 by omega),
    if_neg (by omega)]

theorem Args16.width_pixels_of_fit16 (a : Args16)
    (h : a.x_pixel + a.width_bytes * 2 * a.x_scale ≤ 320) :
    a.width_pixels = a.width_bytes * 2 * a.x_scale := by
  unfold Args16.width_pixels VIDEO_WIDTH_PIXELS
  simp only
  rw [Nat.mod_eq_of_lt (show a.width_bytes * 2 * a.x_scale < 65536 by omega),
    Nat.mod_eq_of_lt (show a.x_pixel + a.width_bytes * 2 * a.x_scale < 65536 by omega),
    if_neg (by omega)]

theorem Args16.height_pixels_of_fit16 (a : Args16)
    (h : a.y_pixel + a.height_bytes * a.y_scale ≤ 200) :
    a.height_pixels = a.height_bytes * a.y_scale := by
  unfold Args16.height_pixels VIDEO_HEIGHT_PIXELS
  simp only
  rw [Nat.mod_eq_of_lt (show a.height_bytes * a.y_scale < 65536 by omega),
    Nat.mod_eq_of_lt (show a.y_pixel + a.height_bytes * a.y_scale < 65536 by omega),
    if_neg (by omega)]

/-- A scale is at most the product it is a factor of. -/
theorem le_mul_of_pos_left {s w : Nat} (h : 0 < w) : s ≤ w * s :=
  Nat.le_mul_of_pos_left s h

/-- The unclipped draw of `draw2ColorBitmap`, pixel by pixel: output pixel `(i, j)`
of the rectangle shows source bit `i / x_scale` of bitmap row `j / y_scale`. -/
theorem draw2_unclipped (m : Mem) (bitmap : Bitmap)
    (wb hb color blank x y xs ys : Nat)
    (hc : color ≤ 15) (hbl : blank ≤ 15 ∨ blank = NO_COLOR)
    (hxs : 1 ≤ xs) (hys : 1 ≤ ys)
    (hx : x + 8 * wb * xs ≤ 320) (hy : y + hb * ys ≤ 200)
    (i j : Nat) (hi : i < 8 * wb * xs) (hj : j < hb * ys) :
    pixel (draw2ColorBitmap m bitmap wb hb color blank x y xs ys) (x + i) (y + j) =
      if sourceBit bitmap wb (j / ys) (i / xs) = 1 then color
      else if blank ≠ NO_COLOR then blank else pixel m (x + i) (y + j) := by
  have hwb : 0 < wb := by
    rcases Nat.eq_zero_or_pos wb with h | h
    · subst h; simp at hi
    · exact h
  have hhb : 0 < hb := by
    rcases Nat.eq_zero_or_pos hb with h | h
    · subst h; simp at hj
    · exact h
  have hxs2 : xs ≤ 8 * wb * xs := le_mul_of_pos_left (by omega)
  have hys2 : ys ≤ hb * ys := le_mul_of_pos_left hhb
  have e8 : wb * 8 * xs = 8 * wb * xs := by ring
  have hW : (⟨bitmap, wb, hb, color, blank, x, y, xs, ys⟩ : Args2).width_pixels = 8 * wb * xs := by
    rw [Args2.width_pixels_of_fit _ (by show x + wb * 8 * xs ≤ 320; omega)]
    exact e8
  have hH : (⟨bitmap, wb, hb, color, blank, x, y, xs, ys⟩ : Args2).height_pixels = hb * ys :=
    Args2.height_pixels_of_fit _ hy
  unfold draw2ColorBitmap
  rw [Blit2.run_pixel _ m (show color < 16 by omega)
    (by rcases hbl with h | h
        · exact Or.inl (show blank < 16 by omega)
        · exact Or.inr h)
    hxs (show xs < 65536 by omega) hys (show ys < 65536 by omega)
    (show x < 320 by omega) (show y < 200 by omega)
    (by rw [hW]; exact hx) (by rw [hH]; exact hy) (fun _ => by rw [hW]; omega)
    (x + i) (y + j) (by omega) (by omega)]
  unfold Args2.expected
  dsimp only
  rw [hW, hH]
  rw [if_pos ⟨Nat.le_add_right _ _, by omega, Nat.le_add_right _ _, by omega⟩]
  simp only [Nat.add_sub_cancel_left]
  unfold Args2.paint
  have hbit : sourceBit bitmap wb (j / ys) (i / xs) < 2 := Nat.mod_lt _ (by decide)
  by_cases h1 : sourceBit bitmap wb (j / ys) (i / xs) = 1
  · rw [if_pos (by omega), if_pos h1]
  · rw [if_neg (by omega), if_neg h1]

/-- The unclipped draw of `draw16ColorBitmap`, pixel by pixel: output pixel
`(i, j)` of the rectangle shows the source nibble of column `i / x_scale` of bitmap
row `j / y_scale`, counted from the right end of the row when mirrored. -/
theorem draw16_unclipped (junk : Nat → Nat) (m : Mem) (bitmap : Bitmap)
    (wb hb blank x y xs ys inv : Nat)
    (hbl : blank ≤ 15 ∨ blank = NO_COLOR)
    (hxs : 1 ≤ xs) (hys : 1 ≤ ys)
    (hx : x + 2 * wb * xs ≤ 320) (hy : y + hb * ys ≤ 200)
    (i j : Nat) (hi : i < 2 * wb * xs) (hj : j < hb * ys) :
    pixel (draw16ColorBitmap junk m bitmap wb hb blank x y xs ys inv) (x + i) (y + j) =
      (if sourceNibble bitmap wb (j / ys)
          (if inv = 0 then i / xs else 2 * wb - 1 - i / xs) ≠ 0 then
        sourceNibble bitmap wb (j / ys) (if inv = 0 then i / xs else 2 * wb - 1 - i / xs)
      else if blank ≠ NO_COLOR then blank else pixel m (x + i) (y + j)) := by
  have hwb : 0 < wb := by
    rcases Nat.eq_zero_or_pos wb with h | h
    · subst h; simp at hi
    · exact h
  have hhb : 0 < hb := by
    rcases Nat.eq_zero_or_pos hb with h | h
    · subst h; simp at hj
    · exact h
  have hxs2 : xs ≤ 2 * wb * xs := le_mul_of_pos_left (by omega)
  have hys2 : ys ≤ hb * ys := le_mul_of_pos_left hhb
  have e2 : wb * 2 * xs = 2 * wb * xs := by ring
  have hW : (⟨bitmap, wb, hb, blank, x, y, xs, ys, inv, junk⟩ : Args16).width_pixels
      = 2 * wb * xs := by
    rw [Args16.width_pixels_of_fit16 _ (by show x + wb * 2 * xs ≤ 320; omega)]
    exact e2
  have hH : (⟨bitmap, wb, hb, blank, x, y, xs, ys, inv, junk⟩ : Args16).height_pixels
      = hb * ys := Args16.height_pixels_of_fit16 _ hy
  unfold draw16ColorBitmap
  rw [Blit16.run_pixel16 _ m
    (by rcases hbl with h | h
        · exact Or.inl (show blank < 16 by omega)
        · exact Or.inr h)
    hxs (show xs < 65536 by omega) hys (show ys < 65536 by omega)
    (show x < 320 by omega) (show y < 200 by omega)
    (by rw [hW]; exact hx) (by rw [hH]; exact hy) (fun _ => by rw [hW]; omega)
    (x + i) (y + j) (by omega) (by omega)]
  unfold Args16.expected
  dsimp only
  rw [hW, hH]
  rw [if_pos ⟨Nat.le_add_right _ _, by omega, Nat.le_add_right _ _, by omega⟩]
  simp only [Nat.add_sub_cancel_left]
  unfold Args16.paint Args16.srcIndex
  simp only
  by_cases h1 : sourceNibble bitmap wb (j / ys)
      (if inv = 0 then i / xs else 2 * wb - 1 - i / xs) = 0
  · rw [if_pos h1, if_neg (not_not.mpr h1)]
  · rw [if_neg h1, if_pos h1]

/-- Division of the mirrored column: column `n * s - 1 - i` of the scaled picture
shows column `n - 1 - i / s` of the unscaled one. -/
theorem mirror_div (n s i : Nat) (hs : 0 < s) (hi : i < n * s) :
    (n * s - 1 - i) / s = n - 1 - i / s := by
  have h1 := Nat.div_add_mod i s
  have h2 := Nat.mod_lt i hs
  have hq : i / s < n := (Nat.div_lt_iff_lt_mul hs).mpr hi
  obtain ⟨k, hk⟩ : ∃ k, n = k + i / s + 1 := ⟨n - 1 - i / s, by omega⟩
  have e : n * s = s * k + s * (i / s) + s := by rw [hk]; ring
  have e2 : n * s - 1 - i = (s - 1 - i % s) + s * k := by omega
  rw [e2, Nat.add_mul_div_left _ _ hs, Nat.div_eq_of_lt (by omega)]
  omega

/-- C1. Bi-level round trip at scale 1 without clipping: after
`draw2ColorBitmap(bitmap, width_bytes, height_bytes, color, blank_color, x, y, 1, 1)`
with `x + 8 * width_bytes ≤ 320` and `y + height_bytes ≤ 200`, surface pixel
`(x + i, y + j)` is `color` when bit `7 - i mod 8` of
`bitmap[j * width_bytes + i div 8]` is 1 and `blank_color` when it is 0, for even and
for odd `x` (a pixel `i < 8 * width_bytes`, `j < height_bytes` exists only when both
sizes are at least 1). -/
theorem bilevel_roundtrip (video_memory : Mem) (bitmap : Bitmap)
    (width_bytes height_bytes color blank_color x y : Nat)
    (hc : color ≤ 15) (hb : blank_color ≤ 15)
    (hx : x + 8 * width_bytes ≤ 320) (hy : y + height_bytes ≤ 200)
    (i j : Nat) (hi : i < 8 * width_bytes) (hj : j < height_bytes) :
    pixel (draw2ColorBitmap video_memory bitmap width_bytes height_bytes color blank_color
        x y 1 1) (x + i) (y + j) =
      if bitmapAt bitmap ((j * width_bytes + i / 8 : Nat) : Int) / 2 ^ (7 - i % 8) % 2 = 1
      then color else blank_color := by
  have h := draw2_unclipped video_memory bitmap width_bytes height_bytes color blank_color
    x y 1 1 hc (Or.inl hb) (le_refl 1) (le_refl 1) (by omega) (by omega) i j (by omega)
    (by omega)
  rw [h, Nat.div_one, Nat.div_one, if_pos (show blank_color ≠ NO_COLOR by
    unfold NO_COLOR; omega)]
  rfl

/-- C1, the scenario of the specification: the one byte bitmap `0b10100000` drawn at
`(0, 0)` with colour 1 and blank colour 0 leaves the bytes `0x10, 0x10, 0x00, 0x00`
at offset 0 of bank 0. -/
theorem bilevel_roundtrip_witness :
    peek (draw2ColorBitmap (fun _ => 0xFF) (fun _ => 0xA0) 1 1 1 0 0 0 1 1) 0 = 0x10 ∧
    peek (draw2ColorBitmap (fun _ => 0xFF) (fun _ => 0xA0) 1 1 1 0 0 0 1 1) 1 = 0x10 ∧
    peek (draw2ColorBitmap (fun _ => 0xFF) (fun _ => 0xA0) 1 1 1 0 0 0 1 1) 2 = 0x00 ∧
    peek (draw2ColorBitmap (fun _ => 0xFF) (fun _ => 0xA0) 1 1 1 0 0 0 1 1) 3 = 0x00 := by
  have p := fun i (hi : i < 8 * 1) =>
    bilevel_roundtrip (fun _ => 0xFF) (fun _ => 0xA0) 1 1 1 0 0 0
      (by decide) (by decide) (by decide) (by decide) i 0 hi (by decide)
  have p0 := p 0 (by decide)
  have p1 := p 1 (by decide)
  have p2 := p 2 (by decide)
  have p3 := p 3 (by decide)
  have p4 := p 4 (by decide)
  have p5 := p 5 (by decide)
  have p6 := p 6 (by decide)
  have p7 := p 7 (by decide)
  simp only [pixel, pixelByte, bitmapAt, VIDEO_MEMORY_PAGE_SIZE, VIDEO_WIDTH_PIXELS] at p0 p1 p2 p3 p4 p5 p6 p7
  norm_num at p0 p1 p2 p3 p4 p5 p6 p7
  have b0 := peek_lt (draw2ColorBitmap (fun _ => 0xFF) (fun _ => 0xA0) 1 1 1 0 0 0 1 1) 0
  have b1 := peek_lt (draw2ColorBitmap (fun _ => 0xFF) (fun _ => 0xA0) 1 1 1 0 0 0 1 1) 1
  have b2 := peek_lt (draw2ColorBitmap (fun _ => 0xFF) (fun _ => 0xA0) 1 1 1 0 0 0 1 1) 2
  have b3 := peek_lt (draw2ColorBitmap (fun _ => 0xFF) (fun _ => 0xA0) 1 1 1 0 0 0 1 1) 3
  refine ⟨?_, ?_, ?_, ?_⟩ <;> omega

/-- C2. Multi-level round trip at scale 1 without clipping: after
`draw16ColorBitmap(bitmap, width_bytes, height_bytes, blank_color, x, y, 1, 1, 0)`
with `x + 2 * width_bytes ≤ 320` and `y + height_bytes ≤ 200`, surface pixel
`(x + i, y + j)` is the source nibble `n(i, j)` (high nibble of
`bitmap[j * width_bytes + i div 2]` for even `i`, low nibble for odd `i`) when that is
not zero and `blank_color` when it is zero, for even and for odd `x`; with
`blank_color = 0` the pixel is the source nibble in both cases. -/
theorem multilevel_roundtrip (screen_byte_indeterminate : Nat → Nat) (video_memory : Mem)
    (bitmap : Bitmap) (width_bytes height_bytes blank_color x y : Nat)
    (hb : blank_color ≤ 15)
    (hx : x + 2 * width_bytes ≤ 320) (hy : y + height_bytes ≤ 200)
    (i j : Nat) (hi : i < 2 * width_bytes) (hj : j < height_bytes) :
    pixel (draw16ColorBitmap screen_byte_indeterminate video_memory bitmap width_bytes
        height_bytes blank_color x y 1 1 0) (x + i) (y + j) =
      (if sourceNibble bitmap width_bytes j i ≠ 0 then sourceNibble bitmap width_bytes j i
        else blank_color) ∧
    (blank_color = 0 →
      pixel (draw16ColorBitmap screen_byte_indeterminate video_memory bitmap width_bytes
        height_bytes blank_color x y 1 1 0) (x + i) (y + j) =
      sourceNibble bitmap width_bytes j i) := by
  have h := draw16_unclipped screen_byte_indeterminate video_memory bitmap width_bytes
    height_bytes blank_color x y 1 1 0 (Or.inl hb) (le_refl 1) (le_refl 1) (by omega)
    (by omega) i j (by omega) (by omega)
  rw [Nat.div_one, Nat.div_one, if_pos rfl, if_pos (show blank_color ≠ NO_COLOR by
    unfold NO_COLOR; omega)] at h
  refine ⟨h, fun h0 => ?_⟩
  rw [h, h0]
  by_cases hn : sourceNibble bitmap width_bytes j i = 0
  · rw [if_neg (not_not.mpr hn), hn]
  · rw [if_pos hn]

/-- C2 at a concrete input: the two byte bitmap `0xA3, 0x0C` drawn at the odd column
1 of row 0 with blank colour 7 gives the pixels `A, 3, 7, C`. -/
theorem multilevel_roundtrip_witness :
    pixel (draw16ColorBitmap (fun _ => 0) (fun _ => 0x99)
      (fun i => if i = 0 then 0xA3 else 0x0C) 2 1 7 1 0 1 1 0) (1 + 0) (0 + 0) = 0xA ∧
    pixel (draw16ColorBitmap (fun _ => 0) (fun _ => 0x99)
      (fun i => if i = 0 then 0xA3 else 0x0C) 2 1 7 1 0 1 1 0) (1 + 1) (0 + 0) = 0x3 ∧
    pixel (draw16ColorBitmap (fun _ => 0) (fun _ => 0x99)
      (fun i => if i = 0 then 0xA3 else 0x0C) 2 1 7 1 0 1 1 0) (1 + 2) (0 + 0) = 0x7 ∧
    pixel (draw16ColorBitmap (fun _ => 0) (fun _ => 0x99)
      (fun i => if i = 0 then 0xA3 else 0x0C) 2 1 7 1 0 1 1 0) (1 + 3) (0 + 0) = 0xC := by
  have p := fun i (hi : i < 2 * 2) =>
    (multilevel_roundtrip (fun _ => 0) (fun _ => 0x99)
      (fun i => if i = 0 then 0xA3 else 0x0C) 2 1 7 1 0
      (by decide) (by decide) (by decide) i 0 hi (by decide)).1
  refine ⟨?_, ?_, ?_, ?_⟩
  · rw [p 0 (by decide)]; decide
  · rw [p 1 (by decide)]; decide
  · rw [p 2 (by decide)]; decide
  · rw [p 3 (by decide)]; decide

/-- C8. Bi-level nearest-neighbour scaling law: when nothing is clipped and both
colours are opaque, the pixel at `(x + i, y + j)` after `draw2ColorBitmap` with
scales `(x_scale, y_scale)` is the pixel at `(x + i div x_scale, y + j div y_scale)`
after the same call with scales `(1, 1)`. -/
theorem bilevel_scaling (video_memory : Mem) (bitmap : Bitmap)
    (width_bytes height_bytes color blank_color x y x_scale y_scale : Nat)
    (hc : color ≤ 15) (hb : blank_color ≤ 15)
    (hxs : 1 ≤ x_scale) (hys : 1 ≤ y_scale)
    (hx : x + 8 * width_bytes * x_scale ≤ 320) (hy : y + height_bytes * y_scale ≤ 200)
    (i j : Nat) (hi : i < 8 * width_bytes * x_scale) (hj : j < height_bytes * y_scale) :
    pixel (draw2ColorBitmap video_memory bitmap width_bytes height_bytes color blank_color
        x y x_scale y_scale) (x + i) (y + j) =
      pixel (draw2ColorBitmap video_memory bitmap width_bytes height_bytes color blank_color
        x y 1 1) (x + i / x_scale) (y + j / y_scale) := by
  have hi' : i / x_scale < 8 * width_bytes := (Nat.div_lt_iff_lt_mul (by omega)).mpr hi
  have hj' : j / y_scale < height_bytes := (Nat.div_lt_iff_lt_mul (by omega)).mpr hj
  have hw1 : 8 * width_bytes ≤ 8 * width_bytes * x_scale := Nat.le_mul_of_pos_right _ (by omega)
  have hh1 : height_bytes ≤ height_bytes * y_scale := Nat.le_mul_of_pos_right _ (by omega)
  have hne : blank_color ≠ NO_COLOR := by unfold NO_COLOR; omega
  rw [draw2_unclipped video_memory bitmap width_bytes height_bytes color blank_color
      x y x_scale y_scale hc (Or.inl hb) hxs hys hx hy i j hi hj,
    draw2_unclipped video_memory bitmap width_bytes height_bytes color blank_color
      x y 1 1 hc (Or.inl hb) (le_refl 1) (le_refl 1) (by omega) (by omega)
      (i / x_scale) (j / y_scale) (by omega) (by omega),
    Nat.div_one, Nat.div_one, if_pos hne, if_pos hne]

/-- C8 at a concrete input: bitmap `0b10100000` at `(3, 5)` with scales `(3, 2)`;
output pixel `(7, 1)` of the rectangle repeats pixel `(2, 0)` of the unscaled
draw. -/
theorem bilevel_scaling_witness :
    pixel (draw2ColorBitmap (fun _ => 0x99) (fun _ => 0xA0) 1 1 1 0 3 5 3 2) (3 + 7) (5 + 1) =
      pixel (draw2ColorBitmap (fun _ => 0x99) (fun _ => 0xA0) 1 1 1 0 3 5 1 1)
        (3 + 7 / 3) (5 + 1 / 2) :=
  bilevel_scaling (fun _ => 0x99) (fun _ => 0xA0) 1 1 1 0 3 5 3 2 (by decide) (by decide)
    (by decide) (by decide) (by decide) (by decide) 7 1 (by decide) (by decide)

/-- C9. Multi-level nearest-neighbour scaling law: when nothing is clipped and the
blank colour is opaque, for either value of `invert_x` the pixel at `(x + i, y + j)`
after `draw16ColorBitmap` with scales `(x_scale, y_scale)` is the pixel at
`(x + i div x_scale, y + j div y_scale)` after the same call with scales `(1, 1)`. -/
theorem multilevel_scaling (screen_byte_indeterminate : Nat → Nat) (video_memory : Mem)
    (bitmap : Bitmap)
    (width_bytes height_bytes blank_color x y x_scale y_scale invert_x : Nat)
    (hb : blank_color ≤ 15)
    (hxs : 1 ≤ x_scale) (hys : 1 ≤ y_scale)
    (hx : x + 2 * width_bytes * x_scale ≤ 320) (hy : y + height_bytes * y_scale ≤ 200)
    (i j : Nat) (hi : i < 2 * width_bytes * x_scale) (hj : j < height_bytes * y_scale) :
    pixel (draw16ColorBitmap screen_byte_indeterminate video_memory bitmap width_bytes
        height_bytes blank_color x y x_scale y_scale invert_x) (x + i) (y + j) =
      pixel (draw16ColorBitmap screen_byte_indeterminate video_memory bitmap width_bytes
        height_bytes blank_color x y 1 1 invert_x) (x + i / x_scale) (y + j / y_scale) := by
  have hi' : i / x_scale < 2 * width_bytes := (Nat.div_lt_iff_lt_mul (by omega)).mpr hi
  have hj' : j / y_scale < height_bytes := (Nat.div_lt_iff_lt_mul (by omega)).mpr hj
  have hw1 : 2 * width_bytes ≤ 2 * width_bytes * x_scale := Nat.le_mul_of_pos_right _ (by omega)
  have hh1 : height_bytes ≤ height_bytes * y_scale := Nat.le_mul_of_pos_right _ (by omega)
  have hne : blank_color ≠ NO_COLOR := by unfold NO_COLOR; omega
  rw [draw16_unclipped screen_byte_indeterminate video_memory bitmap width_bytes height_bytes
      blank_color x y x_scale y_scale invert_x (Or.inl hb) hxs hys hx hy i j hi hj,
    draw16_unclipped screen_byte_indeterminate video_memory bitmap width_bytes height_bytes
      blank_color x y 1 1 invert_x (Or.inl hb) (le_refl 1) (le_refl 1) (by omega) (by omega)
      (i / x_scale) (j / y_scale) (by omega) (by omega),
    Nat.div_one, Nat.div_one, if_pos hne, if_pos hne]

/-- C9 at a concrete input: a two byte bitmap at `(3, 5)` with scales `(3, 2)`,
mirrored; output pixel `(7, 1)` of the rectangle repeats pixel `(2, 0)` of the
unscaled draw. -/
theorem multilevel_scaling_witness :
    pixel (draw16ColorBitmap (fun _ => 0) (fun _ => 0x99)
        (fun i => if i = 0 then 0xA3 else 0x0C) 2 1 7 3 5 3 2 1) (3 + 7) (5 + 1) =
      pixel (draw16ColorBitmap (fun _ => 0) (fun _ => 0x99)
        (fun i => if i = 0 then 0xA3 else 0x0C) 2 1 7 3 5 1 1 1) (3 + 7 / 3) (5 + 1 / 2) :=
  multilevel_scaling (fun _ => 0) (fun _ => 0x99) (fun i => if i = 0 then 0xA3 else 0x0C)
    2 1 7 3 5 3 2 1 (by decide) (by decide) (by decide) (by decide) (by decide) 7 1
    (by decide) (by decide)

/-- C10. Mirroring: when nothing is clipped and the blank colour is opaque, with
`W = 2 * width_bytes * x_scale` the pixel at `(x + i, y + j)` after
`draw16ColorBitmap(..., invert_x = 1)` is the pixel at `(x + W - 1 - i, y + j)` after
`draw16ColorBitmap(..., invert_x = 0)` with the same other arguments on the same
initial surface. -/
theorem multilevel_mirror (screen_byte_indeterminate : Nat → Nat) (video_memory : Mem)
    (bitmap : Bitmap)
    (width_bytes height_bytes blank_color x y x_scale y_scale : Nat)
    (hb : blank_color ≤ 15)
    (hxs : 1 ≤ x_scale) (hys : 1 ≤ y_scale)
    (hx : x + 2 * width_bytes * x_scale ≤ 320) (hy : y + height_bytes * y_scale ≤ 200)
    (i j : Nat) (hi : i < 2 * width_bytes * x_scale) (hj : j < height_bytes * y_scale) :
    pixel (draw16ColorBitmap screen_byte_indeterminate video_memory bitmap width_bytes
        height_bytes blank_color x y x_scale y_scale 1) (x + i) (y + j) =
      pixel (draw16ColorBitmap screen_byte_indeterminate video_memory bitmap width_bytes
        height_bytes blank_color x y x_scale y_scale 0)
        (x + 2 * width_bytes * x_scale - 1 - i) (y + j) := by
  have hne : blank_color ≠ NO_COLOR := by unfold NO_COLOR; omega
  have e : x + 2 * width_bytes * x_scale - 1 - i = x + (2 * width_bytes * x_scale - 1 - i) := by
    omega
  rw [e, draw16_unclipped screen_byte_indeterminate video_memory bitmap width_bytes
      height_bytes blank_color x y x_scale y_scale 1 (Or.inl hb) hxs hys hx hy i j hi hj,
    draw16_unclipped screen_byte_indeterminate video_memory bitmap width_bytes height_bytes
      blank_color x y x_scale y_scale 0 (Or.inl hb) hxs hys hx hy
      (2 * width_bytes * x_scale - 1 - i) j (by omega) hj,
    mirror_div (2 * width_bytes) x_scale i (by omega) hi,
    if_neg (show ¬ (1 : Nat) = 0 by decide), if_pos (show (0 : Nat) = 0 from rfl),
    if_pos hne, if_pos hne]

/-- C10 at a concrete input: a two byte bitmap at `(3, 5)` with scales `(3, 2)`;
column 7 of the mirrored draw is column `12 - 1 - 7 = 4` of the plain draw. -/
theorem multilevel_mirror_witness :
    pixel (draw16ColorBitmap (fun _ => 0) (fun _ => 0x99)
        (fun i => if i = 0 then 0xA3 else 0x0C) 2 1 7 3 5 3 2 1) (3 + 7) (5 + 1) =
      pixel (draw16ColorBitmap (fun _ => 0) (fun _ => 0x99)
        (fun i => if i = 0 then 0xA3 else 0x0C) 2 1 7 3 5 3 2 0)
        (3 + 2 * 2 * 3 - 1 - 7) (5 + 1) :=
  multilevel_mirror (fun _ => 0) (fun _ => 0x99) (fun i => if i = 0 then 0xA3 else 0x0C)
    2 1 7 3 5 3 2 (by decide) (by decide) (by decide) (by decide) (by decide) 7 1
    (by decide) (by decide)

/-! ## The last row of a draw whose height wraps -/

theorem nib_even (m : Mem) (a : Nat) : nib m (2 * a) = peek m a / 16 := by
  unfold nib
  rw [if_pos (by omega), Nat.mul_div_cancel_left _ (by decide)]

theorem nib_odd (m : Mem) (a : Nat) : nib m (2 * a + 1) = peek m a % 16 := by
  unfold nib
  rw [if_neg (by omega), show (2 * a + 1) / 2 = a by omega]

theorem Args2.paint_of_bit (a : Args2) {bit : Nat} (old : Nat) (h : bit ≠ 0) :
    a.paint bit old = a.color := if_pos h

theorem Args16.paint_of_nibble (a : Args16) {nibble : Nat} (old : Nat) (h : nibble ≠ 0) :
    a.paint nibble old = nibble := if_neg h

namespace Blit2

theorem height_pixels_lt (a : Args2) : a.height_pixels < 65536 := by
  unfold Args2.height_pixels VIDEO_HEIGHT_PIXELS
  simp only
  split <;> omega

/-- The row loop keeps the row variables in step with the row number, on and off
the screen. -/
theorem rows_atRow {a : Args2}
    (hy1 : 1 ≤ a.y_scale) (hy2 : a.y_scale < 65536) (hx : a.x_pixel < 320) :
    ∀ (fuel j : Nat) (s : Blit2), AtRow a j s → j + fuel ≤ a.height_pixels →
      AtRow a (j + fuel) (rows a fuel j s) := by
  intro fuel
  induction fuel with
  | zero => intro j s h _; exact h
  | succ fuel ih =>
    intro j s h hj
    have hlt := height_pixels_lt a
    rw [rows_succ, if_pos (by omega), Nat.mod_eq_of_lt (show j + 1 < 65536 by omega)]
    have := ih (j + 1) _ (rowBody_atRow hy1 hy2 hx h j) (by omega)
    rw [show j + (fuel + 1) = j + 1 + fuel by omega]
    exact this

/-- The last pass of the row loop. -/
theorem rows_last (a : Args2) :
    ∀ (fuel j : Nat) (s : Blit2), j + fuel < a.height_pixels →
      rows a (fuel + 1) j s = rowBody a (j + fuel) (rows a fuel j s) := by
  intro fuel
  induction fuel with
  | zero =>
    intro j s hj
    rw [rows_succ, if_pos (by omega)]
    rfl
  | succ fuel ih =>
    intro j s hj
    have hlt := height_pixels_lt a
    rw [rows_succ, if_pos (by omega), Nat.mod_eq_of_lt (show j + 1 < 65536 by omega),
      ih (j + 1) _ (by omega), rows_succ a fuel j s, if_pos (by omega),
      Nat.mod_eq_of_lt (show j + 1 < 65536 by omega),
      show j + 1 + fuel = j + (fuel + 1) by omega]

/-- What the last row of `draw2ColorBitmap` leaves in video memory: the nibbles of
its `width_pixels` pixels are painted, wherever the row lies. -/
theorem run_last_row (a : Args2) (m : Mem) (n : Nat)
    (hc : a.color < 16) (hb : a.blank_color < 16 ∨ a.blank_color = NO_COLOR)
    (hx1 : 1 ≤ a.x_scale) (hx2 : a.x_scale < 65536)
    (hy1 : 1 ≤ a.y_scale) (hy2 : a.y_scale < 65536)
    (hx : a.x_pixel < 320) (hy : a.y_pixel < 200)
    (hw : a.x_pixel + a.width_pixels ≤ 320)
    (hodd : a.x_pixel % 2 = 1 → 1 ≤ a.width_pixels)
    (hn : a.height_pixels = n + 1)
    (hfit : 2 * a.rowOffset n + a.x_pixel % 2 + a.width_pixels ≤ 131072)
    (k : Nat) (hk1 : 2 * a.rowOffset n + a.x_pixel % 2 ≤ k)
    (hk2 : k < 2 * a.rowOffset n + a.x_pixel % 2 + a.width_pixels) :
    nib (run a m).video_memory k =
      a.paint (a.rowBit ((n / a.y_scale * a.width_bytes : Nat) : Int)
          (k - (2 * a.rowOffset n + a.x_pixel % 2)))
        (nib (rows a n 0 (init a m)).video_memory k) := by
  have h0 := init_atRow (a := a) m hx hy
  have h1 := rows_atRow hy1 hy2 hx n 0 _ h0 (by omega)
  rw [Nat.zero_add] at h1
  have hp := rowBody_spec hc hb hx1 hx2 hx hw hodd hfit h1 n k
  unfold run
  rw [hn, rows_last a n 0 _ (by omega), Nat.zero_add, hp, if_pos ⟨hk1, hk2⟩]

end Blit2

namespace Blit16

theorem height_pixels_lt16 (a : Args16) : a.height_pixels < 65536 := by
  unfold Args16.height_pixels VIDEO_HEIGHT_PIXELS
  simp only
  split <;> omega

/-- The row loop keeps the row variables in step with the row number, on and off
the screen. -/
theorem rows_atRow16 {a : Args16}
    (hy1 : 1 ≤ a.y_scale) (hy2 : a.y_scale < 65536) (hx : a.x_pixel < 320) :
    ∀ (fuel j : Nat) (s : Blit16), AtRow a j s → j + fuel ≤ a.height_pixels →
      AtRow a (j + fuel) (rows a fuel j s) := by
  intro fuel
  induction fuel with
  | zero => intro j s h _; exact h
  | succ fuel ih =>
    intro j s h hj
    have hlt := height_pixels_lt16 a
    rw [rows_succ16, if_pos (by omega), Nat.mod_eq_of_lt (show j + 1 < 65536 by omega)]
    have := ih (j + 1) _ (rowBody_atRow16 hy1 hy2 hx h j) (by omega)
    rw [show j + (fuel + 1) = j + 1 + fuel by omega]
    exact this

/-- The last pass of the row loop. -/
theorem rows_last16 (a : Args16) :
    ∀ (fuel j : Nat) (s : Blit16), j + fuel < a.height_pixels →
      rows a (fuel + 1) j s = rowBody a (j + fuel) (rows a fuel j s) := by
  intro fuel
  induction fuel with
  | zero =>
    intro j s hj
    rw [rows_succ16, if_pos (by omega)]
    rfl
  | succ fuel ih =>
    intro j s hj
    have hlt := height_pixels_lt16 a
    rw [rows_succ16, if_pos (by omega), Nat.mod_eq_of_lt (show j + 1 < 65536 by omega),
      ih (j + 1) _ (by omega), rows_succ16 a fuel j s, if_pos (by omega),
      Nat.mod_eq_of_lt (show j + 1 < 65536 by omega),
      show j + 1 + fuel = j + (fuel + 1) by omega]

/-- What the last row of `draw16ColorBitmap` leaves in video memory: the nibbles
of its `width_pixels` pixels are painted, wherever the row lies. -/
theorem run_last_row16 (a : Args16) (m : Mem) (n : Nat)
    (hb : a.blank_color < 16 ∨ a.blank_color = NO_COLOR)
    (hx1 : 1 ≤ a.x_scale) (hx2 : a.x_scale < 65536)
    (hy1 : 1 ≤ a.y_scale) (hy2 : a.y_scale < 65536)
    (hx : a.x_pixel < 320) (hy : a.y_pixel < 200)
    (hw : a.x_pixel + a.width_pixels ≤ 320)
    (hodd : a.x_pixel % 2 = 1 → 1 ≤ a.width_pixels)
    (hn : a.height_pixels = n + 1)
    (hfit : 2 * a.rowOffset n + a.x_pixel % 2 + a.width_pixels < 131070)
    (k : Nat) (hk1 : 2 * a.rowOffset n + a.x_pixel % 2 ≤ k)
    (hk2 : k < 2 * a.rowOffset n + a.x_pixel % 2 + a.width_pixels) :
    nib (run a m).video_memory k =
      a.paint (a.rowNibble (a.rowStartIndex n) (k - (2 * a.rowOffset n + a.x_pixel % 2)))
        (nib (rows a n 0 (init a m)).video_memory k) := by
  have h0 := init_atRow16 (a := a) m hx hy
  have h1 := rows_atRow16 hy1 hy2 hx n 0 _ h0 (by omega)
  rw [Nat.zero_add] at h1
  have hp := rowBody_spec16 hb hx1 hx2 hx hw hodd hfit h1 n k
  unfold run
  rw [hn, rows_last16 a n 0 _ (by omega), Nat.zero_add, hp, Args16.goal, if_pos ⟨hk1, hk2⟩]

end Blit16

/-! ## Size of the rectangle when the 16-bit size computation does not wrap -/

theorem Args2.width_pixels_no_wrap (a : Args2) (hx : a.x_pixel < 320)
    (h : a.width_bytes * 8 * a.x_scale + 320 ≤ 65536) :
    a.x_pixel + a.width_pixels ≤ 320 ∧
      ∀ i, i < a.width_pixels ↔ i < a.width_bytes * 8 * a.x_scale ∧ a.x_pixel + i < 320 := by
  unfold Args2.width_pixels VIDEO_WIDTH_PIXELS
  simp only
  rw [Nat.mod_eq_of_lt (show a.width_bytes * 8 * a.x_scale < 65536 by omega),
    Nat.mod_eq_of_lt (show a.x_pixel + a.width_bytes * 8 * a.x_scale < 65536 by omega)]
  split
  · refine ⟨by omega, fun i => by omega⟩
  · refine ⟨by omega, fun i => by omega⟩

theorem Args2.height_pixels_no_wrap (a : Args2) (hy : a.y_pixel < 200)
    (h : a.height_bytes * a.y_scale + 200 ≤ 65536) :
    a.y_pixel + a.height_pixels ≤ 200 ∧
      ∀ j, j < a.height_pixels ↔ j < a.height_bytes * a.y_scale ∧ a.y_pixel + j < 200 := by
  unfold Args2.height_pixels VIDEO_HEIGHT_PIXELS
  simp only
  rw [Nat.mod_eq_of_lt (show a.height_bytes * a.y_scale < 65536 by omega),
    Nat.mod_eq_of_lt (show a.y_pixel + a.height_bytes * a.y_scale < 65536 by omega)]
  split
  · refine ⟨by omega, fun i => by omega⟩
  · refine ⟨by omega, fun i => by omega⟩

theorem Args16.width_pixels_no_wrap16 (a : Args16) (hx : a.x_pixel < 320)
    (h : a.width_bytes * 2 * a.x_scale + 320 ≤ 65536) :
    a.x_pixel + a.width_pixels ≤ 320 ∧
      ∀ i, i < a.width_pixels ↔ i < a.width_bytes * 2 * a.x_scale ∧ a.x_pixel + i < 320 := by
  unfold Args16.width_pixels VIDEO_WIDTH_PIXELS
  simp only
  rw [Nat.mod_eq_of_lt (show a.width_bytes * 2 * a.x_scale < 65536 by omega),
    Nat.mod_eq_of_lt (show a.x_pixel + a.width_bytes * 2 * a.x_scale < 65536 by omega)]
  split
  · refine ⟨by omega, fun i => by omega⟩
  · refine ⟨by omega, fun i => by omega⟩

theorem Args16.height_pixels_no_wrap16 (a : Args16) (hy : a.y_pixel < 200)
    (h : a.height_bytes * a.y_scale + 200 ≤ 65536) :
    a.y_pixel + a.height_pixels ≤ 200 ∧
      ∀ j, j < a.height_pixels ↔ j < a.height_bytes * a.y_scale ∧ a.y_pixel + j < 200 := by
  unfold Args16.height_pixels VIDEO_HEIGHT_PIXELS
  simp only
  rw [Nat.mod_eq_of_lt (show a.height_bytes * a.y_scale < 65536 by omega),
    Nat.mod_eq_of_lt (show a.y_pixel + a.height_bytes * a.y_scale < 65536 by omega)]
  split
  · refine ⟨by omega, fun i => by omega⟩
  · refine ⟨by omega, fun i => by omega⟩

/-- What `draw2ColorBitmap` leaves on the surface when the scaled size does not wrap
in 16 bits (`8 * width_bytes * x_scale ≤ 65216`, `height_bytes * y_scale ≤ 65336`),
clipped or not: a pixel `(x + i, y + j)` of the screen inside the scaled picture
shows source bit `i div x_scale` of bitmap row `j div y_scale`, the colour for a set
bit, the blank colour for a clear bit and the old value for a clear bit under
`NO_COLOR`; every other pixel of the screen keeps its value. -/
theorem draw2_no_wrap (m : Mem) (bitmap : Bitmap)
    (wb hb color blank x y xs ys : Nat)
    (hwb : 1 ≤ wb) (hhb : 1 ≤ hb)
    (hc : color ≤ 15) (hbl : blank ≤ 15 ∨ blank = NO_COLOR)
    (hxs : 1 ≤ xs) (hys : 1 ≤ ys) (hx : x < 320) (hy : y < 200)
    (hW : 8 * wb * xs + 320 ≤ 65536) (hH : hb * ys + 200 ≤ 65536)
    (px py : Nat) (hpx : px < 320) (hpy : py < 200) :
    pixel (draw2ColorBitmap m bitmap wb hb color blank x y xs ys) px py =
      if x ≤ px ∧ px - x < 8 * wb * xs ∧ y ≤ py ∧ py - y < hb * ys then
        (if sourceBit bitmap wb ((py - y) / ys) ((px - x) / xs) = 1 then color
          else if blank ≠ NO_COLOR then blank else pixel m px py)
      else pixel m px py := by
  have hxs2 : xs ≤ 8 * wb * xs := le_mul_of_pos_left (by omega)
  have hys2 : ys ≤ hb * ys := le_mul_of_pos_left (by omega)
  have e8 : wb * 8 * xs = 8 * wb * xs := by ring
  obtain ⟨w1, w2⟩ := Args2.width_pixels_no_wrap ⟨bitmap, wb, hb, color, blank, x, y, xs, ys⟩
    hx (by show wb * 8 * xs + 320 ≤ 65536; omega)
  obtain ⟨h1, h2⟩ := Args2.height_pixels_no_wrap ⟨bitmap, wb, hb, color, blank, x, y, xs, ys⟩
    hy hH
  have w3 := w2 (px - x)
  have h3 := h2 (py - y)
  have w0 := (w2 0).mpr ⟨by show 0 < wb * 8 * xs; omega, by show x + 0 < 320; omega⟩
  dsimp only at w1 w3 h1 h3
  unfold draw2ColorBitmap
  rw [Blit2.run_pixel _ m (show color < 16 by omega)
    (by rcases hbl with h | h
        · exact Or.inl (show blank < 16 by omega)
        · exact Or.inr h)
    hxs (show xs < 65536 by omega) hys (show ys < 65536 by omega) hx hy w1 h1
    (fun _ => w0) px py hpx hpy]
  unfold Args2.expected Args2.paint
  dsimp only
  have hbit : sourceBit bitmap wb ((py - y) / ys) ((px - x) / xs) < 2 :=
    Nat.mod_lt _ (by decide)
  by_cases hin : x ≤ px ∧ px - x < 8 * wb * xs ∧ y ≤ py ∧ py - y < hb * ys
  · rw [if_pos hin, if_pos (by omega)]
    by_cases hb1 : sourceBit bitmap wb ((py - y) / ys) ((px - x) / xs) = 1
    · rw [if_pos (by omega), if_pos hb1]
    · rw [if_neg (by omega), if_neg hb1]
  · rw [if_neg hin, if_neg (by omega)]

/-- What `draw16ColorBitmap` leaves on the surface when the scaled size does not
wrap in 16 bits (`2 * width_bytes * x_scale ≤ 65216`, `height_bytes * y_scale ≤
65336`), clipped or not: a pixel `(x + i, y + j)` of the screen inside the scaled
picture shows the source nibble of column `i div x_scale` (counted from the right
end of the row when mirrored) of bitmap row `j div y_scale`, that nibble when it is
not zero, else the blank colour, else (under `NO_COLOR`) the old value; every
other pixel of the screen keeps its value. -/
theorem draw16_no_wrap (junk : Nat → Nat) (m : Mem) (bitmap : Bitmap)
    (wb hb blank x y xs ys inv : Nat)
    (hwb : 1 ≤ wb) (hhb : 1 ≤ hb)
    (hbl : blank ≤ 15 ∨ blank = NO_COLOR)
    (hxs : 1 ≤ xs) (hys : 1 ≤ ys) (hx : x < 320) (hy : y < 200)
    (hW : 2 * wb * xs + 320 ≤ 65536) (hH : hb * ys + 200 ≤ 65536)
    (px py : Nat) (hpx : px < 320) (hpy : py < 200) :
    pixel (draw16ColorBitmap junk m bitmap wb hb blank x y xs ys inv) px py =
      if x ≤ px ∧ px - x < 2 * wb * xs ∧ y ≤ py ∧ py - y < hb * ys then
        (if sourceNibble bitmap wb ((py - y) / ys)
            (if inv = 0 then (px - x) / xs else 2 * wb - 1 - (px - x) / xs) ≠ 0 then
          sourceNibble bitmap wb ((py - y) / ys)
            (if inv = 0 then (px - x) / xs else 2 * wb - 1 - (px - x) / xs)
        else if blank ≠ NO_COLOR then blank else pixel m px py)
      else pixel m px py := by
  have hxs2 : xs ≤ 2 * wb * xs := le_mul_of_pos_left (by omega)
  have hys2 : ys ≤ hb * ys := le_mul_of_pos_left (by omega)
  have e2 : wb * 2 * xs = 2 * wb * xs := by ring
  obtain ⟨w1, w2⟩ := Args16.width_pixels_no_wrap16
    ⟨bitmap, wb, hb, blank, x, y, xs, ys, inv, junk⟩ hx
    (by show wb * 2 * xs + 320 ≤ 65536; omega)
  obtain ⟨h1, h2⟩ := Args16.height_pixels_no_wrap16
    ⟨bitmap, wb, hb, blank, x, y, xs, ys, inv, junk⟩ hy hH
  have w3 := w2 (px - x)
  have h3 := h2 (py - y)
  have w0 := (w2 0).mpr ⟨by show 0 < wb * 2 * xs; omega, by show x + 0 < 320; omega⟩
  dsimp only at w1 w3 h1 h3
  unfold draw16ColorBitmap
  rw [Blit16.run_pixel16 _ m
    (by rcases hbl with h | h
        · exact Or.inl (show blank < 16 by omega)
        · exact Or.inr h)
    hxs (show xs < 65536 by omega) hys (show ys < 65536 by omega) hx hy w1 h1
    (fun _ => w0) px py hpx hpy]
  unfold Args16.expected Args16.paint Args16.srcIndex
  dsimp only
  by_cases hin : x ≤ px ∧ px - x < 2 * wb * xs ∧ y ≤ py ∧ py - y < hb * ys
  · rw [if_pos hin, if_pos (by omega)]
    by_cases hn : sourceNibble bitmap wb ((py - y) / ys)
        (if inv = 0 then (px - x) / xs else 2 * wb - 1 - (px - x) / xs) = 0
    · rw [if_pos hn, if_neg (not_not.mpr hn)]
    · rw [if_neg hn, if_pos hn]
  · rw [if_neg hin, if_neg (by omega)]

/-! ## Draws whose size wraps in 16 bits -/

theorem draw2ColorBitmap_eq (m : Mem) (bitmap : Bitmap) (wb hb c bc x y xs ys : Nat) :
    draw2ColorBitmap m bitmap wb hb c bc x y xs ys =
      (Blit2.run ⟨bitmap, wb, hb, c, bc, x, y, xs, ys⟩ m).video_memory := rfl

theorem draw16ColorBitmap_eq (junk : Nat → Nat) (m : Mem) (bitmap : Bitmap)
    (wb hb bc x y xs ys inv : Nat) :
    draw16ColorBitmap junk m bitmap wb hb bc x y xs ys inv =
      (Blit16.run ⟨bitmap, wb, hb, bc, x, y, xs, ys, inv, junk⟩ m).video_memory := rfl

/-- The bits of the bitmap that is `0xFF` throughout are set. -/
theorem rowBit_ones (c bc x y xs ys : Nat) (rs : Int) (n : Nat) :
    Args2.rowBit ⟨fun _ => 0xFF, 1, 1, c, bc, x, y, xs, ys⟩ rs n ≠ 0 := by
  unfold Args2.rowBit
  have hb : ∀ i, bitmapAt (fun _ => 0xFF) i = 255 := fun _ => rfl
  simp only [hb]
  have h := Nat.mod_lt (n / xs) (show 0 < 8 by decide)
  generalize n / xs % 8 = t at h
  interval_cases t <;> decide

/-- The nibbles of the bitmap that is `0x11` throughout are 1. -/
theorem rowNibble_ones (bc x y xs ys inv : Nat) (junk : Nat → Nat) (rs : Int) (n : Nat) :
    Args16.rowNibble ⟨fun _ => 0x11, 1, 1, bc, x, y, xs, ys, inv, junk⟩ rs n = 1 := by
  unfold Args16.rowNibble Args16.nibAt
  have hb : ∀ i, bitmapAt (fun _ => 0x11) i = 17 := fun _ => rfl
  simp only [hb]
  split <;> rfl

/-- With `y_scale = 65337` at `y = 199` the last of the 65337 rows of
`draw2ColorBitmap` lies at offset 24416 of video memory. -/
theorem draw2_last_row_65337 (k : Nat) (hk1 : 2 * 24416 ≤ k) (hk2 : k < 2 * 24416 + 8) :
    nib (Blit2.run ⟨fun _ => 0xFF, 1, 1, 1, 0, 0, 199, 1, 65337⟩ (fun _ => 0)).video_memory k
      = 1 := by
  have hh : Args2.height_pixels ⟨fun _ => 0xFF, 1, 1, 1, 0, 0, 199, 1, 65337⟩ = 65336 + 1 := by
    decide
  have hw : Args2.width_pixels ⟨fun _ => 0xFF, 1, 1, 1, 0, 0, 199, 1, 65337⟩ = 8 := by
    decide
  have ho : Args2.rowOffset ⟨fun _ => 0xFF, 1, 1, 1, 0, 0, 199, 1, 65337⟩ 65336 = 24416 := by
    decide
  rw [Blit2.run_last_row ⟨fun _ => 0xFF, 1, 1, 1, 0, 0, 199, 1, 65337⟩ (fun _ => 0) 65336
      (by decide) (by decide) (by decide) (by decide) (by decide) (by decide) (by decide)
      (by decide) (by rw [hw]; decide) (fun _ => by rw [hw]; decide) hh
      (by rw [hw, ho]; decide) k (by rw [ho]; exact hk1) (by rw [hw, ho]; exact hk2)]
  exact Args2.paint_of_bit _ _ (rowBit_ones _ _ _ _ _ _ _ _)

/-- With `y_scale = 65535` at `y = 199` the last of the 65535 rows of
`draw2ColorBitmap` lies at offset 16032 of video memory, row 197 of the surface. -/
theorem draw2_last_row_65535 (k : Nat) (hk1 : 2 * 16032 ≤ k) (hk2 : k < 2 * 16032 + 8) :
    nib (Blit2.run ⟨fun _ => 0xFF, 1, 1, 1, 0, 0, 199, 1, 65535⟩ (fun _ => 0)).video_memory k
      = 1 := by
  have hh : Args2.height_pixels ⟨fun _ => 0xFF, 1, 1, 1, 0, 0, 199, 1, 65535⟩ = 65534 + 1 := by
    decide
  have hw : Args2.width_pixels ⟨fun _ => 0xFF, 1, 1, 1, 0, 0, 199, 1, 65535⟩ = 8 := by
    decide
  have ho : Args2.rowOffset ⟨fun _ => 0xFF, 1, 1, 1, 0, 0, 199, 1, 65535⟩ 65534 = 16032 := by
    decide
  rw [Blit2.run_last_row ⟨fun _ => 0xFF, 1, 1, 1, 0, 0, 199, 1, 65535⟩ (fun _ => 0) 65534
      (by decide) (by decide) (by decide) (by decide) (by decide) (by decide) (by decide)
      (by decide) (by rw [hw]; decide) (fun _ => by rw [hw]; decide) hh
      (by rw [hw, ho]; decide) k (by rw [ho]; exact hk1) (by rw [hw, ho]; exact hk2)]
  exact Args2.paint_of_bit _ _ (rowBit_ones _ _ _ _ _ _ _ _)

/-- With `y_scale = 65535` at `y = 199` the last of the 65535 rows of
`draw16ColorBitmap` lies at offset 16032 of video memory, row 197 of the surface. -/
theorem draw16_last_row_65535 (k : Nat) (hk1 : 2 * 16032 ≤ k) (hk2 : k < 2 * 16032 + 2) :
    nib (Blit16.run ⟨fun _ => 0x11, 1, 1, 0, 0, 199, 1, 65535, 0, fun _ => 0⟩
      (fun _ => 0)).video_memory k = 1 := by
  have hh : Args16.height_pixels ⟨fun _ => 0x11, 1, 1, 0, 0, 199, 1, 65535, 0, fun _ => 0⟩
      = 65534 + 1 := by decide
  have hw : Args16.width_pixels ⟨fun _ => 0x11, 1, 1, 0, 0, 199, 1, 65535, 0, fun _ => 0⟩
      = 2 := by decide
  have ho : Args16.rowOffset ⟨fun _ => 0x11, 1, 1, 0, 0, 199, 1, 65535, 0, fun _ => 0⟩ 65534
      = 16032 := by decide
  rw [Blit16.run_last_row16 ⟨fun _ => 0x11, 1, 1, 0, 0, 199, 1, 65535, 0, fun _ => 0⟩
      (fun _ => 0) 65534
      (by decide) (by decide) (by decide) (by decide) (by decide) (by decide)
      (by decide) (by rw [hw]; decide) (fun _ => by rw [hw]; decide) hh
      (by rw [hw, ho]; decide) k (by rw [ho]; exact hk1) (by rw [hw, ho]; exact hk2),
    rowNibble_ones]
  rfl

/-- C3, evaluation at two failing inputs (bitmap `0b10000000`, colour 1, blank
colour `NO_COLOR`, surface filled with colour 9).  With `x_scale = 8192` the width
`1 * 8 * 8192 = 65536` is stored as 0; with `x_scale = 8191` at `x = 8` the width is
65528 and `x_pixel + width_pixels = 65536` wraps to 0, so the width is not reduced
and `x_pixels_remaining` is `-8`.  Either way no pixel is drawn: the pixel at the
origin, whose source bit is 1, keeps colour 9 instead of getting colour 1. -/
theorem bilevel_transparency_fails_on_wrap :
    Args2.width_pixels ⟨fun _ => 0x80, 1, 1, 1, NO_COLOR, 0, 0, 8192, 1⟩ = 0 ∧
    sourceBit (fun _ => 0x80) 1 (0 / 1) (0 / 8192) = 1 ∧
    pixel (draw2ColorBitmap (fun _ => 0x99) (fun _ => 0x80) 1 1 1 NO_COLOR 0 0 8192 1) 0 0
      = 9 ∧
    Args2.width_pixels ⟨fun _ => 0x80, 1, 1, 1, NO_COLOR, 8, 0, 8191, 1⟩ = 65528 ∧
    sourceBit (fun _ => 0x80) 1 (0 / 1) (0 / 8191) = 1 ∧
    pixel (draw2ColorBitmap (fun _ => 0x99) (fun _ => 0x80) 1 1 1 NO_COLOR 8 0 8191 1) 8 0
      = 9 := by
  decide

/-- C4, evaluation at two failing inputs (bitmap `0x10`, blank colour `NO_COLOR`,
surface filled with colour 9).  With `x_scale = 32768` the width `1 * 2 * 32768 =
65536` is stored as 0; with `x_scale = 32767` at `x = 2` the width is 65534 and
`x_pixel + width_pixels = 65536` wraps to 0, so the width is not reduced and
`x_pixels_remaining` is `-2`.  Either way no pixel is drawn: the pixel at the
origin, whose source nibble is 1, keeps colour 9. -/
theorem multilevel_transparency_fails_on_wrap :
    Args16.width_pixels ⟨fun _ => 0x10, 1, 1, NO_COLOR, 0, 0, 32768, 1, 0, fun _ => 0⟩ = 0 ∧
    sourceNibble (fun _ => 0x10) 1 (0 / 1) (0 / 32768) = 1 ∧
    pixel (draw16ColorBitmap (fun _ => 0) (fun _ => 0x99) (fun _ => 0x10) 1 1 NO_COLOR
      0 0 32768 1 0) 0 0 = 9 ∧
    Args16.width_pixels ⟨fun _ => 0x10, 1, 1, NO_COLOR, 2, 0, 32767, 1, 0, fun _ => 0⟩
      = 65534 ∧
    sourceNibble (fun _ => 0x10) 1 (0 / 1) (0 / 32767) = 1 ∧
    pixel (draw16ColorBitmap (fun _ => 0) (fun _ => 0x99) (fun _ => 0x10) 1 1 NO_COLOR
      2 0 32767 1 0) 2 0 = 9 := by
  decide

/-- C5, evaluation at the failing input. `draw2ColorBitmap` with `height_bytes = 1`,
`y_scale = 65337` at `y = 199`: `height_pixels = 65337`, the sum
`y_pixel + height_pixels = 65536` wraps to 0 and is not reduced, the row loop runs
65337 times, and its last pass stores colour 1 into the byte at offset
`24416 = 2 * 8192 + 8032` of video memory, which is past the 8000 bytes that bank 2
holds of the surface. -/
theorem bilevel_height_wrap_writes_off_surface :
    Args2.height_pixels ⟨fun _ => 0xFF, 1, 1, 1, 0, 0, 199, 1, 65337⟩ = 65337 ∧
    24416 = 2 * 8192 + 8032 ∧
    peek (fun _ => 0) 24416 = 0x00 ∧
    peek (draw2ColorBitmap (fun _ => 0) (fun _ => 0xFF) 1 1 1 0 0 199 1 65337) 24416
      = 0x11 := by
  have k0 := draw2_last_row_65337 (2 * 24416) (by decide) (by decide)
  have k1 := draw2_last_row_65337 (2 * 24416 + 1) (by decide) (by decide)
  rw [nib_even] at k0
  rw [nib_odd] at k1
  refine ⟨by decide, by decide, by decide, ?_⟩
  rw [draw2ColorBitmap_eq]
  have b := peek_lt (Blit2.run ⟨fun _ => 0xFF, 1, 1, 1, 0, 0, 199, 1, 65337⟩
    (fun _ => 0)).video_memory 24416
  omega

/-- C6, evaluation at the failing input. `draw2ColorBitmap` of an 8 by 1 bitmap with
`y_scale = 65535` at `(0, 199)`: the clamped rectangle is row 199, columns 0 to 7,
but `y_pixel + height_pixels = 65734` wraps to 198 and the height is not reduced;
the last of the 65535 rows is drawn over row 197 of the surface, whose pixel
`(0, 197)` changes from 0 to colour 1. -/
theorem bilevel_height_wrap_breaks_frame :
    Args2.height_pixels ⟨fun _ => 0xFF, 1, 1, 1, 0, 0, 199, 1, 65535⟩ = 65535 ∧
    pixel (fun _ => 0) 0 197 = 0 ∧
    pixel (draw2ColorBitmap (fun _ => 0) (fun _ => 0xFF) 1 1 1 0 0 199 1 65535) 0 197
      = 1 := by
  refine ⟨by decide, by decide, ?_⟩
  rw [pixel_eq_nib, draw2ColorBitmap_eq]
  exact draw2_last_row_65535 _ (by decide) (by decide)

/-- C7, evaluation at the failing input. `draw16ColorBitmap` of a 2 by 1 bitmap with
`y_scale = 65535` at `(0, 199)`: the clamped rectangle is row 199, columns 0 and 1,
but `y_pixel + height_pixels = 65734` wraps to 198 and the height is not reduced;
the last of the 65535 rows is drawn over row 197 of the surface, whose pixel
`(0, 197)` changes from 0 to the source nibble 1. -/
theorem multilevel_height_wrap_breaks_frame :
    Args16.height_pixels ⟨fun _ => 0x11, 1, 1, 0, 0, 199, 1, 65535, 0, fun _ => 0⟩
      = 65535 ∧
    pixel (fun _ => 0) 0 197 = 0 ∧
    pixel (draw16ColorBitmap (fun _ => 0) (fun _ => 0) (fun _ => 0x11) 1 1 0 0 199 1 65535 0)
      0 197 = 1 := by
  refine ⟨by decide, by decide, ?_⟩
  rw [pixel_eq_nib, draw16ColorBitmap_eq]
  exact draw16_last_row_65535 _ (by decide) (by decide)

/-! ## The row loop, row by row -/

namespace Blit2

/-- The row loop run for `f1 + f2` passes is the loop run for `f1` passes and then
for `f2` more. -/
theorem rows_add (a : Args2) :
    ∀ (f1 f2 j : Nat) (s : Blit2), j + f1 ≤ a.height_pixels →
      rows a (f1 + f2) j s = rows a f2 (j + f1) (rows a f1 j s) := by
  intro f1
  induction f1 with
  | zero => intro f2 j s _; rw [Nat.zero_add]; rfl
  | succ f1 ih =>
    intro f2 j s hj
    have hlt := height_pixels_lt a
    rw [show f1 + 1 + f2 = (f1 + f2) + 1 by omega, rows_succ, rows_succ, if_pos (by omega),
      if_pos (by omega), Nat.mod_eq_of_lt (show j + 1 < 65536 by omega),
      ih f2 (j + 1) _ (by omega), show j + 1 + f1 = j + (f1 + 1) by omega]

end Blit2

namespace Blit16

/-- The row loop run for `f1 + f2` passes is the loop run for `f1` passes and then
for `f2` more. -/
theorem rows_add16 (a : Args16) :
    ∀ (f1 f2 j : Nat) (s : Blit16), j + f1 ≤ a.height_pixels →
      rows a (f1 + f2) j s = rows a f2 (j + f1) (rows a f1 j s) := by
  intro f1
  induction f1 with
  | zero => intro f2 j s _; rw [Nat.zero_add]; rfl
  | succ f1 ih =>
    intro f2 j s hj
    have hlt := height_pixels_lt16 a
    rw [show f1 + 1 + f2 = (f1 + f2) + 1 by omega, rows_succ16, rows_succ16, if_pos (by omega),
      if_pos (by omega), Nat.mod_eq_of_lt (show j + 1 < 65536 by omega),
      ih f2 (j + 1) _ (by omega), show j + 1 + f1 = j + (f1 + 1) by omega]

end Blit16

/-- The row variables of `draw2ColorBitmap` at the start of output row `j`: in 16
bits for every row the loop runs, and without reduction for a row on the surface. -/
theorem draw2_row_start (a : Args2) (m : Mem) (j : Nat)
    (hx : a.x_pixel < 320) (hy : a.y_pixel < 200)
    (hys1 : 1 ≤ a.y_scale) (hys2 : a.y_scale < 65536) (hrow : j < a.height_pixels) :
    (Blit2.rows a j 0 (Blit2.init a m)).current_page = (a.y_pixel + j) % 4 ∧
    (Blit2.rows a j 0 (Blit2.init a m)).page_row_byte
      = (a.y_pixel + j) / 4 * 160 % 65536 ∧
    (Blit2.rows a j 0 (Blit2.init a m)).current_screen_byte =
      ((a.y_pixel + j) % 4 * 8192 + (a.y_pixel + j) / 4 * 160 % 65536 + a.x_pixel / 2)
        % 65536 ∧
    (a.y_pixel + j < 200 →
      (Blit2.rows a j 0 (Blit2.init a m)).page_row_byte = (a.y_pixel + j) / 4 * 160 ∧
      (Blit2.rows a j 0 (Blit2.init a m)).current_screen_byte =
        (a.y_pixel + j) % 4 * 8192 + (a.y_pixel + j) / 4 * 160 + a.x_pixel / 2) ∧
    Blit2.run a m =
      Blit2.rows a (a.height_pixels - j) j (Blit2.rows a j 0 (Blit2.init a m)) := by
  have h := Blit2.rows_atRow hys1 hys2 hx j 0 _ (Blit2.init_atRow m hx hy) (by omega)
  rw [Nat.zero_add] at h
  refine ⟨h.page, h.prb, h.csb, fun hj => ⟨?_, ?_⟩, ?_⟩
  · rw [h.prb]; omega
  · rw [h.csb, Args2.rowOffset]; omega
  · have := Blit2.rows_add a j (a.height_pixels - j) 0 (Blit2.init a m) (by omega)
    rw [Nat.zero_add, show j + (a.height_pixels - j) = a.height_pixels by omega] at this
    exact this

/-- The row variables of `draw16ColorBitmap` at the start of output row `j`: in 16
bits for every row the loop runs, and without reduction for a row on the surface. -/
theorem draw16_row_start (a : Args16) (m : Mem) (j : Nat)
    (hx : a.x_pixel < 320) (hy : a.y_pixel < 200)
    (hys1 : 1 ≤ a.y_scale) (hys2 : a.y_scale < 65536) (hrow : j < a.height_pixels) :
    (Blit16.rows a j 0 (Blit16.init a m)).current_page = (a.y_pixel + j) % 4 ∧
    (Blit16.rows a j 0 (Blit16.init a m)).page_row_byte
      = (a.y_pixel + j) / 4 * 160 % 65536 ∧
    (Blit16.rows a j 0 (Blit16.init a m)).current_screen_byte =
      ((a.y_pixel + j) % 4 * 8192 + (a.y_pixel + j) / 4 * 160 % 65536 + a.x_pixel / 2)
        % 65536 ∧
    (a.y_pixel + j < 200 →
      (Blit16.rows a j 0 (Blit16.init a m)).page_row_byte = (a.y_pixel + j) / 4 * 160 ∧
      (Blit16.rows a j 0 (Blit16.init a m)).current_screen_byte =
        (a.y_pixel + j) % 4 * 8192 + (a.y_pixel + j) / 4 * 160 + a.x_pixel / 2) ∧
    Blit16.run a m =
      Blit16.rows a (a.height_pixels - j) j (Blit16.rows a j 0 (Blit16.init a m)) := by
  have h := Blit16.rows_atRow16 hys1 hys2 hx j 0 _ (Blit16.init_atRow16 m hx hy) (by omega)
  rw [Nat.zero_add] at h
  refine ⟨h.page, h.prb, h.csb, fun hj => ⟨?_, ?_⟩, ?_⟩
  · rw [h.prb]; omega
  · rw [h.csb, Args16.rowOffset]; omega
  · have := Blit16.rows_add16 a j (a.height_pixels - j) 0 (Blit16.init a m) (by omega)
    rw [Nat.zero_add, show j + (a.height_pixels - j) = a.height_pixels by omega] at this
    exact this

/-- When the height does not wrap in 16 bits every row the loop runs lies on the
surface. -/
theorem Args2.row_on_surface (a : Args2) (hy : a.y_pixel < 200)
    (hH : a.height_bytes * a.y_scale + 200 ≤ 65536) (j : Nat) (hrow : j < a.height_pixels) :
    a.y_pixel + j < 200 := by
  obtain ⟨h1, -⟩ := Args2.height_pixels_no_wrap a hy hH
  omega

/-- When the height does not wrap in 16 bits every row the loop runs lies on the
surface. -/
theorem Args16.row_on_surface16 (a : Args16) (hy : a.y_pixel < 200)
    (hH : a.height_bytes * a.y_scale + 200 ≤ 65536) (j : Nat) (hrow : j < a.height_pixels) :
    a.y_pixel + j < 200 := by
  obtain ⟨h1, -⟩ := Args16.height_pixels_no_wrap16 a hy hH
  omega

/-! ## The draw of width 0 -/

namespace Blit2

/-- A row of width 0 that starts on an even column stores nothing. -/
theorem rowBody_empty {a : Args2} (hw : a.width_pixels = 0)
    (hc : a.column_start_left_byte = true) (y : Nat) (s : Blit2) :
    (rowBody a y s).video_memory = s.video_memory := by
  have hr : (headInit a s).x_pixels_remaining = 0 := hw
  have h1 : rowHead a s = headInit a s := by
    rw [rowHead_eq, hc, hw, if_pos rfl, if_neg (by decide)]
  have h2 : rowMiddle a 32768 (headInit a s) = headInit a s := by
    rw [show 32768 = 32767 + 1 from rfl, rowMiddle_succ, hr, if_neg (by decide)]
  have h3 : rowTail a y (headInit a s) = headInit a s := by
    rw [rowTail_eq, hr, if_neg (by decide)]
  unfold rowBody
  rw [rowEnd_video_memory, h1, h2, h3]
  rfl

/-- A draw of width 0 that starts on an even column stores nothing. -/
theorem rows_empty {a : Args2} (hw : a.width_pixels = 0)
    (hc : a.column_start_left_byte = true) :
    ∀ (fuel j : Nat) (s : Blit2), (rows a fuel j s).video_memory = s.video_memory := by
  intro fuel
  induction fuel with
  | zero => intro j s; rfl
  | succ fuel ih =>
    intro j s
    rw [rows_succ]
    split
    · rw [ih, rowBody_empty hw hc]
    · rfl

end Blit2

/-- With `width_bytes = 0` and an even `x_pixel` on the screen `draw2ColorBitmap`
leaves video memory as it was. -/
theorem draw2_empty_even (m : Mem) (bitmap : Bitmap) (hb c bc x y xs ys : Nat)
    (hx : x < 320) (hev : x % 2 = 0) :
    draw2ColorBitmap m bitmap 0 hb c bc x y xs ys = m := by
  rw [draw2ColorBitmap_eq]
  unfold Blit2.run
  rw [Blit2.rows_empty]
  · rfl
  · unfold Args2.width_pixels VIDEO_WIDTH_PIXELS
    simp only [Nat.zero_mul, Nat.zero_mod, Nat.add_zero]
    rw [if_neg (by omega)]
  · rw [Blit2.column_start_left_byte_eq (show x < 32768 by omega)]
    exact decide_eq_true hev

/-! ## Clipping, row addressing, sizes, bitmap reads and the empty draw -/

/-- C11, evaluation at a failing input. `draw2ColorBitmap` of the one byte bitmap
`0b10000000` with colour 1 and blank colour 0 at `(16, 0)` with `x_scale = 8190` on a
surface filled with colour 9: the unclamped width `8 * 1 * 8190 = 65520` exceeds
`320 - 16`, so the draw is to be clipped and the on-screen pixel `(16, 0)`, whose
source bit `0 div 8190 = 0` of row 0 is 1, is to become colour 1.  In the code
`x_pixel + width_pixels = 65536` wraps to 0, the width stays 65520, read as the
`short` `-16` no pixel is drawn, and the pixel keeps colour 9. -/
theorem bilevel_clipping_fails_on_wrap :
    320 - 16 < 8 * 1 * 8190 ∧
    Args2.width_pixels ⟨fun _ => 0x80, 1, 1, 1, 0, 16, 0, 8190, 1⟩ = 65520 ∧
    sourceBit (fun _ => 0x80) 1 (0 / 1) (0 / 8190) = 1 ∧
    pixel (draw2ColorBitmap (fun _ => 0x99) (fun _ => 0x80) 1 1 1 0 16 0 8190 1) 16 0
      = 9 := by
  decide

/-- C12, evaluation at a failing input. `draw16ColorBitmap` of the one byte bitmap
`0x10` with blank colour 0 at `(4, 0)` with `x_scale = 32766`, `invert_x = 0`, on a
surface filled with colour 9: the unclamped width `2 * 1 * 32766 = 65532` exceeds
`320 - 4`, so the draw is to be clipped and the on-screen pixel `(4, 0)`, whose
source nibble `0 div 32766 = 0` of row 0 is 1, is to become 1.  In the code
`x_pixel + width_pixels = 65536` wraps to 0, the width stays 65532, read as the
`short` `-4` the pixel loop is not entered, and the pixel keeps colour 9. -/
theorem multilevel_clipping_fails_on_wrap :
    320 - 4 < 2 * 1 * 32766 ∧
    Args16.width_pixels ⟨fun _ => 0x10, 1, 1, 0, 4, 0, 32766, 1, 0, fun _ => 0⟩ = 65532 ∧
    sourceNibble (fun _ => 0x10) 1 (0 / 1) (0 / 32766) = 1 ∧
    pixel (draw16ColorBitmap (fun _ => 0) (fun _ => 0x99) (fun _ => 0x10) 1 1 0
      4 0 32766 1 0) 4 0 = 9 := by
  decide

/-- C13. Row addressing invariant of both blitters: for an origin on the screen and
`1 ≤ y_scale`, at the start of every output row `j` that the row loop runs
(`j < height_pixels`), that is in the state after the `j` passes before it,
`current_page = (y_pixel + j) mod 4`, and `page_row_byte` and
`current_screen_byte` hold `((y_pixel + j) div 4) * 160` and
`((y_pixel + j) mod 4) * 8192 + ((y_pixel + j) div 4) * 160 + x_pixel div 2` as
16-bit values; for a row on the surface (`y_pixel + j < 200`) these are the values
themselves.  The rest of the call is the row loop continued from that state.  The
page advances once per output row whatever `y_scale` is. -/
theorem row_addressing (a : Args2) (b : Args16) (m : Mem) (j : Nat) :
    (a.x_pixel < 320 → a.y_pixel < 200 → 1 ≤ a.y_scale → a.y_scale < 65536 →
      j < a.height_pixels →
      (Blit2.rows a j 0 (Blit2.init a m)).current_page = (a.y_pixel + j) % 4 ∧
      (Blit2.rows a j 0 (Blit2.init a m)).page_row_byte
        = (a.y_pixel + j) / 4 * 160 % 65536 ∧
      (Blit2.rows a j 0 (Blit2.init a m)).current_screen_byte =
        ((a.y_pixel + j) % 4 * 8192 + (a.y_pixel + j) / 4 * 160 % 65536 + a.x_pixel / 2)
          % 65536 ∧
      (a.y_pixel + j < 200 →
        (Blit2.rows a j 0 (Blit2.init a m)).page_row_byte = (a.y_pixel + j) / 4 * 160 ∧
        (Blit2.rows a j 0 (Blit2.init a m)).current_screen_byte =
          (a.y_pixel + j) % 4 * 8192 + (a.y_pixel + j) / 4 * 160 + a.x_pixel / 2) ∧
      Blit2.run a m =
        Blit2.rows a (a.height_pixels - j) j (Blit2.rows a j 0 (Blit2.init a m))) ∧
    (b.x_pixel < 320 → b.y_pixel < 200 → 1 ≤ b.y_scale → b.y_scale < 65536 →
      j < b.height_pixels →
      (Blit16.rows b j 0 (Blit16.init b m)).current_page = (b.y_pixel + j) % 4 ∧
      (Blit16.rows b j 0 (Blit16.init b m)).page_row_byte
        = (b.y_pixel + j) / 4 * 160 % 65536 ∧
      (Blit16.rows b j 0 (Blit16.init b m)).current_screen_byte =
        ((b.y_pixel + j) % 4 * 8192 + (b.y_pixel + j) / 4 * 160 % 65536 + b.x_pixel / 2)
          % 65536 ∧
      (b.y_pixel + j < 200 →
        (Blit16.rows b j 0 (Blit16.init b m)).page_row_byte = (b.y_pixel + j) / 4 * 160 ∧
        (Blit16.rows b j 0 (Blit16.init b m)).current_screen_byte =
          (b.y_pixel + j) % 4 * 8192 + (b.y_pixel + j) / 4 * 160 + b.x_pixel / 2) ∧
      Blit16.run b m =
        Blit16.rows b (b.height_pixels - j) j (Blit16.rows b j 0 (Blit16.init b m))) :=
  ⟨draw2_row_start a m j, draw16_row_start b m j⟩

/-- C13 at a concrete input: origin `(3, 5)`, `y_scale = 3`, a bitmap of two rows;
output row 4 is surface row 9, page 1, row offset `2 * 160`, byte `8192 + 320 + 1`. -/
theorem row_addressing_witness :
    (Blit2.rows ⟨fun _ => 0xA0, 1, 2, 1, 0, 3, 5, 1, 3⟩ 4 0
      (Blit2.init ⟨fun _ => 0xA0, 1, 2, 1, 0, 3, 5, 1, 3⟩ (fun _ => 0))).current_page = 1 ∧
    (Blit2.rows ⟨fun _ => 0xA0, 1, 2, 1, 0, 3, 5, 1, 3⟩ 4 0
      (Blit2.init ⟨fun _ => 0xA0, 1, 2, 1, 0, 3, 5, 1, 3⟩ (fun _ => 0))).page_row_byte = 320 ∧
    (Blit2.rows ⟨fun _ => 0xA0, 1, 2, 1, 0, 3, 5, 1, 3⟩ 4 0
      (Blit2.init ⟨fun _ => 0xA0, 1, 2, 1, 0, 3, 5, 1, 3⟩ (fun _ => 0))).current_screen_byte
      = 8513 ∧
    (Blit16.rows ⟨fun _ => 0xA3, 1, 2, 0, 3, 5, 1, 3, 0, fun _ => 0⟩ 4 0
      (Blit16.init ⟨fun _ => 0xA3, 1, 2, 0, 3, 5, 1, 3, 0, fun _ => 0⟩
        (fun _ => 0))).current_screen_byte = 8513 := by
  have h := row_addressing ⟨fun _ => 0xA0, 1, 2, 1, 0, 3, 5, 1, 3⟩
    ⟨fun _ => 0xA3, 1, 2, 0, 3, 5, 1, 3, 0, fun _ => 0⟩ (fun _ => 0) 4
  have h2 := h.1 (by decide) (by decide) (by decide) (by decide) (by decide)
  have h16 := h.2 (by decide) (by decide) (by decide) (by decide) (by decide)
  have e2 := h2.2.2.2.1 (by decide)
  have e16 := h16.2.2.2.1 (by decide)
  exact ⟨h2.1, e2.1, e2.2, e16.2⟩

/-- C14, evaluation at failing inputs.  `draw2ColorBitmap`: with `width_bytes = 2`,
`x_scale = 4096`, `x_pixel = 10` the product `2 * 8 * 4096 = 65536` is stored as 0,
not `min 65536 (320 - 10) = 310`; with `width_bytes = 1`, `x_scale = 8180`,
`x_pixel = 100` the sum `100 + 65440` wraps to 4, the width stays 65440 and
`x_pixel + width_pixels` is above 320; with `height_bytes = 3`, `y_scale = 21846`,
`y_pixel = 0` the product 65538 is stored as 2, not `min 65538 200 = 200`; with
`height_bytes = 1`, `y_scale = 65500`, `y_pixel = 100` the sum wraps to 64, the height
stays 65500 and `y_pixel + height_pixels` is above 200.  `draw16ColorBitmap`: with
`width_bytes = 2`, `x_scale = 16384`, `x_pixel = 10` the product `2 * 2 * 16384` is
stored as 0, not 310. -/
theorem clamping_fails_on_wrap :
    Args2.width_pixels ⟨fun _ => 0, 2, 1, 1, 0, 10, 0, 4096, 1⟩ = 0 ∧
    min (2 * 8 * 4096) (320 - 10) = 310 ∧
    Args2.width_pixels ⟨fun _ => 0, 1, 1, 1, 0, 100, 0, 8180, 1⟩ = 65440 ∧
    min (1 * 8 * 8180) (320 - 100) = 220 ∧
    Args2.height_pixels ⟨fun _ => 0, 1, 3, 1, 0, 0, 0, 1, 21846⟩ = 2 ∧
    min (3 * 21846) (200 - 0) = 200 ∧
    Args2.height_pixels ⟨fun _ => 0, 1, 1, 1, 0, 0, 100, 1, 65500⟩ = 65500 ∧
    min (1 * 65500) (200 - 100) = 100 ∧
    Args16.width_pixels ⟨fun _ => 0, 2, 1, 0, 10, 0, 16384, 1, 0, fun _ => 0⟩ = 0 ∧
    min (2 * 2 * 16384) (320 - 10) = 310 := by
  decide

/-- C15, evaluation at a failing input. `draw16ColorBitmap` of the one byte bitmap
`0x01` with blank colour 0 at `(6, 0)` with `x_scale = 32765` and `invert_x = 1` on a
surface filled with colour 9: pixel `(6, 0)` of the clamped rectangle (columns 6 to
319 of row 0) is to show source nibble `2 * 1 - 1 - 0 div 32765 = 1` of row 0, the
low nibble of the row's last byte, which is 1.  In the code `x_pixel + width_pixels
= 6 + 65530` wraps to 0, the width stays 65530, read as the `short` `-6` the pixel
loop is not entered, and the pixel keeps colour 9. -/
theorem multilevel_mirrored_source_fails_on_wrap :
    Args16.width_pixels ⟨fun _ => 0x01, 1, 1, 0, 6, 0, 32765, 1, 1, fun _ => 0⟩ = 65530 ∧
    sourceNibble (fun _ => 0x01) 1 (0 / 1) (2 * 1 - 1 - 0 / 32765) = 1 ∧
    pixel (draw16ColorBitmap (fun _ => 0) (fun _ => 0x99) (fun _ => 0x01) 1 1 0
      6 0 32765 1 1) 6 0 = 9 := by
  decide

/-- C16, evaluation at failing inputs. `draw2ColorBitmap` of a bitmap of one byte
(`width_bytes = height_bytes = 1`, both scales 1) reads bitmap index 1, one past
the end of the array.  At the even origin `(0, 0)` the indices read are, newest
first, `1, 1, 0, ...`: the bit advance after the eighth pixel steps `bitmap_byte` to
index 1 and reads it, and the end of the row sets `bitmap_byte` to
`bitmap_byte_start_of_row + width_bytes` and reads it again.  At the odd origin
`(1, 0)` the row ends in the single remaining pixel, whose bit advance is skipped
on the last row, and the end of the row still reads index 1. -/
theorem bilevel_reads_past_the_bitmap :
    (Blit2.run ⟨fun _ => 0xA0, 1, 1, 1, 0, 0, 0, 1, 1⟩ (fun _ => 0)).reads
      = [1, 1, 0, 0, 0, 0, 0, 0, 0, 0] ∧
    (Blit2.run ⟨fun _ => 0xA0, 1, 1, 1, 0, 1, 0, 1, 1⟩ (fun _ => 0)).reads
      = [1, 0, 0, 0, 0, 0, 0, 0, 0] := by
  decide

/-- C20, evaluation at a failing input. `draw2ColorBitmap` with `width_bytes = 0` at
the odd origin `(1, 0)`, one row, colour 1 and blank colour 0, on a surface filled
with colour 9: `width_pixels` is 0, but for an odd `x_pixel` the row starts with the
single right-hand pixel, drawn without a test of `x_pixels_remaining`.  The byte at
offset 0 changes from `0x99` to `0x90` when bit 7 of the byte at the bitmap pointer
is clear and to `0x91` when it is set. -/
theorem bilevel_empty_draw_writes_at_odd_x :
    Args2.width_pixels ⟨fun _ => 0x00, 0, 1, 1, 0, 1, 0, 1, 1⟩ = 0 ∧
    peek (fun _ => 0x99) 0 = 0x99 ∧
    peek (draw2ColorBitmap (fun _ => 0x99) (fun _ => 0x00) 0 1 1 0 1 0 1 1) 0 = 0x90 ∧
    peek (draw2ColorBitmap (fun _ => 0x99) (fun _ => 0xFF) 0 1 1 0 1 0 1 1) 0 = 0x91 := by
  decide

/-! ## The checksum loop of `crc.cpp` -/

theorem crcLoop_succ (d : Nat → Nat) (fuel : Nat) (s : CrcState) :
    crcLoop d (fuel + 1) s =
      if s.bx > 0 then
        crcLoop d fuel { crcStep d s with bx := ((crcStep d s).bx + 65535) % 65536 }
      else s := rfl

theorem crcLoop8086_succ (d : Nat → Nat) (fuel : Nat) (s : CrcState) :
    crcLoop8086 d (fuel + 1) s =
      if s.bx > 0 then
        crcLoop8086 d fuel { crcStep8086 d s with bx := ((crcStep8086 d s).bx + 65535) % 65536 }
      else s := rfl

/-- The checksum loop reads `bx` bytes, at the indices from `si` upwards in order. -/
theorem crcLoop_reads (d : Nat → Nat) :
    ∀ (fuel : Nat) (s : CrcState), s.bx ≤ fuel → s.bx < 65536 → s.si + s.bx < 2 ^ 32 →
      (crcLoop d fuel s).reads = (List.range' s.si s.bx).reverse ++ s.reads := by
  intro fuel
  induction fuel with
  | zero =>
    intro s h _ _
    have h0 : s.bx = 0 := by omega
    rw [h0]
    rfl
  | succ fuel ih =>
    intro s h1 h2 h3
    rw [crcLoop_succ]
    by_cases hb : s.bx > 0
    · rw [if_pos hb, ih _ (by show (s.bx + 65535) % 65536 ≤ fuel; omega)
        (by show (s.bx + 65535) % 65536 < 65536; omega)
        (by show (s.si + 1) % 2 ^ 32 + (s.bx + 65535) % 65536 < 2 ^ 32; omega)]
      show (List.range' ((s.si + 1) % 2 ^ 32) ((s.bx + 65535) % 65536)).reverse
        ++ (s.si :: s.reads) = _
      have e1 : (s.si + 1) % 2 ^ 32 = s.si + 1 := by omega
      have e2 : (s.bx + 65535) % 65536 = s.bx - 1 := by omega
      have e3 : s.bx = (s.bx - 1) + 1 := by omega
      rw [e1, e2]
      conv => rhs; rw [e3, List.range'_succ, List.reverse_cons, List.append_assoc]
      rfl
    · have h0 : s.bx = 0 := by omega
      rw [if_neg hb, h0]
      rfl

theorem crcArgs_cx_lt (a : CrcArgs) : a.cx < 65536 := by
  unfold CrcArgs.cx
  simp only
  split <;> split <;> omega

theorem crcMain_eq (a : CrcArgs) : crcMain a = crcLoop a.cartridge_data a.cx (crcInit a) := rfl

theorem crcMain8086_eq (a : CrcArgs) :
    crcMain8086 a = crcLoop8086 a.cartridge_data a.cx (crcInit a) := rfl

/-- The indices of `cartridge_data` that the checksum loop of `main` reads: `cx`
of them, in order, from index 0, or from index 512 under `/jrc`. -/
theorem crcMain_reads (a : CrcArgs) :
    (crcMain a).reads =
      (List.range' (if a.jrc_file then 512 else 0) a.cx).reverse := by
  have hlt := crcArgs_cx_lt a
  have hsi : (crcInit a).si = if a.jrc_file then 512 else 0 := by
    show (if !a.jrc_file then 0 else jrc_header_size) = _
    cases a.jrc_file <;> rfl
  have hsi2 : (crcInit a).si ≤ 512 := by rw [hsi]; split <;> omega
  rw [crcMain_eq, crcLoop_reads a.cartridge_data a.cx (crcInit a) (le_refl _) hlt
    (by show (crcInit a).si + a.cx < 2 ^ 32; omega), hsi]
  show _ ++ [] = _
  rw [List.append_nil]
  rfl

set_option maxRecDepth 1000000 in
/-- The values `AX` runs through in one pass of the loop, started from `AH = 0`:
every rotate of the comments moves the same bits as the shift of the source, and
`AH` is 0 again at the end. -/
theorem crc_ax_chain : ∀ v, v < 256 →
    rol16 v 4 = (v <<< 4) % 65536 ∧
    rol16 ((v <<< 4) % 65536) 1 = (((v <<< 4) % 65536) <<< 1) % 65536 ∧
    ror16 ((((v <<< 4) % 65536) <<< 1) % 65536) 4 =
      ((((v <<< 4) % 65536) <<< 1) % 65536) >>> 4 ∧
    ror16 (Register.set_l (((((v <<< 4) % 65536) <<< 1) % 65536) >>> 4)
        (Register.l (((((v <<< 4) % 65536) <<< 1) % 65536) >>> 4) &&& 0xE0)) 1 =
      (Register.set_l (((((v <<< 4) % 65536) <<< 1) % 65536) >>> 4)
        (Register.l (((((v <<< 4) % 65536) <<< 1) % 65536) >>> 4) &&& 0xE0)) >>> 1 ∧
    (Register.set_l (((((v <<< 4) % 65536) <<< 1) % 65536) >>> 4)
        (Register.l (((((v <<< 4) % 65536) <<< 1) % 65536) >>> 4) &&& 0xE0)) >>> 1 < 256 := by
  decide

/-- With `AH = 0` the byte moved into `AL` is the whole of `AX`. -/
theorem crc_ax_load (ax b w : Nat) (h : ax < 256) :
    Register.set_l (Register.set_l ax b) w = w % 256 := by
  unfold Register.set_l Register.h
  omega

/-- One pass of the loop entered with `AH = 0`: the instructions of the comments
give the state that the C++ statements give, and `AH` is 0 after it. -/
theorem crcStep8086_eq (d : Nat → Nat) (s : CrcState) (h : s.ax < 256) :
    crcStep8086 d s = crcStep d s ∧ (crcStep d s).ax < 256 := by
  unfold crcStep8086 crcStep
  simp only []
  rw [crc_ax_load _ _ _ h]
  have hv : Register.h (Register.set_h s.dx
      (Register.h s.dx ^^^ Register.l (Register.set_l s.ax (d s.si)))) % 256 < 256 :=
    Nat.mod_lt _ (by decide)
  generalize Register.h (Register.set_h s.dx
      (Register.h s.dx ^^^ Register.l (Register.set_l s.ax (d s.si)))) % 256 = v at hv
  obtain ⟨c1, c2, c3, c4, c5⟩ := crc_ax_chain v hv
  rw [c1, c2, c3, c4]
  exact ⟨rfl, c5⟩

/-- The loop entered with `AH = 0`, after any number of passes. -/
theorem crcLoop8086_eq (d : Nat → Nat) :
    ∀ (fuel : Nat) (s : CrcState), s.ax < 256 →
      crcLoop8086 d fuel s = crcLoop d fuel s ∧ (crcLoop d fuel s).ax < 256 := by
  intro fuel
  induction fuel with
  | zero => intro s h; exact ⟨rfl, h⟩
  | succ fuel ih =>
    intro s h
    rw [crcLoop_succ, crcLoop8086_succ]
    by_cases hb : s.bx > 0
    · rw [if_pos hb, if_pos hb, (crcStep8086_eq d s h).1]
      exact ih _ (crcStep8086_eq d s h).2
    · rw [if_neg hb, if_neg hb]
      exact ⟨rfl, h⟩

theorem crcInit_ax (a : CrcArgs) : (crcInit a).ax < 256 := by
  show Register.set_h (a.al_indeterminate % 256) 0 < 256
  unfold Register.set_h Register.l
  omega

namespace Wait

theorem doWhile_succ (clock : Nat → Nat) (fuel : Nat) (s : Wait) :
    doWhile clock (fuel + 1) s =
      if (pollBody clock s).number_of_ticks_remaining > 0 then
        doWhile clock fuel (pollBody clock s)
      else some (pollBody clock s) := rfl

/-- A poll that shows a new reading counts one tick down. -/
theorem pollBody_of_change (clock : Nat → Nat) (s : Wait)
    (h : clock s.polls % 65536 ≠ s.past_clock_tick) :
    pollBody clock s =
      { dx := clock s.polls % 65536, past_clock_tick := clock s.polls % 65536,
        number_of_ticks_remaining := (s.number_of_ticks_remaining + 65535) % 65536,
        polls := s.polls + 1 } := by
  unfold pollBody int86
  simp only
  rw [if_pos h]

/-- On a clock whose every reading differs from the one before, the loop entered
with `r` ticks remaining, `1 ≤ r`, polls exactly `r` times more. -/
theorem doWhile_of_changes (clock : Nat → Nat)
    (hclock : ∀ k, clock (k + 1) % 65536 ≠ clock k % 65536) :
    ∀ (r fuel k d : Nat), 1 ≤ r → r < 65536 → r ≤ fuel →
      doWhile clock fuel
          { dx := d, past_clock_tick := clock k % 65536,
            number_of_ticks_remaining := r, polls := k + 1 } =
        some
          { dx := clock (k + r) % 65536, past_clock_tick := clock (k + r) % 65536,
            number_of_ticks_remaining := 0, polls := k + r + 1 } := by
  intro r
  induction r with
  | zero => intro fuel k d h; omega
  | succ r ih =>
    intro fuel k d _ h2 h3
    obtain ⟨fuel, rfl⟩ : ∃ f, fuel = f + 1 := ⟨fuel - 1, by omega⟩
    rw [doWhile_succ, pollBody_of_change clock _ (hclock k)]
    dsimp only
    have e : (r + 1 + 65535) % 65536 = r := by omega
    rw [e]
    by_cases hr : r = 0
    · subst hr
      rw [if_neg (by decide)]
    · rw [if_pos (by omega), ih fuel (k + 1) _ (by omega) (by omega) (by omega)]
      rw [show k + 1 + r = k + (r + 1) by omega]

/-- The loop entered with no tick remaining polls all the same; when the poll
shows a new reading the unsigned counter goes from 0 to 65535, and on a clock
whose every reading differs from the one before the loop ends after 65536 polls. -/
theorem doWhile_of_zero (clock : Nat → Nat)
    (hclock : ∀ k, clock (k + 1) % 65536 ≠ clock k % 65536) (fuel k d : Nat)
    (hfuel : 65535 ≤ fuel) :
    doWhile clock (fuel + 1)
        { dx := d, past_clock_tick := clock k % 65536,
          number_of_ticks_remaining := 0, polls := k + 1 } =
      some
        { dx := clock (k + 65536) % 65536, past_clock_tick := clock (k + 65536) % 65536,
          number_of_ticks_remaining := 0, polls := k + 65536 + 1 } := by
  rw [doWhile_succ, pollBody_of_change clock _ (hclock k)]
  dsimp only
  rw [if_pos (by decide)]
  have h := doWhile_of_changes clock hclock 65535 fuel (k + 1) (clock (k + 1) % 65536)
    (by decide) (by decide) hfuel
  have e : k + 1 + 65535 = k + 65536 := by omega
  rw [e] at h
  exact h

end Wait

/-- The branch of `waitClockTicks` taken when the first reading is below
`from_clock_tick`. -/
theorem waitClockTicks_of_lt (clock : Nat → Nat) (fuel n t : Nat)
    (h : clock 0 % 65536 < t % 65536) :
    waitClockTicks clock fuel n t =
      Wait.doWhile clock fuel
        { dx := clock 0 % 65536, past_clock_tick := clock 0 % 65536,
          number_of_ticks_remaining := (n % 65536 + 65535) % 65536, polls := 0 + 1 } := by
  unfold waitClockTicks Wait.int86
  simp only
  rw [if_neg (by omega)]

/-- C19, evaluation at a failing input. `waitClockTicks(1, 100)`, the call `main`
makes, on a clock that reads `5, 6, 7, ...`: the first reading is below
`from_clock_tick`, so one tick is taken to have passed and
`number_of_ticks_remaining` is `1 - 1 = 0`, the count requested is reached.  The
`do` loop polls nevertheless; its first pass sees the reading change from 5 to 6
and the decrement takes the unsigned counter from 0 to 65535.  The function
returns only after 65536 polls of the loop, 65537 in all, on the reading
`(5 + 65536) mod 65536 = 5`. -/
theorem waitClockTicks_overshoots :
    Wait.pollBody (fun k => 5 + k)
        { dx := 5, past_clock_tick := 5, number_of_ticks_remaining := 0, polls := 1 } =
      { dx := 6, past_clock_tick := 6, number_of_ticks_remaining := 65535, polls := 2 } ∧
    waitClockTicks (fun k => 5 + k) 65536 1 100 =
      some
        { dx := 5, past_clock_tick := 5, number_of_ticks_remaining := 0, polls := 65537 } := by
  have hclock : ∀ k, (fun k => 5 + k) (k + 1) % 65536 ≠ (fun k => 5 + k) k % 65536 := by
    intro k
    show (5 + (k + 1)) % 65536 ≠ (5 + k) % 65536
    omega
  refine ⟨rfl, ?_⟩
  rw [waitClockTicks_of_lt _ _ _ _ (by decide)]
  exact Wait.doWhile_of_zero (fun k => 5 + k) hclock 65535 0 _ (by decide)

/-! ## The byte range and the rotates of the checksum loop -/

/-- The byte range of the checksum loop for a file shorter than 65536 bytes that
holds the bytes the flags skip: the loop reads the indices from `s` up to `e`,
`e` excluded, in order, where `s` is 512 under `/jrc` and 0 otherwise and `e` is
`file_size - 2` under `/it` and `file_size` otherwise. -/
theorem crcMain_reads_of_fit (a : CrcArgs) (hn : a.file_size < 65536)
    (hfit : (if a.ignore_last_2_characters then 2 else 0) + (if a.jrc_file then 512 else 0)
      ≤ a.file_size) :
    (crcMain a).reads =
      (List.range' (if a.jrc_file then 512 else 0)
        ((if a.ignore_last_2_characters then a.file_size - 2 else a.file_size)
          - (if a.jrc_file then 512 else 0))).reverse := by
  rw [crcMain_reads]
  have e : a.cx = (if a.ignore_last_2_characters then a.file_size - 2 else a.file_size)
      - (if a.jrc_file then 512 else 0) := by
    obtain ⟨it, jrc, n, d, al⟩ := a
    unfold CrcArgs.cx CrcArgs.number_of_bytes jrc_header_size
    dsimp only at hn hfit ⊢
    cases it <;> cases jrc <;> simp at hfit ⊢ <;> omega
  rw [e]

/-- C17, evaluation at failing inputs, for any contents of memory.  A file of one
byte with `/it`: `cx.x = 1 - 2` wraps to 65535 and the loop reads the indices 0 to
65534, index 1 and all after it past the end of the one byte array.  A file of
65536 bytes with no flag: `cx.x = number_of_bytes` keeps the low 16 bits, 0, the
loop reads no byte and the CRC printed is the initial `0xFFFF`.  A file of 100
bytes with `/jrc`: `cx.x = 100 - 512` wraps to 65124 and the loop reads the indices
from 512 on, all past the end of the array. -/
theorem crc_byte_range_fails (cartridge_data : Nat → Nat) (al : Nat) :
    (crcMain ⟨true, false, 1, cartridge_data, al⟩).reads = (List.range' 0 65535).reverse ∧
    1 ∈ (crcMain ⟨true, false, 1, cartridge_data, al⟩).reads ∧
    (crcMain ⟨false, false, 65536, cartridge_data, al⟩).reads = [] ∧
    (crcMain ⟨false, false, 65536, cartridge_data, al⟩).dx = 0xFFFF ∧
    (crcMain ⟨false, true, 100, cartridge_data, al⟩).reads
      = (List.range' 512 65124).reverse := by
  have c1 : CrcArgs.cx ⟨true, false, 1, cartridge_data, al⟩ = 65535 := by
    unfold CrcArgs.cx CrcArgs.number_of_bytes jrc_header_size
    dsimp only
    decide
  have c2 : CrcArgs.cx ⟨false, false, 65536, cartridge_data, al⟩ = 0 := by
    unfold CrcArgs.cx CrcArgs.number_of_bytes jrc_header_size
    dsimp only
    decide
  have c3 : CrcArgs.cx ⟨false, true, 100, cartridge_data, al⟩ = 65124 := by
    unfold CrcArgs.cx CrcArgs.number_of_bytes jrc_header_size
    dsimp only
    decide
  have h1 : (crcMain ⟨true, false, 1, cartridge_data, al⟩).reads
      = (List.range' 0 65535).reverse := by
    rw [crcMain_reads, c1]
    dsimp only
    rw [if_neg (by decide)]
  refine ⟨h1, ?_, ?_, ?_, ?_⟩
  · rw [h1, List.mem_reverse, List.mem_range'_1]
    omega
  · rw [crcMain_reads, c2]
    rfl
  · rw [crcMain_eq, c2]
    rfl
  · rw [crcMain_reads, c3]
    dsimp only
    rw [if_pos rfl]

/-- C18. The shifts of the checksum loop are the rotates of its comments: from the
state in front of the loop (`AH = 0`, `DX = 0xFFFF`, any `AL`), for every memory
content and every number `k` of passes, the loop written with `<< 4`, `<< 1`,
`>> 4`, `>> 1` and the loop written with `ROL AX,4`, `ROL AX,1`, `ROR AX,4`,
`ROR AX,1` are in the same state, `DX` included; `AH` is 0 at the start of every
pass; and the two versions of the whole computation print the same CRC. -/
theorem crc_shifts_are_rotates (a : CrcArgs) (k : Nat) :
    crcLoop8086 a.cartridge_data k (crcInit a) = crcLoop a.cartridge_data k (crcInit a) ∧
    (crcLoop8086 a.cartridge_data k (crcInit a)).dx
      = (crcLoop a.cartridge_data k (crcInit a)).dx ∧
    Register.h (crcLoop a.cartridge_data k (crcInit a)).ax = 0 ∧
    (crcMain8086 a).dx = (crcMain a).dx := by
  have h := crcLoop8086_eq a.cartridge_data k (crcInit a) (crcInit_ax a)
  refine ⟨h.1, by rw [h.1], ?_, ?_⟩
  · have := h.2
    unfold Register.h
    omega
  · rw [crcMain8086_eq, crcMain_eq,
      (crcLoop8086_eq a.cartridge_data a.cx (crcInit a) (crcInit_ax a)).1]

/-- The nibbles of the expanded bitmap. -/
theorem sourceNibble_expandBitmap (bitmap : Bitmap) (width_bytes color j i : Nat)
    (hc : color ≤ 15) (hi : i < 8 * width_bytes) :
    sourceNibble (expandBitmap bitmap width_bytes color) (4 * width_bytes) j i =
      if sourceBit bitmap width_bytes j i = 1 then color else 0 := by
  have hw : 0 < 4 * width_bytes := by omega
  have hq : (j * (4 * width_bytes) + i / 2) / (4 * width_bytes) = j := by
    rw [Nat.mul_comm j, Nat.mul_add_div hw, Nat.div_eq_of_lt (by omega), Nat.add_zero]
  have hr : (j * (4 * width_bytes) + i / 2) % (4 * width_bytes) = i / 2 := by
    rw [Nat.mul_comm j, Nat.mul_add_mod, Nat.mod_eq_of_lt (by omega)]
  unfold sourceNibble bitmapAt expandBitmap
  simp only [Int.toNat_ofNat, hq, hr]
  have ha : (if sourceBit bitmap width_bytes j (2 * (i / 2)) = 1 then color else 0) ≤ 15 := by
    split <;> omega
  have hb : (if sourceBit bitmap width_bytes j (2 * (i / 2) + 1) = 1 then color else 0)
      ≤ 15 := by
    split <;> omega
  by_cases hev : i % 2 = 0
  · rw [if_pos hev, show 2 * (i / 2) = i by omega] at *
    omega
  · rw [if_neg hev, show 2 * (i / 2) + 1 = i by omega] at *
    omega

/-- When the sizes do not wrap in 16 bits `draw2ColorBitmap` and `draw16ColorBitmap`
of the expanded bitmap leave the same pixels on the screen. -/
theorem draw2_eq_draw16_no_wrap (junk : Nat → Nat) (m : Mem) (bitmap : Bitmap)
    (wb hb color blank x y xs ys : Nat)
    (hwb : 1 ≤ wb) (hhb : 1 ≤ hb)
    (hc1 : 1 ≤ color) (hc : color ≤ 15) (hbl : blank ≤ 15 ∨ blank = NO_COLOR)
    (hxs : 1 ≤ xs) (hys : 1 ≤ ys) (hx : x < 320) (hy : y < 200)
    (hW : 8 * wb * xs + 320 ≤ 65536) (hH : hb * ys + 200 ≤ 65536)
    (px py : Nat) (hpx : px < 320) (hpy : py < 200) :
    pixel (draw2ColorBitmap m bitmap wb hb color blank x y xs ys) px py =
      pixel (draw16ColorBitmap junk m (expandBitmap bitmap wb color) (4 * wb) hb blank
        x y xs ys 0) px py := by
  have e : 2 * (4 * wb) * xs = 8 * wb * xs := by ring
  rw [draw2_no_wrap m bitmap wb hb color blank x y xs ys hwb hhb hc hbl hxs hys hx hy hW hH
      px py hpx hpy,
    draw16_no_wrap junk m (expandBitmap bitmap wb color) (4 * wb) hb blank x y xs ys 0
      (by omega) hhb hbl hxs hys hx hy (by omega) hH px py hpx hpy, e, if_pos rfl]
  by_cases hin : x ≤ px ∧ px - x < 8 * wb * xs ∧ y ≤ py ∧ py - y < hb * ys
  · rw [if_pos hin, if_pos hin]
    have hi : (px - x) / xs < 8 * wb :=
      (Nat.div_lt_iff_lt_mul (by omega)).mpr hin.2.1
    rw [sourceNibble_expandBitmap bitmap wb color _ _ hc hi]
    generalize sourceBit bitmap wb ((py - y) / ys) ((px - x) / xs) = bit
    by_cases hbit : bit = 1
    · subst hbit
      rw [if_pos rfl, if_pos rfl, if_pos (by omega)]
    · rw [if_neg hbit, if_neg hbit, if_neg (show ¬ ((0 : Nat) ≠ 0) from fun h => h rfl)]
  · rw [if_neg hin, if_neg hin]

/-- When the sizes do not wrap in 16 bits a second `draw2ColorBitmap` with the same
arguments changes no pixel of the screen. -/
theorem draw2_twice_no_wrap (m : Mem) (bitmap : Bitmap)
    (wb hb color blank x y xs ys : Nat)
    (hwb : 1 ≤ wb) (hhb : 1 ≤ hb)
    (hc : color ≤ 15) (hbl : blank ≤ 15 ∨ blank = NO_COLOR)
    (hxs : 1 ≤ xs) (hys : 1 ≤ ys) (hx : x < 320) (hy : y < 200)
    (hW : 8 * wb * xs + 320 ≤ 65536) (hH : hb * ys + 200 ≤ 65536)
    (px py : Nat) (hpx : px < 320) (hpy : py < 200) :
    pixel (draw2ColorBitmap (draw2ColorBitmap m bitmap wb hb color blank x y xs ys)
        bitmap wb hb color blank x y xs ys) px py =
      pixel (draw2ColorBitmap m bitmap wb hb color blank x y xs ys) px py := by
  have hP := draw2_no_wrap m bitmap wb hb color blank x y xs ys hwb hhb hc hbl hxs hys hx hy
    hW hH px py hpx hpy
  rw [draw2_no_wrap (draw2ColorBitmap m bitmap wb hb color blank x y xs ys) bitmap wb hb
    color blank x y xs ys hwb hhb hc hbl hxs hys hx hy hW hH px py hpx hpy]
  generalize pixel (draw2ColorBitmap m bitmap wb hb color blank x y xs ys) px py = P at hP ⊢
  split_ifs at hP ⊢ <;> first | rfl | exact hP.symm

/-- When the sizes do not wrap in 16 bits a second `draw16ColorBitmap` with the same
arguments changes no pixel of the screen, whatever the uninitialised `screen_byte`
holds in either call. -/
theorem draw16_twice_no_wrap (junk1 junk2 : Nat → Nat) (m : Mem) (bitmap : Bitmap)
    (wb hb blank x y xs ys inv : Nat)
    (hwb : 1 ≤ wb) (hhb : 1 ≤ hb)
    (hbl : blank ≤ 15 ∨ blank = NO_COLOR)
    (hxs : 1 ≤ xs) (hys : 1 ≤ ys) (hx : x < 320) (hy : y < 200)
    (hW : 2 * wb * xs + 320 ≤ 65536) (hH : hb * ys + 200 ≤ 65536)
    (px py : Nat) (hpx : px < 320) (hpy : py < 200) :
    pixel (draw16ColorBitmap junk2
        (draw16ColorBitmap junk1 m bitmap wb hb blank x y xs ys inv)
        bitmap wb hb blank x y xs ys inv) px py =
      pixel (draw16ColorBitmap junk1 m bitmap wb hb blank x y xs ys inv) px py := by
  have hP := draw16_no_wrap junk1 m bitmap wb hb blank x y xs ys inv hwb hhb hbl hxs hys
    hx hy hW hH px py hpx hpy
  rw [draw16_no_wrap junk2 (draw16ColorBitmap junk1 m bitmap wb hb blank x y xs ys inv)
    bitmap wb hb blank x y xs ys inv hwb hhb hbl hxs hys hx hy hW hH px py hpx hpy]
  generalize pixel (draw16ColorBitmap junk1 m bitmap wb hb blank x y xs ys inv) px py = P
    at hP ⊢
  split_ifs at hP ⊢ <;> first | rfl | exact hP.symm

theorem xor_mod_two_pow (x y n : Nat) : (x ^^^ y) % 2 ^ n = x % 2 ^ n ^^^ y % 2 ^ n := by
  apply Nat.eq_of_testBit_eq
  intro i
  simp only [Nat.testBit_mod_two_pow, Nat.testBit_xor]
  cases decide (i < n) <;> simp

theorem xor_shiftRight (x y n : Nat) : (x ^^^ y) >>> n = (x >>> n) ^^^ (y >>> n) := by
  apply Nat.eq_of_testBit_eq
  intro i
  simp only [Nat.testBit_shiftRight, Nat.testBit_xor]

theorem xor_shiftLeft (x y n : Nat) : (x ^^^ y) <<< n = (x <<< n) ^^^ (y <<< n) := by
  apply Nat.eq_of_testBit_eq
  intro i
  simp only [Nat.testBit_shiftLeft, Nat.testBit_xor]
  cases decide (i ≥ n) <;> simp

namespace Register

theorem h_eq (x : Nat) : h x = (x >>> 8) % 2 ^ 8 := by
  unfold h
  rw [Nat.shiftRight_eq_div_pow]
  rfl

theorem l_eq (x : Nat) : l x = x % 2 ^ 8 := rfl

theorem h_lt (x : Nat) : h x < 256 := Nat.mod_lt _ (by decide)

theorem l_lt (x : Nat) : l x < 256 := Nat.mod_lt _ (by decide)

theorem h_xor (x y : Nat) : h (x ^^^ y) = h x ^^^ h y := by
  rw [h_eq, h_eq, h_eq, xor_shiftRight, xor_mod_two_pow]

theorem l_xor (x y : Nat) : l (x ^^^ y) = l x ^^^ l y := by
  rw [l_eq, l_eq, l_eq, xor_mod_two_pow]

theorem h_set_h (x v : Nat) : h (set_h x v) = v % 256 := by
  unfold set_h h l
  omega

theorem l_set_h (x v : Nat) : l (set_h x v) = l x := by
  unfold set_h l
  omega

theorem h_set_l (x v : Nat) : h (set_l x v) = h x := by
  unfold set_l h
  omega

theorem l_set_l (x v : Nat) : l (set_l x v) = v % 256 := by
  unfold set_l l h
  omega

theorem h_mod (x : Nat) : h (x % 65536) = h x := by
  unfold h
  omega

theorem l_mod (x : Nat) : l (x % 65536) = l x := by
  unfold l
  omega

theorem h_shl8 (x : Nat) : h (x <<< 8) = l x := by
  unfold h l
  rw [Nat.shiftLeft_eq]
  omega

theorem l_shl8 (x : Nat) : l (x <<< 8) = 0 := by
  unfold l
  rw [Nat.shiftLeft_eq]
  omega

/-- A 16-bit value is its two bytes. -/
theorem eq_of_bytes {x y : Nat} (hx : x < 65536) (hy : y < 65536)
    (e1 : h x = h y) (e2 : l x = l y) : x = y := by
  unfold h l at *
  omega

theorem xor_byte_lt {a b : Nat} (ha : a < 256) (hb : b < 256) : a ^^^ b < 256 :=
  Nat.xor_lt_two_pow (n := 8) ha hb

theorem h_mod256 (x : Nat) : h x % 256 = h x := Nat.mod_eq_of_lt (h_lt x)

theorem l_mod256 (x : Nat) : l x % 256 = l x := Nat.mod_eq_of_lt (l_lt x)

theorem xor_mod256 (a b : Nat) : (a ^^^ b) % 256 = a % 256 ^^^ b % 256 :=
  xor_mod_two_pow a b 8

theorem h_bytes {v dl : Nat} (hv : v < 256) (hdl : dl < 256) : h (v * 256 + dl) = v := by
  unfold h
  omega

theorem l_bytes {v dl : Nat} (hdl : dl < 256) : l (v * 256 + dl) = dl := by
  unfold l
  omega

end Register

/-- The low byte of `dx` passes through `crcDx` into the high byte of the result. -/
theorem crcDx_bytes (v dx : Nat) :
    Register.h (crcDx v dx) = Register.l dx ^^^ Register.h (crcDx v 0) ∧
    Register.l (crcDx v dx) = Register.h dx ^^^ Register.l (crcDx v 0) := by
  unfold crcDx
  simp only [Register.h_set_h, Register.l_set_h, Register.h_set_l, Register.l_set_l,
    Register.h_xor, Register.l_xor, Register.xor_mod256, Register.h_mod256, Register.l_mod256]
  have h0 : Register.h 0 = 0 := rfl
  have l0 : Register.l 0 = 0 := rfl
  rw [h0, l0]
  simp only [Nat.zero_xor]
  constructor <;> ac_rfl

theorem Register.set_h_lt (x v : Nat) : Register.set_h x v < 65536 := by
  unfold Register.set_h Register.l
  omega

theorem crcDx_lt (v dx : Nat) : crcDx v dx < 65536 := by
  unfold crcDx
  exact Register.set_h_lt _ _

set_option maxRecDepth 1000000 in
/-- The table of the checksum loop is the table of the closed form. -/
theorem crcDx_table : ∀ v, v < 256 → crcDx v (v * 256) = crcTerm v := by
  decide

/-- One pass of the checksum loop from the statement `ax.x = ax.x << 4` on, in
closed form. -/
theorem crcDx_eq {v dl : Nat} (hv : v < 256) (hdl : dl < 256) :
    crcDx v (v * 256 + dl) = (dl <<< 8) ^^^ crcTerm v := by
  have ht := crcDx_table v hv
  have hlt : crcTerm v < 65536 := Nat.mod_lt _ (by decide)
  have hsh : dl <<< 8 < 65536 := by rw [Nat.shiftLeft_eq]; omega
  obtain ⟨a1, a2⟩ := crcDx_bytes v (v * 256 + dl)
  obtain ⟨b1, b2⟩ := crcDx_bytes v (v * 256)
  have l0 : Register.l (v * 256) = 0 := by unfold Register.l; omega
  have h0 : Register.h (v * 256) = v := by unfold Register.h; omega
  have ld : Register.l dl = dl := by unfold Register.l; omega
  rw [Register.l_bytes hdl] at a1
  rw [Register.h_bytes hv hdl] at a2
  rw [l0, ht, Nat.zero_xor] at b1
  rw [h0, ht] at b2
  apply Register.eq_of_bytes (crcDx_lt _ _) (Nat.xor_lt_two_pow (n := 16) hsh hlt)
  · rw [a1, Register.h_xor, Register.h_shl8, ld, b1]
  · rw [a2, Register.l_xor, Register.l_shl8, Nat.zero_xor, b2]

/-- One pass of the checksum loop entered with `AH = 0` is `crcDx` on the byte
`DH xor AL` and the register with that byte as its high byte. -/
theorem crcStep_dx_eq (d : Nat → Nat) (s : CrcState) (hax : s.ax < 256) :
    (crcStep d s).dx =
      crcDx (Register.h s.dx ^^^ d s.si % 256)
        ((Register.h s.dx ^^^ d s.si % 256) * 256 + Register.l s.dx) := by
  have hv : Register.h s.dx ^^^ d s.si % 256 < 256 :=
    Register.xor_byte_lt (Register.h_lt _) (Nat.mod_lt _ (by decide))
  have e0 : Register.l (Register.set_l s.ax (d s.si)) = d s.si % 256 :=
    Register.l_set_l _ _
  have e1 : Register.set_h s.dx (Register.h s.dx ^^^ Register.l (Register.set_l s.ax (d s.si)))
      = (Register.h s.dx ^^^ d s.si % 256) * 256 + Register.l s.dx := by
    rw [e0]
    unfold Register.set_h
    rw [Nat.mod_eq_of_lt hv]
  have e2 : Register.h ((Register.h s.dx ^^^ d s.si % 256) * 256 + Register.l s.dx) % 256
      = Register.h s.dx ^^^ d s.si % 256 := by
    rw [Register.h_bytes hv (Register.l_lt _), Nat.mod_eq_of_lt hv]
  unfold crcStep
  simp only []
  rw [crc_ax_load _ _ _ hax, e1, e2]
  rfl

/-- The closed form of the update, split into the part of the low byte of the
register and the part of the byte `v = (crc >> 8) xor d`. -/
theorem crc16_ccitt_update_eq {crc : Nat} (d : Nat) (hcrc : crc < 65536) :
    crc16_ccitt_update crc d = (Register.l crc <<< 8) ^^^ crcTerm (Register.h crc ^^^ d) := by
  have hs : crc >>> 8 = Register.h crc := by
    rw [Nat.shiftRight_eq_div_pow]
    unfold Register.h
    omega
  have e : (crc <<< 8) % 65536 = Register.l crc <<< 8 := by
    rw [Nat.shiftLeft_eq, Nat.shiftLeft_eq]
    unfold Register.l
    omega
  unfold crc16_ccitt_update crcTerm
  simp only []
  rw [hs, Nat.xor_assoc, Nat.xor_assoc, show (65536 : Nat) = 2 ^ 16 from rfl,
    xor_mod_two_pow, ← show (65536 : Nat) = 2 ^ 16 from rfl, e]

/-- The update of `dx` in one pass of the checksum loop entered with `AH = 0` is
the closed form of the CRC-16/CCITT update. -/
theorem crcStep_dx (d : Nat → Nat) (s : CrcState) (hax : s.ax < 256) (hdx : s.dx < 65536) :
    (crcStep d s).dx = crc16_ccitt_update s.dx (d s.si % 256) := by
  have hv : Register.h s.dx ^^^ d s.si % 256 < 256 :=
    Register.xor_byte_lt (Register.h_lt _) (Nat.mod_lt _ (by decide))
  rw [crcStep_dx_eq d s hax, crcDx_eq hv (Register.l_lt _),
    crc16_ccitt_update_eq _ hdx]

theorem crc16_ccitt_update_lt (crc d : Nat) : crc16_ccitt_update crc d < 65536 :=
  Nat.mod_lt _ (by decide)

theorem crc16_ccitt_bit_lt (x : Nat) : crc16_ccitt_bit x < 65536 := by
  unfold crc16_ccitt_bit
  split <;> exact Nat.mod_lt _ (by decide)

/-- A bit step is linear in the bits that do not reach the top of the register. -/
theorem crc16_ccitt_bit_xor {x y : Nat} (hy : y < 32768) :
    crc16_ccitt_bit (x ^^^ y) = crc16_ccitt_bit x ^^^ (y <<< 1) := by
  have ht : (x ^^^ y).testBit 15 = x.testBit 15 := by
    rw [Nat.testBit_xor, Nat.testBit_lt_two_pow (show y < 2 ^ 15 from hy)]
    simp
  rw [Nat.testBit_to_div_mod, Nat.testBit_to_div_mod] at ht
  have hc : (x ^^^ y) / 32768 % 2 = 1 ↔ x / 32768 % 2 = 1 := by
    have := of_decide_eq_true (p := ((x ^^^ y) / 2 ^ 15 % 2 = 1 ↔ x / 2 ^ 15 % 2 = 1))
      (by rw [Bool.decide_iff_dist, ht]; simp)
    exact this
  have hy2 : (y <<< 1) % 2 ^ 16 = y <<< 1 := by
    rw [Nat.shiftLeft_eq]
    omega
  unfold crc16_ccitt_bit
  rw [show (65536 : Nat) = 2 ^ 16 from rfl]
  by_cases hx1 : x / 32768 % 2 = 1
  · rw [if_pos hx1, if_pos (hc.mpr hx1), xor_shiftLeft,
      show x <<< 1 ^^^ y <<< 1 ^^^ 4129 = (x <<< 1 ^^^ 4129) ^^^ y <<< 1 by ac_rfl,
      xor_mod_two_pow, hy2]
  · rw [if_neg hx1, if_neg (fun h => hx1 (hc.mp h)), xor_shiftLeft, xor_mod_two_pow, hy2]

/-- Eight bit steps on a register whose low byte is `dl`: the low byte moves up
by eight bits beside the result for the high byte alone. -/
theorem crc16_ccitt_bit8_xor (x dl : Nat) (hdl : dl < 256) :
    crc16_ccitt_bit (crc16_ccitt_bit (crc16_ccitt_bit (crc16_ccitt_bit (crc16_ccitt_bit
      (crc16_ccitt_bit (crc16_ccitt_bit (crc16_ccitt_bit (x ^^^ dl)))))))) =
    crc16_ccitt_bit (crc16_ccitt_bit (crc16_ccitt_bit (crc16_ccitt_bit (crc16_ccitt_bit
      (crc16_ccitt_bit (crc16_ccitt_bit (crc16_ccitt_bit x))))))) ^^^ (dl <<< 8) := by
  have b : ∀ k, k ≤ 7 → dl <<< k < 32768 := by
    intro k hk
    rw [Nat.shiftLeft_eq]
    have : 2 ^ k ≤ 2 ^ 7 := Nat.pow_le_pow_right (by decide) hk
    have h2 : dl * 2 ^ k ≤ 255 * 2 ^ 7 := Nat.mul_le_mul (by omega) this
    omega
  have s : ∀ k, (dl <<< k) <<< 1 = dl <<< (k + 1) := by
    intro k
    rw [← Nat.shiftLeft_add]
  have e0 : dl = dl <<< 0 := rfl
  rw [e0, crc16_ccitt_bit_xor (b 0 (by decide)), s, crc16_ccitt_bit_xor (b 1 (by decide)), s,
    crc16_ccitt_bit_xor (b 2 (by decide)), s, crc16_ccitt_bit_xor (b 3 (by decide)), s,
    crc16_ccitt_bit_xor (b 4 (by decide)), s, crc16_ccitt_bit_xor (b 5 (by decide)), s,
    crc16_ccitt_bit_xor (b 6 (by decide)), s, crc16_ccitt_bit_xor (b 7 (by decide)), s]
  rfl

set_option maxRecDepth 1000000 in
/-- Eight bit steps on the register `v * 256` give the table entry of the closed
form. -/
theorem crc16_ccitt_table : ∀ v, v < 256 →
    crc16_ccitt_bit (crc16_ccitt_bit (crc16_ccitt_bit (crc16_ccitt_bit (crc16_ccitt_bit
      (crc16_ccitt_bit (crc16_ccitt_bit (crc16_ccitt_bit (v * 256)))))))) = crcTerm v := by
  decide

/-- The bitwise CRC of one byte is the closed form of the update. -/
theorem crc16_ccitt_byte_eq {crc d : Nat} (hcrc : crc < 65536) (hd : d < 256) :
    crc16_ccitt_byte crc d = crc16_ccitt_update crc d := by
  have hv : Register.h crc ^^^ d < 256 := Register.xor_byte_lt (Register.h_lt _) hd
  have hdl := Register.l_lt crc
  have e : crc ^^^ (d <<< 8) = ((Register.h crc ^^^ d) * 256) ^^^ Register.l crc := by
    have hd8 : d <<< 8 < 65536 := by rw [Nat.shiftLeft_eq]; omega
    have hl : Register.l (Register.l crc) = Register.l crc := by unfold Register.l; omega
    have hh : Register.h (Register.l crc) = 0 := by unfold Register.h Register.l; omega
    have hld : Register.l d = d := by unfold Register.l; omega
    have h1 : Register.h ((Register.h crc ^^^ d) * 256) = Register.h crc ^^^ d := by
      unfold Register.h at hv ⊢; omega
    have h2 : Register.l ((Register.h crc ^^^ d) * 256) = 0 := by unfold Register.l; omega
    apply Register.eq_of_bytes (Nat.xor_lt_two_pow (n := 16) hcrc hd8)
      (Nat.xor_lt_two_pow (n := 16) (show (Register.h crc ^^^ d) * 256 < 2 ^ 16 by omega)
        (show Register.l crc < 2 ^ 16 by omega))
    · rw [Register.h_xor, Register.h_xor, Register.h_shl8, hld, h1, hh, Nat.xor_zero]
    · rw [Register.l_xor, Register.l_xor, Register.l_shl8, h2, hl, Nat.xor_zero, Nat.zero_xor]
  unfold crc16_ccitt_byte
  rw [e, crc16_ccitt_bit8_xor _ _ hdl, crc16_ccitt_table _ hv, crc16_ccitt_update_eq _ hcrc,
    Nat.xor_comm]

/-! ## The checksum of a byte sequence -/

theorem crcStep_ax_lt (d : Nat → Nat) (s : CrcState) (h : s.ax < 256) :
    (crcStep d s).ax < 256 := (crcStep8086_eq d s h).2

/-- The checksum loop folds the closed form of the update over the bytes it
reads. -/
theorem crcLoop_dx (d : Nat → Nat) :
    ∀ (fuel : Nat) (s : CrcState), s.bx ≤ fuel → s.bx < 65536 → s.si + s.bx < 2 ^ 32 →
      s.ax < 256 → s.dx < 65536 →
      (crcLoop d fuel s).dx =
        ((List.range' s.si s.bx).map (fun i => d i % 256)).foldl crc16_ccitt_update s.dx := by
  intro fuel
  induction fuel with
  | zero =>
    intro s h _ _ _ _
    have h0 : s.bx = 0 := by omega
    rw [h0]
    rfl
  | succ fuel ih =>
    intro s h1 h2 h3 h4 h5
    rw [crcLoop_succ]
    by_cases hb : s.bx > 0
    · have e1 : (s.si + 1) % 2 ^ 32 = s.si + 1 := by omega
      have e2 : (s.bx + 65535) % 65536 = s.bx - 1 := by omega
      have e3 : s.bx = (s.bx - 1) + 1 := by omega
      have hdx := crcStep_dx d s h4 h5
      rw [if_pos hb, ih _ (by show (s.bx + 65535) % 65536 ≤ fuel; omega)
        (by show (s.bx + 65535) % 65536 < 65536; omega)
        (by show (s.si + 1) % 2 ^ 32 + (s.bx + 65535) % 65536 < 2 ^ 32; omega)
        (by exact crcStep_ax_lt d s h4)
        (by show (crcStep d s).dx < 65536; rw [hdx]; exact crc16_ccitt_update_lt _ _)]
      show List.foldl crc16_ccitt_update (crcStep d s).dx
        (List.map (fun i => d i % 256)
          (List.range' ((s.si + 1) % 2 ^ 32) ((s.bx + 65535) % 65536))) = _
      rw [e1, e2, hdx]
      conv => rhs; rw [e3, List.range'_succ, List.map_cons, List.foldl_cons]
    · have h0 : s.bx = 0 := by omega
      rw [if_neg hb, h0]
      rfl

/-- On bytes, the fold of the bitwise CRC is the fold of the closed form. -/
theorem foldl_crc16_ccitt_byte :
    ∀ (bytes : List Nat) (crc : Nat), crc < 65536 → (∀ b ∈ bytes, b < 256) →
      bytes.foldl crc16_ccitt_byte crc = bytes.foldl crc16_ccitt_update crc := by
  intro bytes
  induction bytes with
  | nil => intro crc _ _; rfl
  | cons b bytes ih =>
    intro crc hcrc hb
    rw [List.foldl_cons, List.foldl_cons,
      crc16_ccitt_byte_eq hcrc (hb b (List.mem_cons_self _ _)),
      ih _ (crc16_ccitt_update_lt _ _) (fun x hx => hb x (List.mem_cons_of_mem _ hx))]

theorem CrcArgs.processed_lt (a : CrcArgs) : ∀ b ∈ a.processed, b < 256 := by
  intro b hb
  unfold CrcArgs.processed at hb
  rw [List.mem_map] at hb
  obtain ⟨i, -, rfl⟩ := hb
  exact Nat.mod_lt _ (by decide)

/-- The CRC that `main` prints, as a fold of the closed form over the bytes the loop
processes. -/
theorem crcMain_dx (a : CrcArgs) :
    (crcMain a).dx = a.processed.foldl crc16_ccitt_update 0xFFFF := by
  have hlt := crcArgs_cx_lt a
  have hsi : (crcInit a).si = if a.jrc_file then 512 else 0 := by
    show (if !a.jrc_file then 0 else jrc_header_size) = _
    cases a.jrc_file <;> rfl
  have hsi2 : (crcInit a).si ≤ 512 := by rw [hsi]; split <;> omega
  rw [crcMain_eq, crcLoop_dx a.cartridge_data a.cx (crcInit a) (le_refl _) hlt
    (by show (crcInit a).si + a.cx < 2 ^ 32; omega) (crcInit_ax a) (by show 0xFFFF < 65536; decide), hsi]
  rfl

theorem foldl_crc16_ccitt_update_lt :
    ∀ (bytes : List Nat) (crc : Nat), crc < 65536 →
      bytes.foldl crc16_ccitt_update crc < 65536 := by
  intro bytes
  induction bytes with
  | nil => intro crc h; exact h
  | cons b bytes ih => intro crc _; exact ih _ (crc16_ccitt_update_lt _ _)

/-- The CRC that `main` prints is a 16-bit value. -/
theorem crcMain_dx_lt (a : CrcArgs) : (crcMain a).dx < 65536 := by
  rw [crcMain_dx]
  exact foldl_crc16_ccitt_update_lt _ _ (by decide)

/-- The bytes processed when the file is a given list of fewer than 65536 bytes and
no flag is set: the list. -/
theorem processed_of_list (bytes : List Nat) (al : Nat) (h : bytes.length < 65536) :
    CrcArgs.processed ⟨false, false, bytes.length, fun i => bytes.getD i 0, al⟩
      = bytes.map (fun b => b % 256) := by
  have hcx : CrcArgs.cx ⟨false, false, bytes.length, fun i => bytes.getD i 0, al⟩
      = bytes.length := by
    unfold CrcArgs.cx CrcArgs.number_of_bytes
    dsimp only
    rw [if_neg (by decide), if_neg (by decide)]
    omega
  unfold CrcArgs.processed
  rw [hcx]
  dsimp only
  rw [if_neg (by decide)]
  apply List.ext_getElem
  · simp
  · intro i h1 h2
    simp at h1
    simp [List.getElem?_eq_getElem h1]

/-- Two more bytes, the high and then the low byte of the register, clear the
register. -/
theorem crc16_ccitt_update_residue (c : Nat) (hc : c < 65536) :
    crc16_ccitt_update (crc16_ccitt_update c (Register.h c)) (Register.l c) = 0 := by
  have t0 : crcTerm 0 = 0 := by decide
  have e1 : crc16_ccitt_update c (Register.h c) = Register.l c <<< 8 := by
    rw [crc16_ccitt_update_eq _ hc, Nat.xor_self, t0, Nat.xor_zero]
  have hl := Register.l_lt c
  have e2 : Register.l c <<< 8 < 65536 := by rw [Nat.shiftLeft_eq]; omega
  rw [e1, crc16_ccitt_update_eq _ e2, Register.h_shl8, Register.l_shl8]
  have : Register.l (Register.l c) = Register.l c := by unfold Register.l; omega
  rw [this, Nat.xor_self, t0]
  rfl

/-- With fewer than 65536 bytes in the file, of which the last two hold the
checksum of the bytes before them, high byte first, the checksum of the whole file
is 0. -/
theorem crc_residue_of_fit (n : Nat) (data : Nat → Nat) (al : Nat)
    (h2 : 2 ≤ n) (hn : n < 65536)
    (hhi : data (n - 2) % 256 = Register.h (crcMain ⟨true, false, n, data, al⟩).dx)
    (hlo : data (n - 1) % 256 = Register.l (crcMain ⟨true, false, n, data, al⟩).dx) :
    (crcMain ⟨false, false, n, data, al⟩).dx = 0 := by
  have hcx1 : CrcArgs.cx ⟨true, false, n, data, al⟩ = n - 2 := by
    unfold CrcArgs.cx CrcArgs.number_of_bytes
    dsimp only
    rw [if_pos rfl, if_neg (by decide)]
    omega
  have hcx2 : CrcArgs.cx ⟨false, false, n, data, al⟩ = 2 + (n - 2) := by
    unfold CrcArgs.cx CrcArgs.number_of_bytes
    dsimp only
    rw [if_neg (by decide), if_neg (by decide)]
    omega
  have hp1 : CrcArgs.processed ⟨true, false, n, data, al⟩
      = (List.range' 0 (n - 2)).map (fun i => data i % 256) := by
    unfold CrcArgs.processed
    rw [hcx1]
    rfl
  have hp2 : CrcArgs.processed ⟨false, false, n, data, al⟩
      = (List.range' 0 (n - 2)).map (fun i => data i % 256)
          ++ [data (n - 2) % 256, data (n - 1) % 256] := by
    unfold CrcArgs.processed
    rw [hcx2]
    dsimp only
    rw [if_neg (by decide), ← List.range'_append_1 0 (n - 2) 2, List.map_append]
    have e : n - 2 + 1 = n - 1 := by omega
    simp [List.range', e]
  rw [crcMain_dx, hp1] at hhi hlo
  rw [crcMain_dx, hp2, List.foldl_append, List.foldl_cons, List.foldl_cons, List.foldl_nil,
    hhi, hlo]
  exact crc16_ccitt_update_residue _ (foldl_crc16_ccitt_update_lt _ _ (by decide))

theorem crc_residue_of_fit_example :
    (crcMain ⟨false, false, 2, fun _ => 0xFF, 0⟩).dx = 0 :=
  crc_residue_of_fit 2 (fun _ => 0xFF) 0 (by decide) (by decide) (by decide) (by decide)

/-- C21, evaluation at failing inputs. `draw16ColorBitmap` of a bitmap of one byte
(`width_bytes = height_bytes = 1`, both scales 1, origin `(0, 0)`) reads a byte
outside the array.  The indices read through `bitmap_byte` are, newest first,
`1, 0, 0` with `invert_x = 0`: the nibble advance after the second and last pixel
steps `bitmap_byte` forward to index 1, one past the end, and reads it.  With
`invert_x = 1` they are `-1, 0, 0`: the same advance steps `bitmap_byte` back to
the byte before the bitmap and reads it. -/
theorem multilevel_reads_outside_the_bitmap :
    (Blit16.run ⟨fun _ => 0x12, 1, 1, 0, 0, 0, 1, 1, 0, fun _ => 0⟩ (fun _ => 0)).reads
      = [1, 0, 0] ∧
    (Blit16.run ⟨fun _ => 0x12, 1, 1, 0, 0, 0, 1, 1, 1, fun _ => 0⟩ (fun _ => 0)).reads
      = [-1, 0, 0] := by
  decide

/-- C22, evaluation at a failing input. The bi-level bitmap of the one byte `0x80`
(`width_bytes = height_bytes = 1`), colour 1, blank colour 0, origin `(1, 0)`,
`x_scale = 8192`, `y_scale = 1`, on a surface filled with colour 9: the widths
`1 * 8 * 8192` and `4 * 2 * 8192` are both 0 in 16 bits.  `draw2ColorBitmap` draws
the single right-hand pixel of the odd column from bit 7 and leaves `0x91` at
offset 0; `draw16ColorBitmap` on the expanded bitmap writes the low nibble of its
unset local `screen_byte` there and leaves `0x90` when that holds `0x00` and `0x97`
when it holds `0x37`. -/
theorem bilevel_differs_from_multilevel_on_wrap :
    Args2.width_pixels ⟨fun _ => 0x80, 1, 1, 1, 0, 1, 0, 8192, 1⟩ = 0 ∧
    Args16.width_pixels
      ⟨expandBitmap (fun _ => 0x80) 1 1, 4, 1, 0, 1, 0, 8192, 1, 0, fun _ => 0⟩ = 0 ∧
    expandBitmap (fun _ => 0x80) 1 1 0 = 0x10 ∧
    peek (draw2ColorBitmap (fun _ => 0x99) (fun _ => 0x80) 1 1 1 0 1 0 8192 1) 0 = 0x91 ∧
    peek (draw16ColorBitmap (fun _ => 0x00) (fun _ => 0x99)
      (expandBitmap (fun _ => 0x80) 1 1) 4 1 0 1 0 8192 1 0) 0 = 0x90 ∧
    peek (draw16ColorBitmap (fun _ => 0x37) (fun _ => 0x99)
      (expandBitmap (fun _ => 0x80) 1 1) 4 1 0 1 0 8192 1 0) 0 = 0x97 := by
  decide

/-- C23, evaluation at a failing input. `draw16ColorBitmap` of the one byte `0x12`
(`width_bytes = height_bytes = 1`), blank colour 0, origin `(1, 0)`,
`x_scale = 32768`, `y_scale = 1`, `invert_x = 0`, on a surface filled with colour
9: the width `1 * 2 * 32768` is 0 in 16 bits, no pixel is drawn, and the write
after the pixel loop stores the low nibble of the unset local `screen_byte`.  A
first call in which it holds `0x03` leaves `0x93` at offset 0, and a second call
with the same arguments in which it holds `0x05` leaves `0x95`. -/
theorem multilevel_twice_differs_on_wrap :
    Args16.width_pixels ⟨fun _ => 0x12, 1, 1, 0, 1, 0, 32768, 1, 0, fun _ => 0x03⟩ = 0 ∧
    peek (draw16ColorBitmap (fun _ => 0x03) (fun _ => 0x99) (fun _ => 0x12)
      1 1 0 1 0 32768 1 0) 0 = 0x93 ∧
    peek (draw16ColorBitmap (fun _ => 0x05)
      (draw16ColorBitmap (fun _ => 0x03) (fun _ => 0x99) (fun _ => 0x12)
        1 1 0 1 0 32768 1 0)
      (fun _ => 0x12) 1 1 0 1 0 32768 1 0) 0 = 0x95 := by
  decide

/-- C24. The checksum is CRC-16/CCITT with initial value 0xFFFF.  Whatever the
flags, the size of the file and the memory at `cartridge_data`, the value of `DX`
that the loop of `crc.cpp` computes is the bitwise CRC (polynomial `0x1021`,
register initially `0xFFFF`, most significant bit first, no reflection, no final
xor) of the bytes the loop processes, and it is the fold of the per-byte closed
form `t = (crc >> 8) xor d; t = t xor (t >> 4);
crc = ((crc << 8) xor (t << 12) xor (t << 5) xor t) mod 2^16` over them.  In
particular, for a file that is a list of fewer than 65536 bytes and no flag, it is
the bitwise CRC of the list. -/
theorem crc_is_crc16_ccitt (a : CrcArgs) :
    (crcMain a).dx = crc16_ccitt a.processed ∧
    (crcMain a).dx = a.processed.foldl crc16_ccitt_update 0xFFFF ∧
    ∀ bytes : List Nat, bytes.length < 65536 →
      (crcMain ⟨false, false, bytes.length, fun i => bytes.getD i 0,
        a.al_indeterminate⟩).dx = crc16_ccitt (bytes.map (fun b => b % 256)) := by
  have key : ∀ a : CrcArgs, (crcMain a).dx = crc16_ccitt a.processed := by
    intro a
    rw [crcMain_dx]
    exact (foldl_crc16_ccitt_byte a.processed 0xFFFF (by decide) a.processed_lt).symm
  refine ⟨key a, crcMain_dx a, ?_⟩
  intro bytes h
  rw [key, processed_of_list bytes _ h]

set_option maxRecDepth 100000 in
/-- The check value of CRC-16/CCITT-FALSE: the loop computes `0x29B1` for the nine
bytes of the text `123456789`. -/
theorem crc_is_crc16_ccitt_witness :
    (crcMain ⟨false, false, 9,
      fun i => [0x31, 0x32, 0x33, 0x34, 0x35, 0x36, 0x37, 0x38, 0x39].getD i 0, 0⟩).dx
      = 0x29B1 := by
  have h := (crc_is_crc16_ccitt ⟨false, false, 9,
      fun i => [0x31, 0x32, 0x33, 0x34, 0x35, 0x36, 0x37, 0x38, 0x39].getD i 0, 0⟩).2.2
    [0x31, 0x32, 0x33, 0x34, 0x35, 0x36, 0x37, 0x38, 0x39] (by decide)
  have e : crc16_ccitt
      (List.map (fun b => b % 256) [0x31, 0x32, 0x33, 0x34, 0x35, 0x36, 0x37, 0x38, 0x39])
      = 0x29B1 := by decide
  exact h.trans e

/-- C25, evaluation at failing inputs. A file of 65536 bytes whose first 65534 bytes
are those of any `m` and whose last two bytes hold the checksum of the first
65534, high byte first: with `/it` the loop computes that checksum, the value the
two bytes hold, and without `/it` the count `cx.x = number_of_bytes` is 0 in 16
bits, the loop does not run and the value computed is `0xFFFF`, not 0. -/
theorem crc_residue_fails_at_65536 (m : Nat → Nat) (al : Nat) :
    (crcMain ⟨true, false, 65536, m, al⟩).dx < 65536 ∧
    fileWithChecksum m (crcMain ⟨true, false, 65536, m, al⟩).dx 65534
      = Register.h (crcMain ⟨true, false, 65536, m, al⟩).dx ∧
    fileWithChecksum m (crcMain ⟨true, false, 65536, m, al⟩).dx 65535
      = Register.l (crcMain ⟨true, false, 65536, m, al⟩).dx ∧
    (crcMain ⟨true, false, 65536,
      fileWithChecksum m (crcMain ⟨true, false, 65536, m, al⟩).dx, al⟩).dx
      = (crcMain ⟨true, false, 65536, m, al⟩).dx ∧
    (crcMain ⟨false, false, 65536,
      fileWithChecksum m (crcMain ⟨true, false, 65536, m, al⟩).dx, al⟩).reads = [] ∧
    (crcMain ⟨false, false, 65536,
      fileWithChecksum m (crcMain ⟨true, false, 65536, m, al⟩).dx, al⟩).dx = 0xFFFF := by
  refine ⟨crcMain_dx_lt _, ?_⟩
  have h2 := crcMain_dx ⟨true, false, 65536, m, al⟩
  generalize (crcMain ⟨true, false, 65536, m, al⟩).dx = c at h2 ⊢
  have hcx : ∀ d : Nat → Nat, CrcArgs.cx ⟨true, false, 65536, d, al⟩ = 65534 := by
    intro d
    unfold CrcArgs.cx CrcArgs.number_of_bytes jrc_header_size
    dsimp only
    decide
  have hcx0 : ∀ d : Nat → Nat, CrcArgs.cx ⟨false, false, 65536, d, al⟩ = 0 := by
    intro d
    unfold CrcArgs.cx CrcArgs.number_of_bytes jrc_header_size
    dsimp only
    decide
  have hp : ∀ d : Nat → Nat, CrcArgs.processed ⟨true, false, 65536, d, al⟩
      = (List.range' 0 65534).map (fun i => d i % 256) := by
    intro d
    unfold CrcArgs.processed
    rw [hcx d]
    rfl
  refine ⟨if_pos rfl, (if_neg (by omega)).trans (if_pos rfl), ?_, ?_, ?_⟩
  · have h1 := crcMain_dx ⟨true, false, 65536, fileWithChecksum m c, al⟩
    rw [hp (fileWithChecksum m c)] at h1
    rw [hp m] at h2
    refine h1.trans (Eq.trans (congrArg (List.foldl crc16_ccitt_update 0xFFFF) ?_) h2.symm)
    apply List.map_congr_left
    intro i hi
    rw [List.mem_range'_1] at hi
    show (if i = 65534 then _ else if i = 65535 then _ else m i) % 256 = _
    rw [if_neg (by omega), if_neg (by omega)]
  · rw [crcMain_eq, hcx0]
    rfl
  · rw [crcMain_eq, hcx0]
    rfl

end PCjr
